import Mathlib

/-!
# Verification of the aidev impact-analysis / budget-allocation core

Shallow embedding of the TypeScript sources of the `aidev` repository:

* `src/impact/analyzer.ts`   — `ImpactAnalyzer` (component and file traversal)
* `src/prompt/allocator.ts`  — `BudgetAllocator` (validation, category budgets, allocation)
* `src/tokens/generic.ts`    — `GenericTokenEstimator` (estimate / truncate)
* `src/graph/builder.ts`     — `GraphBuilder` (import resolution, edge building)
* `src/utils/paths.ts`       — `normalizePath`
* `src/model/loader.ts`      — `ProjectModel` shape

Modelling conventions:

* JS `number` is modelled by `ℚ` (exact rational arithmetic; all embedded values
  are finite, so `Number.isFinite` checks hold by construction).  `Math.floor` /
  `Math.ceil` are `Int.floor` / `Int.ceil`.
* JS `string` comparison (`<` on strings, UTF-16 code-unit lexicographic) is
  modelled by a lexicographic order on `String.data`; for code points below
  `0x10000` the two orders agree.
* JS `Map` / plain-object records are modelled as insertion-ordered association
  lists (`Map.set` replaces in place or appends); JS `Set` as an
  insertion-ordered duplicate-free list.
* JS `Array.prototype.sort` (stable since ES2019) is modelled by
  `List.insertionSort`, which is stable, using the relation
  "comparator result ≤ 0".
* The `while (head < queue.length)` cursor loops of the analyzer are modelled
  with an explicit step function iterated with fuel (`iterStep`); fuel
  sufficiency (= termination of the JS loop) is proved separately.
* `minimatch` is an external npm library, not repository code; glob matching is
  therefore a parameter (`matcher`) of the analyzer embedding.  No claim
  depends on glob semantics.
-/

namespace Aidev

/-! ## JS string order

`a < b` on JS strings is lexicographic comparison of UTF-16 code units.
We model it on the character list of a Lean `String`. -/

/-- Lexicographic strict comparison of char lists by code point. -/
def lexLt : List Char → List Char → Bool
  | [], [] => false
  | [], _ :: _ => true
  | _ :: _, [] => false
  | a :: as, b :: bs =>
    if a.toNat < b.toNat then true
    else if b.toNat < a.toNat then false
    else lexLt as bs

/-- JS `a < b` on strings. -/
def strLt (a b : String) : Bool := lexLt a.data b.data

/-- "`a` may come weakly before `b`": the relation used to model JS sorts
whose comparator is based on `<`. -/
def strLe (a b : String) : Prop := lexLt b.data a.data = false

instance : DecidableRel strLe := fun a b => by unfold strLe; infer_instance

theorem lexLt_irrefl : ∀ l, lexLt l l = false := by
  intro l
  induction l with
  | nil => rfl
  | cons a as ih => simp [lexLt, ih]

theorem lexLt_asymm : ∀ {l₁ l₂}, lexLt l₁ l₂ = true → lexLt l₂ l₁ = false := by
  intro l₁
  induction l₁ with
  | nil => intro l₂ h; cases l₂ <;> simp_all [lexLt]
  | cons a as ih =>
    intro l₂ h
    cases l₂ with
    | nil => simp_all [lexLt]
    | cons b bs =>
      simp only [lexLt] at h ⊢
      by_cases hab : a.toNat < b.toNat
      · have : ¬ b.toNat < a.toNat := by omega
        simp [hab, this]
      · by_cases hba : b.toNat < a.toNat
        · simp [hab, hba] at h
        · simp only [hab, hba, if_false] at h ⊢
          exact ih h

theorem lexLt_connex : ∀ {l₁ l₂}, lexLt l₁ l₂ = false → lexLt l₂ l₁ = false → l₁ = l₂ := by
  intro l₁
  induction l₁ with
  | nil => intro l₂ h₁ _; cases l₂ <;> simp_all [lexLt]
  | cons a as ih =>
    intro l₂ h₁ h₂
    cases l₂ with
    | nil => simp_all [lexLt]
    | cons b bs =>
      simp only [lexLt] at h₁ h₂
      by_cases hab : a.toNat < b.toNat
      · simp [hab] at h₁
      · by_cases hba : b.toNat < a.toNat
        · simp [hab, hba] at h₂
        · simp only [hab, hba, if_false] at h₁ h₂
          have hc : a = b := Char.eq_of_val_eq (by
            apply UInt32.eq_of_val_eq
            apply Fin.ext
            have : a.toNat = b.toNat := by omega
            exact this)
          rw [hc, ih h₁ h₂]

theorem lexLt_trans : ∀ {l₁ l₂ l₃}, lexLt l₁ l₂ = true → lexLt l₂ l₃ = true →
    lexLt l₁ l₃ = true := by
  intro l₁
  induction l₁ with
  | nil =>
    intro l₂ l₃ h₁ h₂
    cases l₂ with
    | nil => simp_all [lexLt]
    | cons b bs => cases l₃ <;> simp_all [lexLt]
  | cons a as ih =>
    intro l₂ l₃ h₁ h₂
    cases l₂ with
    | nil => simp_all [lexLt]
    | cons b bs =>
      cases l₃ with
      | nil => simp_all [lexLt]
      | cons c cs =>
        simp only [lexLt] at h₁ h₂ ⊢
        by_cases hab : a.toNat < b.toNat <;> by_cases hbc : b.toNat < c.toNat
        · have : a.toNat < c.toNat := by omega
          simp [this]
        · by_cases hcb : c.toNat < b.toNat
          · simp [hab, hbc, hcb] at h₂
          · have hbceq : b.toNat = c.toNat := by omega
            have : a.toNat < c.toNat := by omega
            simp [this]
        · by_cases hba : b.toNat < a.toNat
          · simp [hab, hba] at h₁
          · have : a.toNat < c.toNat := by omega
            simp [this]
        · by_cases hba : b.toNat < a.toNat
          · simp [hab, hba] at h₁
          · by_cases hcb : c.toNat < b.toNat
            · simp [hbc, hcb] at h₂
            · simp only [hab, hba, if_false] at h₁
              simp only [hbc, hcb, if_false] at h₂
              have hac : ¬ a.toNat < c.toNat := by omega
              have hca : ¬ c.toNat < a.toNat := by omega
              simp only [hac, hca, if_false]
              exact ih h₁ h₂

instance : IsTotal String strLe :=
  ⟨fun a b => by
    unfold strLe
    by_cases h : lexLt b.data a.data = true
    · right; exact lexLt_asymm h
    · left; simpa using h⟩

instance : IsTrans String strLe :=
  ⟨fun a b c hab hbc => by
    unfold strLe at *
    by_contra h
    have hca : lexLt c.data a.data = true := by simpa using h
    by_cases hbcd : lexLt b.data c.data = true
    · have : lexLt b.data a.data = true := lexLt_trans hbcd hca
      simp [this] at hab
    · have hbc' : lexLt b.data c.data = false := by simpa using hbcd
      have hbceq : b.data = c.data := lexLt_connex hbc' hbc
      rw [← hbceq] at hca
      simp [hca] at hab⟩

instance : IsAntisymm String strLe :=
  ⟨fun a b hab hba => by
    unfold strLe at hab hba
    exact String.ext (lexLt_connex hba hab)⟩

/-- JS `Array.from(set).sort()` / `[...xs].sort()` on strings. -/
def sortStrings (l : List String) : List String := l.insertionSort strLe

theorem sortStrings_perm (l : List String) : (sortStrings l).Perm l :=
  List.perm_insertionSort strLe l

theorem sortStrings_sorted (l : List String) : List.Sorted strLe (sortStrings l) :=
  List.sorted_insertionSort strLe l

/-- Sorting is invariant under permutation of the input: this is the heart of
the determinism arguments. -/
theorem sortStrings_eq_of_perm {l₁ l₂ : List String} (h : l₁.Perm l₂) :
    sortStrings l₁ = sortStrings l₂ :=
  List.eq_of_perm_of_sorted
    (((sortStrings_perm l₁).trans h).trans (sortStrings_perm l₂).symm)
    (sortStrings_sorted l₁) (sortStrings_sorted l₂)

/-! ## Insertion-ordered association lists (JS `Map`, plain-object records) -/

/-- JS `map.get(k)`: the entry with key `k` (keys are unique by construction,
since maps are only ever built through `mapSet`). -/
def mapGet? {α β : Type _} [BEq α] : List (α × β) → α → Option β
  | [], _ => none
  | p :: ps, k => if p.1 == k then some p.2 else mapGet? ps k

/-- JS `map.get(k) ?? d` / `map.get(k) || d`. -/
def mapGetD {α β : Type _} [BEq α] (m : List (α × β)) (k : α) (d : β) : β :=
  (mapGet? m k).getD d

/-- JS `map.set(k, v)`: replace in place if the key is present, else append. -/
def mapSet {α β : Type _} [BEq α] : List (α × β) → α → β → List (α × β)
  | [], k, v => [(k, v)]
  | p :: ps, k, v => if p.1 == k then (k, v) :: ps else p :: mapSet ps k v

/-- JS `map.has(k)`. -/
def mapHas {α β : Type _} [BEq α] (m : List (α × β)) (k : α) : Bool :=
  (mapGet? m k).isSome

/-- JS `set.add(x)` on an insertion-ordered set. -/
def setAdd {α : Type _} [BEq α] (s : List α) (a : α) : List α :=
  if s.contains a then s else s ++ [a]

section AssocLemmas

variable {α β : Type _}

theorem mapGet?_mapSet_self [BEq α] [LawfulBEq α] (m : List (α × β)) (k : α) (v : β) :
    mapGet? (mapSet m k v) k = some v := by
  induction m with
  | nil => simp [mapSet, mapGet?]
  | cons p ps ih =>
    by_cases h : p.1 == k
    · simp [mapSet, mapGet?, h]
    · simp only [mapSet, h, Bool.false_eq_true, if_false, mapGet?]
      exact ih

theorem mapGet?_mapSet_ne [BEq α] [LawfulBEq α] (m : List (α × β)) {k k' : α} (v : β) (h : (k' == k) = false) :
    mapGet? (mapSet m k v) k' = mapGet? m k' := by
  induction m with
  | nil =>
    have : (k == k') = false := by
      simp only [beq_eq_false_iff_ne, ne_eq] at h ⊢
      exact fun hh => h hh.symm
    simp [mapSet, mapGet?, this]
  | cons p ps ih =>
    by_cases hp : p.1 == k
    · have hpk : p.1 = k := eq_of_beq hp
      have : (k == k') = false := by
        simp only [beq_eq_false_iff_ne, ne_eq] at h ⊢
        exact fun hh => h hh.symm
      have hpk' : (p.1 == k') = false := by rw [hpk]; exact this
      simp [mapSet, mapGet?, hp, this, hpk']
    · simp only [mapSet, hp, Bool.false_eq_true, if_false, mapGet?]
      by_cases hp' : p.1 == k'
      · simp [hp']
      · simp only [hp', Bool.false_eq_true, if_false]
        exact ih

/-- Keys of `mapSet`: unchanged if present, appended if fresh. -/
theorem mapSet_keys [BEq α] [LawfulBEq α] (m : List (α × β)) (k : α) (v : β) :
    (mapSet m k v).map (·.1) = m.map (·.1) ∨
    (mapSet m k v).map (·.1) = m.map (·.1) ++ [k] := by
  induction m with
  | nil => right; simp [mapSet]
  | cons p ps ih =>
    by_cases h : p.1 == k
    · left
      have : p.1 = k := eq_of_beq h
      simp [mapSet, h, this]
    · simp only [mapSet, h, Bool.false_eq_true, if_false, List.map_cons]
      rcases ih with ih | ih
      · left; rw [ih]
      · right; rw [ih]; simp

theorem mapSet_entry_mem [BEq α] {m : List (α × β)} {k : α} {v : β} {p : α × β}
    (h : p ∈ mapSet m k v) : p ∈ m ∨ p = (k, v) := by
  induction m with
  | nil => simp [mapSet] at h; right; exact h
  | cons q qs ih =>
    by_cases hq : q.1 == k
    · simp only [mapSet, hq, if_true, List.mem_cons] at h
      rcases h with h | h
      · right; exact h
      · left; simp [h]
    · simp only [mapSet, hq, Bool.false_eq_true, if_false, List.mem_cons] at h
      rcases h with h | h
      · left; simp [h]
      · rcases ih h with h' | h'
        · left; simp [h']
        · right; exact h'

/-- Sum of values after an accumulate-into-key `mapSet`. -/
theorem mapSet_valuesSum [BEq α] (m : List (α × ℚ)) (k : α) (t : ℚ) :
    ((mapSet m k (mapGetD m k 0 + t)).map (·.2)).sum = (m.map (·.2)).sum + t := by
  induction m with
  | nil => simp [mapSet, mapGetD, mapGet?]
  | cons p ps ih =>
    by_cases h : p.1 == k
    · simp only [mapSet, mapGetD, mapGet?, h, if_true, List.map_cons, List.sum_cons,
        Option.getD_some]
      ring
    · simp only [mapSet, mapGetD, mapGet?, h, Bool.false_eq_true, if_false, List.map_cons,
        List.sum_cons]
      simp only [mapGetD, mapGet?] at ih
      rw [ih]
      ring

/-- A generic fold-preserves-invariant helper. -/
theorem foldl_inv {σ γ : Type _} {P : σ → Prop} {f : σ → γ → σ} (l : List γ)
    (hf : ∀ s x, x ∈ l → P s → P (f s x)) :
    ∀ s, P s → P (l.foldl f s) := by
  induction l with
  | nil => intro s h; exact h
  | cons x xs ih =>
    intro s h
    exact ih (fun s' y hy => hf s' y (List.mem_cons_of_mem _ hy)) (f s x)
      (hf s x (List.mem_cons_self _ _) h)

end AssocLemmas

/-! ## Fuel-based loop iteration

The analyzer's `while (head < queue.length)` loops with an index cursor are
modelled as a step function on an explicit state, iterated with fuel. -/

def iterStep {σ : Type _} (f : σ → σ) (done : σ → Bool) : Nat → σ → σ
  | 0, s => s
  | n + 1, s => if done s then s else iterStep f done n (f s)

theorem iterStep_done {σ : Type _} (f : σ → σ) (done : σ → Bool) (n : Nat) (s : σ)
    (h : done s = true) : iterStep f done n s = s := by
  cases n with
  | zero => rfl
  | succ n => simp [iterStep, h]

/-- Pointwise-equal step functions iterate identically. -/
theorem iterStep_congr {σ : Type _} {f g : σ → σ} {d₁ d₂ : σ → Bool}
    (hf : ∀ s, f s = g s) (hd : ∀ s, d₁ s = d₂ s) :
    ∀ n s, iterStep f d₁ n s = iterStep g d₂ n s := by
  intro n
  induction n with
  | zero => intro s; rfl
  | succ n ih =>
    intro s
    simp only [iterStep, hd s, hf s]
    by_cases h : d₂ s = true
    · simp [h]
    · simp only [Bool.not_eq_true] at h
      simp [h, ih]

/-- An invariant preserved by the step function holds after any number of
iterations. -/
theorem iterStep_inv {σ : Type _} {f : σ → σ} {done : σ → Bool} {I : σ → Prop}
    (hI : ∀ s, I s → I (f s)) :
    ∀ n s, I s → I (iterStep f done n s) := by
  intro n
  induction n with
  | zero => intro s h; exact h
  | succ n ih =>
    intro s h
    simp only [iterStep]
    by_cases hd : done s = true
    · simp [hd, h]
    · simp only [Bool.not_eq_true] at hd
      simp only [hd, Bool.false_eq_true, if_false]
      exact ih (f s) (hI s h)

/-- Fuel stability: if a measure `μ` strictly decreases at every productive
step (under an invariant `I`), any fuel of at least `μ s` computes the same
result as fuel `μ s`.  This is exactly termination of the modelled JS loop. -/
theorem iterStep_stable {σ : Type _} {f : σ → σ} {done : σ → Bool}
    {I : σ → Prop} {μ : σ → Nat}
    (hI : ∀ s, I s → done s = false → I (f s))
    (hμ : ∀ s, I s → done s = false → μ (f s) < μ s) :
    ∀ n s, I s → μ s ≤ n → iterStep f done n s = iterStep f done (μ s) s := by
  intro n
  induction n using Nat.strong_induction_on with
  | _ n ih =>
    intro s hs hn
    match n with
    | 0 =>
      have : μ s = 0 := Nat.le_zero.mp hn
      rw [this]
    | n + 1 =>
      by_cases hd : done s = true
      · rw [iterStep_done _ _ _ _ hd, iterStep_done _ _ _ _ hd]
      · have hd' : done s = false := by simpa using hd
        have hdec := hμ s hs hd'
        have hIf := hI s hs hd'
        have hμs : 1 ≤ μ s := by omega
        simp only [iterStep, hd', Bool.false_eq_true, if_false]
        have h₁ : iterStep f done n (f s) = iterStep f done (μ (f s)) (f s) :=
          ih n (Nat.lt_succ_self n) (f s) hIf (by omega)
        obtain ⟨k, hk⟩ : ∃ k, μ s = k + 1 := ⟨μ s - 1, by omega⟩
        rw [hk]
        simp only [iterStep, hd', Bool.false_eq_true, if_false]
        have h₂ : iterStep f done k (f s) = iterStep f done (μ (f s)) (f s) :=
          ih k (by omega) (f s) hIf (by omega)
        rw [h₁, h₂]

/-- Both-sides version of fuel stability. -/
theorem iterStep_stable₂ {σ : Type _} {f : σ → σ} {done : σ → Bool}
    {I : σ → Prop} {μ : σ → Nat}
    (hI : ∀ s, I s → done s = false → I (f s))
    (hμ : ∀ s, I s → done s = false → μ (f s) < μ s)
    {n m : Nat} {s : σ} (hs : I s) (hn : μ s ≤ n) (hm : μ s ≤ m) :
    iterStep f done n s = iterStep f done m s := by
  rw [iterStep_stable hI hμ n s hs hn, iterStep_stable hI hμ m s hs hm]

/-! ## Budget allocator — `src/prompt/allocator.ts` and `src/tokens/generic.ts` -/

/-- `ContextCategory` union type of `allocator.ts`. -/
inductive ContextCategory
  | task | changed | impacted | contract | architecture | decision
deriving DecidableEq

instance : BEq ContextCategory := ⟨fun a b => decide (a = b)⟩

instance : LawfulBEq ContextCategory where
  eq_of_beq h := of_decide_eq_true h
  rfl := by intro a; exact decide_eq_true rfl

/-- `ContextItem` of `allocator.ts`.  The optional `truncatable` flag is a
`Bool` (JS `undefined` is falsy in the only use `item.truncatable && …`). -/
structure ContextItem where
  category : ContextCategory
  path : Option String
  content : String
  tokens : ℚ
  priority : ℚ
  truncatable : Bool
deriving DecidableEq

/-- `CategoryBudget` of `allocator.ts`. -/
structure CategoryBudget where
  category : ContextCategory
  percentage : ℚ
  minTokens : ℚ
  maxTokens : ℚ

/-- The distinct `BudgetValidationError` messages thrown by `validateBudgets`
and the `BudgetAllocator` constructor, by site. -/
inductive BudgetError
  | duplicateCategory
  | invalidPercentage
  | invalidMinTokens
  | invalidMaxTokens
  | minGreaterMax
  | badPercentageSum
  | invalidTotalBudget
deriving DecidableEq

/-- The per-entry loop of `validateBudgets` (`allocator.ts` lines 47–71),
threading the `seen` set and the running percentage sum; returns the final
percentage sum on success. -/
def validateGo (seen : List ContextCategory) (pctSum : ℚ) :
    List CategoryBudget → Except BudgetError ℚ
  | [] => Except.ok pctSum
  | b :: bs =>
    if b.category ∈ seen then Except.error .duplicateCategory
    else if b.percentage < 0 ∨ 1 < b.percentage then Except.error .invalidPercentage
    else if b.minTokens < 0 then Except.error .invalidMinTokens
    else if b.maxTokens < 0 then Except.error .invalidMaxTokens
    else if b.maxTokens < b.minTokens then Except.error .minGreaterMax
    else validateGo (seen ++ [b.category]) (pctSum + b.percentage) bs

/-- Float tolerance `1e-9` of the percentage-sum check. -/
def pctTolerance : ℚ := 1 / 1000000000

/-- `validateBudgets` (`allocator.ts` lines 47–77).  All `Number.isFinite`
checks hold by construction in the exact-rational embedding. -/
def validateBudgets (budgets : List CategoryBudget) : Except BudgetError Unit :=
  match validateGo [] 0 budgets with
  | Except.error e => Except.error e
  | Except.ok pctSum =>
    if pctTolerance < |pctSum - 1| then Except.error .badPercentageSum
    else Except.ok ()

/-- `DEFAULT_BUDGETS` of `allocator.ts`. -/
def DEFAULT_BUDGETS : List CategoryBudget :=
  [ ⟨.task, 0.05, 200, 2000⟩,
    ⟨.changed, 0.40, 5000, 50000⟩,
    ⟨.impacted, 0.25, 3000, 30000⟩,
    ⟨.contract, 0.15, 2000, 20000⟩,
    ⟨.architecture, 0.10, 1000, 10000⟩,
    ⟨.decision, 0.05, 500, 5000⟩ ]

/-- A constructed `BudgetAllocator` (fields `totalBudget`, `budgets`).  The
token estimator is always `createEstimator('generic')`. -/
structure BudgetAllocator where
  totalBudget : ℚ
  budgets : List CategoryBudget

/-- The `BudgetAllocator` constructor (`allocator.ts` lines 93–109): validates
the total budget, then validates a custom table (`none` = the `DEFAULT_BUDGETS`
default argument, which was already validated at module load and is skipped by
the reference-equality test). -/
def mkBudgetAllocator (totalBudget : ℚ) (budgets? : Option (List CategoryBudget)) :
    Except BudgetError BudgetAllocator :=
  if totalBudget ≤ 0 then Except.error .invalidTotalBudget
  else
    match budgets? with
    | none => Except.ok ⟨totalBudget, DEFAULT_BUDGETS⟩
    | some budgets =>
      match validateBudgets budgets with
      | Except.error e => Except.error e
      | Except.ok _ => Except.ok ⟨totalBudget, budgets⟩

/-! ### `GenericTokenEstimator` (`src/tokens/generic.ts`, lines 1–32) -/

def charsPerToken : ℚ := 3.5

def safetyBuffer : ℚ := 0.10

/-- `estimateText`: `Math.ceil(Math.ceil(len / 3.5) * 1.1)`. -/
def estimateText (text : String) : ℚ :=
  let baseEstimate : ℤ := ⌈(text.length : ℚ) / charsPerToken⌉
  ((⌈(baseEstimate : ℚ) * (1 + safetyBuffer)⌉ : ℤ) : ℚ)

/-- `truncateToFit` (first shipped version, `generic.ts` lines 15–31).
`text.slice(0, targetChars)` is modelled on the character list. -/
def truncateToFit (text : String) (maxTokens : ℚ) : String :=
  if estimateText text ≤ maxTokens then text
  else
    let targetChars : ℤ := ⌊maxTokens / (1 + safetyBuffer) * charsPerToken⌋ - 20
    if targetChars ≤ 0 then "... [truncated]"
    else String.mk (text.data.take targetChars.toNat) ++ "\n... [truncated]"

/-- `BudgetAllocator.truncateItem` (`allocator.ts` lines 188–197). -/
def truncateItem (item : ContextItem) (maxTokens : ℚ) : ContextItem :=
  let truncated := truncateToFit item.content maxTokens
  { item with content := truncated, tokens := estimateText truncated, truncatable := false }

/-- The per-entry computation of `calculateCategoryBudgets` (`allocator.ts`
lines 174–182): `Math.floor(total × pct)`, capped by `maxTokens`, with the
`minTokens` floor applied only when the total budget is at least 10000. -/
def categoryBudgetValue (total : ℚ) (b : CategoryBudget) : ℚ :=
  let budget0 : ℚ := ((⌊total * b.percentage⌋ : ℤ) : ℚ)
  let budget1 : ℚ := min budget0 b.maxTokens
  if 10000 ≤ total then max b.minTokens budget1 else budget1

/-- `calculateCategoryBudgets` (`allocator.ts` lines 171–186). -/
def calculateCategoryBudgets (alloc : BudgetAllocator) : List (ContextCategory × ℚ) :=
  alloc.budgets.foldl
    (fun m b => mapSet m b.category (categoryBudgetValue alloc.totalBudget b))
    []

/-- `AllocationResult` of `allocator.ts`. -/
structure AllocationResult where
  allocated : List ContextItem
  dropped : List ContextItem
  totalTokens : ℚ
  budgetUsed : List (ContextCategory × ℚ)

/-- Path tie-break key: `a.path ?? ''`. -/
def pathKey (item : ContextItem) : String := item.path.getD ""

/-- "`a` comes weakly before `b`" for the per-category sort of `allocate`
(comparator at `allocator.ts` lines 137–145): descending priority, ties broken
by ascending plain ordinal comparison of `path`. -/
def itemBefore (a b : ContextItem) : Prop :=
  b.priority < a.priority ∨ (b.priority = a.priority ∧ strLe (pathKey a) (pathKey b))

instance : DecidableRel itemBefore := fun a b => by unfold itemBefore; infer_instance

instance : IsTotal ContextItem itemBefore :=
  ⟨fun a b => by
    unfold itemBefore
    rcases lt_trichotomy a.priority b.priority with h | h | h
    · right; left; exact h
    · rcases IsTotal.total (r := strLe) (pathKey a) (pathKey b) with hp | hp
      · left; right; exact ⟨h.symm, hp⟩
      · right; right; exact ⟨h, hp⟩
    · left; left; exact h⟩

instance : IsTrans ContextItem itemBefore :=
  ⟨fun a b c hab hbc => by
    unfold itemBefore at *
    rcases hab with h₁ | ⟨h₁, hp₁⟩ <;> rcases hbc with h₂ | ⟨h₂, hp₂⟩
    · left; exact h₂.trans h₁
    · left; rwa [h₂]
    · left; rwa [← h₁]
    · right; exact ⟨h₂.trans h₁, Trans.trans hp₁ hp₂⟩⟩

/-- The per-category item sort `[...categoryItems].sort(...)`. -/
def sortItems (l : List ContextItem) : List ContextItem := l.insertionSort itemBefore

/-- The relation of the final `allocated.sort((a, b) => b.priority - a.priority)`. -/
def priorityGe (a b : ContextItem) : Prop := b.priority ≤ a.priority

instance : DecidableRel priorityGe := fun a b => by unfold priorityGe; infer_instance

instance : IsTotal ContextItem priorityGe :=
  ⟨fun a b => le_total b.priority a.priority⟩

instance : IsTrans ContextItem priorityGe :=
  ⟨fun _ _ _ hab hbc => le_trans hbc hab⟩

/-- `byCategory` grouping of `allocate` (`allocator.ts` lines 123–128): a JS
`Map` from category to the list of items pushed in encounter order. -/
def groupByCategory (items : List ContextItem) : List (ContextCategory × List ContextItem) :=
  items.foldl (fun m item => mapSet m item.category (mapGetD m item.category [] ++ [item])) []

/-- Intermediate state of the allocation loops. -/
structure AllocSt where
  allocated : List ContextItem
  dropped : List ContextItem
  budgetUsed : List (ContextCategory × ℚ)

/-- Body of the `for (const item of sorted)` loop (`allocator.ts` lines
147–160); the second component is the category's `remaining` budget. -/
def allocStep (category : ContextCategory) (t : AllocSt × ℚ) (item : ContextItem) :
    AllocSt × ℚ :=
  let st := t.1
  let remaining := t.2
  if item.tokens ≤ remaining then
    (⟨st.allocated ++ [item], st.dropped,
      mapSet st.budgetUsed category (mapGetD st.budgetUsed category 0 + item.tokens)⟩,
     remaining - item.tokens)
  else if item.truncatable = true ∧ 100 < remaining then
    let truncated := truncateItem item remaining
    (⟨st.allocated ++ [truncated], st.dropped,
      mapSet st.budgetUsed category (mapGetD st.budgetUsed category 0 + truncated.tokens)⟩,
     0)
  else
    (⟨st.allocated, st.dropped ++ [item], st.budgetUsed⟩, remaining)

/-- One round of the `for (const [category, categoryItems] of byCategory)` loop. -/
def allocCategory (categoryBudgets : List (ContextCategory × ℚ)) (st : AllocSt)
    (g : ContextCategory × List ContextItem) : AllocSt :=
  let budget := mapGetD categoryBudgets g.1 0
  ((sortItems g.2).foldl (allocStep g.1) (st, budget)).1

/-- `BudgetAllocator.allocate` (`allocator.ts` lines 111–169). -/
def allocate (alloc : BudgetAllocator) (items : List ContextItem) : AllocationResult :=
  let categoryBudgets := calculateCategoryBudgets alloc
  let budgetUsed0 := alloc.budgets.foldl (fun m b => mapSet m b.category 0) []
  let byCategory := groupByCategory items
  let st := byCategory.foldl (allocCategory categoryBudgets) ⟨[], [], budgetUsed0⟩
  { allocated := st.allocated.insertionSort priorityGe,
    dropped := st.dropped,
    totalTokens := (st.budgetUsed.map (·.2)).sum,
    budgetUsed := st.budgetUsed }

/-! ### Characterization of `validateBudgets` -/

/-- Per-entry well-formedness checked by the `validateBudgets` loop. -/
def EntryOk (b : CategoryBudget) : Prop :=
  0 ≤ b.percentage ∧ b.percentage ≤ 1 ∧ 0 ≤ b.minTokens ∧ 0 ≤ b.maxTokens ∧
    b.minTokens ≤ b.maxTokens

/-- Success condition of the `validateBudgets` entry loop started with `seen`. -/
def GoodFrom (seen : List ContextCategory) (bs : List CategoryBudget) : Prop :=
  (bs.map (·.category)).Nodup ∧ (∀ c ∈ bs.map (·.category), c ∉ seen) ∧ ∀ b ∈ bs, EntryOk b

theorem GoodFrom_cons {seen : List ContextCategory} {b : CategoryBudget}
    {bs : List CategoryBudget} :
    GoodFrom seen (b :: bs) ↔
      EntryOk b ∧ b.category ∉ seen ∧ GoodFrom (seen ++ [b.category]) bs := by
  unfold GoodFrom
  constructor
  · rintro ⟨hnd, hseen, hok⟩
    simp only [List.map_cons, List.nodup_cons] at hnd
    refine ⟨hok b (by simp), hseen _ (by simp), hnd.2, ?_, ?_⟩
    · intro c hc
      simp only [List.mem_append, List.mem_singleton]
      rintro (hc' | hc')
      · exact hseen c (by simp [hc]) hc'
      · exact hnd.1 (hc' ▸ hc)
    · intro b' hb'
      exact hok b' (by simp [hb'])
  · rintro ⟨hb, hbseen, hnd, hseen, hok⟩
    refine ⟨?_, ?_, ?_⟩
    · simp only [List.map_cons, List.nodup_cons]
      refine ⟨fun hmem => ?_, hnd⟩
      exact hseen _ hmem (by simp)
    · intro c hc
      simp only [List.map_cons, List.mem_cons] at hc
      rcases hc with hc | hc
      · rwa [hc]
      · intro hcseen
        exact hseen c hc (by simp [hcseen])
    · intro b' hb'
      rcases List.mem_cons.mp hb' with h | h
      · rwa [h]
      · exact hok b' h

theorem validateGo_ok_iff (bs : List CategoryBudget) :
    ∀ (seen : List ContextCategory) (acc : ℚ),
      (∃ r, validateGo seen acc bs = Except.ok r) ↔ GoodFrom seen bs := by
  induction bs with
  | nil =>
    intro seen acc
    simp [validateGo, GoodFrom]
  | cons b bs ih =>
    intro seen acc
    rw [GoodFrom_cons]
    simp only [validateGo]
    by_cases h1 : b.category ∈ seen
    · rw [if_pos h1]
      constructor
      · rintro ⟨r, hr⟩; cases hr
      · rintro ⟨_, hns, _⟩; exact absurd h1 hns
    · rw [if_neg h1]
      by_cases h2 : b.percentage < 0 ∨ 1 < b.percentage
      · rw [if_pos h2]
        constructor
        · rintro ⟨r, hr⟩; cases hr
        · rintro ⟨⟨hp0, hp1, _⟩, _, _⟩
          rcases h2 with h2 | h2
          · exact absurd h2 (not_lt.mpr hp0)
          · exact absurd h2 (not_lt.mpr hp1)
      · rw [if_neg h2]
        by_cases h3 : b.minTokens < 0
        · rw [if_pos h3]
          constructor
          · rintro ⟨r, hr⟩; cases hr
          · rintro ⟨⟨_, _, hm, _, _⟩, _, _⟩
            exact absurd h3 (not_lt.mpr hm)
        · rw [if_neg h3]
          by_cases h4 : b.maxTokens < 0
          · rw [if_pos h4]
            constructor
            · rintro ⟨r, hr⟩; cases hr
            · rintro ⟨⟨_, _, _, hM, _⟩, _, _⟩
              exact absurd h4 (not_lt.mpr hM)
          · rw [if_neg h4]
            by_cases h5 : b.maxTokens < b.minTokens
            · rw [if_pos h5]
              constructor
              · rintro ⟨r, hr⟩; cases hr
              · rintro ⟨⟨_, _, _, _, hmM⟩, _, _⟩
                exact absurd h5 (not_lt.mpr hmM)
            · rw [if_neg h5]
              rw [ih (seen ++ [b.category]) (acc + b.percentage)]
              push_neg at h2 h3 h4 h5
              constructor
              · intro hgood
                exact ⟨⟨h2.1, h2.2, h3, h4, h5⟩, h1, hgood⟩
              · rintro ⟨_, _, hgood⟩
                exact hgood

theorem validateGo_ok_val (bs : List CategoryBudget) :
    ∀ (seen : List ContextCategory) (acc : ℚ) (r : ℚ),
      validateGo seen acc bs = Except.ok r → r = acc + (bs.map (·.percentage)).sum := by
  induction bs with
  | nil =>
    intro seen acc r hr
    simp only [validateGo, Except.ok.injEq] at hr
    simp [← hr]
  | cons b bs ih =>
    intro seen acc r hr
    simp only [validateGo] at hr
    by_cases h1 : b.category ∈ seen
    · rw [if_pos h1] at hr; cases hr
    · rw [if_neg h1] at hr
      by_cases h2 : b.percentage < 0 ∨ 1 < b.percentage
      · rw [if_pos h2] at hr; cases hr
      · rw [if_neg h2] at hr
        by_cases h3 : b.minTokens < 0
        · rw [if_pos h3] at hr; cases hr
        · rw [if_neg h3] at hr
          by_cases h4 : b.maxTokens < 0
          · rw [if_pos h4] at hr; cases hr
          · rw [if_neg h4] at hr
            by_cases h5 : b.maxTokens < b.minTokens
            · rw [if_pos h5] at hr; cases hr
            · rw [if_neg h5] at hr
              have := ih _ _ _ hr
              rw [this]
              simp [List.sum_cons]
              ring

theorem validateBudgets_ok_iff (bs : List CategoryBudget) :
    validateBudgets bs = Except.ok () ↔
      GoodFrom [] bs ∧ |(bs.map (·.percentage)).sum - 1| ≤ pctTolerance := by
  unfold validateBudgets
  rcases hgo : validateGo [] 0 bs with e | r
  · dsimp only
    constructor
    · intro h; cases h
    · rintro ⟨hgood, _⟩
      obtain ⟨r, hr⟩ := (validateGo_ok_iff bs [] 0).mpr hgood
      rw [hgo] at hr; cases hr
  · have hr : r = 0 + (bs.map (·.percentage)).sum := validateGo_ok_val bs [] 0 r hgo
    rw [zero_add] at hr
    subst hr
    dsimp only
    by_cases htol : pctTolerance < |(bs.map (·.percentage)).sum - 1|
    · rw [if_pos htol]
      constructor
      · intro h; cases h
      · rintro ⟨_, hle⟩; exact absurd htol (not_lt.mpr hle)
    · rw [if_neg htol]
      push_neg at htol
      constructor
      · intro _
        exact ⟨(validateGo_ok_iff bs [] 0).mp ⟨_, hgo⟩, htol⟩
      · intro _; rfl

/-- The table violations enumerated by claim C3 (in the exact-rational
embedding all numbers are finite, so the `Number.isFinite` disjuncts are
vacuous). -/
def TableViolation (bs : List CategoryBudget) : Prop :=
  ¬ (bs.map (·.category)).Nodup ∨
  (∃ b ∈ bs, b.percentage < 0 ∨ 1 < b.percentage) ∨
  (∃ b ∈ bs, b.minTokens < 0) ∨
  (∃ b ∈ bs, b.maxTokens < 0) ∨
  (∃ b ∈ bs, b.maxTokens < b.minTokens) ∨
  pctTolerance < |(bs.map (·.percentage)).sum - 1|

theorem TableViolation_iff (bs : List CategoryBudget) :
    TableViolation bs ↔
      ¬ (GoodFrom [] bs ∧ |(bs.map (·.percentage)).sum - 1| ≤ pctTolerance) := by
  unfold TableViolation GoodFrom EntryOk
  constructor
  · rintro (h | h | h | h | h | h) ⟨⟨hnd, _, hok⟩, htol⟩
    · exact h hnd
    · obtain ⟨b, hb, hbad⟩ := h
      obtain ⟨h0, h1, _, _, _⟩ := hok b hb
      rcases hbad with hbad | hbad
      · exact absurd hbad (not_lt.mpr h0)
      · exact absurd hbad (not_lt.mpr h1)
    · obtain ⟨b, hb, hbad⟩ := h
      obtain ⟨_, _, hm, _, _⟩ := hok b hb
      exact absurd hbad (not_lt.mpr hm)
    · obtain ⟨b, hb, hbad⟩ := h
      obtain ⟨_, _, _, hM, _⟩ := hok b hb
      exact absurd hbad (not_lt.mpr hM)
    · obtain ⟨b, hb, hbad⟩ := h
      obtain ⟨_, _, _, _, hmM⟩ := hok b hb
      exact absurd hbad (not_lt.mpr hmM)
    · exact absurd h (not_lt.mpr htol)
  · intro h
    by_contra hcon
    push_neg at hcon
    obtain ⟨hnd, hpct, hmin, hmax, hminmax, htol⟩ := hcon
    refine h ⟨⟨hnd, fun c _ => List.not_mem_nil c, fun b hb => ?_⟩, htol⟩
    obtain ⟨h0, h1⟩ := hpct b hb
    exact ⟨h0, h1, hmin b hb, hmax b hb, hminmax b hb⟩

/-- C3: Constructing a `BudgetAllocator` raises a `BudgetValidationError` if
and only if the total budget is not positive (in the exact embedding every
value is finite), or the supplied category table contains one of the
enumerated violations.  Validation happens entirely inside the constructor —
`allocate` is a separate total function on the successfully constructed value,
so no allocation work precedes the error and a constructed allocator's
`allocate` never throws (it is a total Lean function by construction). -/
theorem budget_validation_iff (total : ℚ) (bs : List CategoryBudget) :
    ((∃ e, mkBudgetAllocator total (some bs) = Except.error e) ↔
      (total ≤ 0 ∨ TableViolation bs)) ∧
    ((∃ e, mkBudgetAllocator total none = Except.error e) ↔ total ≤ 0) := by
  unfold mkBudgetAllocator
  by_cases htot : total ≤ 0
  · rw [if_pos htot, if_pos htot]
    exact ⟨⟨fun _ => Or.inl htot, fun _ => ⟨_, rfl⟩⟩, ⟨fun _ => htot, fun _ => ⟨_, rfl⟩⟩⟩
  · rw [if_neg htot, if_neg htot]
    dsimp only
    refine ⟨?_, ?_⟩
    · rcases hv : validateBudgets bs with e | u
      · dsimp only
        constructor
        · intro _
          right
          rw [TableViolation_iff]
          intro hok
          have : validateBudgets bs = Except.ok () := (validateBudgets_ok_iff bs).mpr hok
          rw [this] at hv
          cases hv
        · intro _
          exact ⟨e, rfl⟩
      · cases u
        dsimp only
        constructor
        · rintro ⟨e', he'⟩; cases he'
        · rintro (hh | hh)
          · exact absurd hh htot
          · rw [TableViolation_iff] at hh
            exact absurd ((validateBudgets_ok_iff bs).mp hv) hh
    · constructor
      · rintro ⟨e', he'⟩; cases he'
      · intro hh
        exact absurd hh htot

/-- Facts available once custom-table construction succeeds. -/
theorem mk_ok_facts {total : ℚ} {bs : List CategoryBudget} {a : BudgetAllocator}
    (h : mkBudgetAllocator total (some bs) = Except.ok a) :
    0 < total ∧ a.totalBudget = total ∧ a.budgets = bs ∧ GoodFrom [] bs := by
  unfold mkBudgetAllocator at h
  by_cases htot : total ≤ 0
  · rw [if_pos htot] at h; cases h
  · rw [if_neg htot] at h
    dsimp only at h
    rcases hv : validateBudgets bs with e | u
    · rw [hv] at h; cases h
    · cases u
      rw [hv] at h
      cases h
      exact ⟨lt_of_not_le htot, rfl, rfl, ((validateBudgets_ok_iff bs).mp hv).1⟩

/-! ### Core lemmas about `allocate` -/

/-- An allocated item is either an input item unchanged or a truncation of
one (claim C2's "possibly with truncated content and recomputed tokens"). -/
def ItemVersion (a o : ContextItem) : Prop :=
  a = o ∨ ∃ r : ℚ, a = truncateItem o r

/-! Small helpers about association-list entries. -/

theorem mapGet?_some_entry {α β : Type _} [BEq α] [LawfulBEq α] {m : List (α × β)} {k : α}
    {v : β} (h : mapGet? m k = some v) : ∃ p ∈ m, p.1 = k ∧ p.2 = v := by
  induction m with
  | nil => cases h
  | cons p ps ih =>
    by_cases hp : p.1 == k
    · simp only [mapGet?, hp, if_true, Option.some.injEq] at h
      exact ⟨p, by simp, eq_of_beq hp, h⟩
    · simp only [mapGet?, hp, Bool.false_eq_true, if_false] at h
      obtain ⟨q, hq, h1, h2⟩ := ih h
      exact ⟨q, by simp [hq], h1, h2⟩

theorem mapGet?_isSome_of_mem {α β : Type _} [BEq α] [LawfulBEq α] {m : List (α × β)}
    {p : α × β} (hp : p ∈ m) : ∃ v, mapGet? m p.1 = some v := by
  induction m with
  | nil => cases hp
  | cons q qs ih =>
    by_cases hq : q.1 == p.1
    · exact ⟨q.2, by simp [mapGet?, hq]⟩
    · rcases List.mem_cons.mp hp with hh | hh
      · exfalso; apply hq; rw [hh]; exact beq_iff_eq.mpr rfl
      · obtain ⟨v, hv⟩ := ih hh
        exact ⟨v, by simp [mapGet?, hq, hv]⟩

theorem mapSet_keys_mem {α β : Type _} [BEq α] [LawfulBEq α] {m : List (α × β)} {k k' : α}
    {v : β} (h : k' ∈ (mapSet m k v).map (·.1)) : k' ∈ m.map (·.1) ∨ k' = k := by
  rw [List.mem_map] at h
  obtain ⟨p, hp, hpk⟩ := h
  rcases mapSet_entry_mem hp with hh | hh
  · left; rw [← hpk]; exact List.mem_map_of_mem _ hh
  · right; rw [← hpk, hh]

theorem mapSet_keys_nodup {α β : Type _} [BEq α] [LawfulBEq α] {m : List (α × β)} (k : α)
    (v : β) (h : (m.map (·.1)).Nodup) : ((mapSet m k v).map (·.1)).Nodup := by
  induction m with
  | nil => simp [mapSet]
  | cons p ps ih =>
    simp only [List.map_cons, List.nodup_cons] at h
    by_cases hp : p.1 == k
    · have hpk : p.1 = k := eq_of_beq hp
      simp only [mapSet, hp, if_true, List.map_cons, List.nodup_cons]
      exact ⟨hpk ▸ h.1, h.2⟩
    · simp only [mapSet, hp, Bool.false_eq_true, if_false, List.map_cons, List.nodup_cons]
      refine ⟨fun hmem => ?_, ih h.2⟩
      rcases mapSet_keys_mem hmem with hh | hh
      · exact h.1 hh
      · exact hp (beq_iff_eq.mpr hh)

/-- Grouping: the concatenation of the per-category lists is a permutation of
the input items. -/
theorem groupBy_step_flatten (m : List (ContextCategory × List ContextItem))
    (x : ContextItem) (k : ContextCategory) :
    (((mapSet m k (mapGetD m k [] ++ [x])).map (·.2)).flatten).Perm
      ((m.map (·.2)).flatten ++ [x]) := by
  induction m with
  | nil => simp [mapSet, mapGetD, mapGet?]
  | cons p ps ih =>
    by_cases h : p.1 == k
    · simp only [mapGetD, mapGet?, h, if_true, Option.getD_some, mapSet, List.map_cons,
        List.flatten_cons, List.append_assoc, List.singleton_append]
      exact List.Perm.append_left _ (@List.perm_append_comm _ [x] _)
    · simp only [mapGetD, mapGet?, h, Bool.false_eq_true, if_false, mapSet, List.map_cons,
        List.flatten_cons, List.append_assoc]
      apply List.Perm.append_left
      have ih' := ih
      simp only [mapGetD, List.append_assoc] at ih'
      exact ih'

theorem groupBy_flatten_perm_aux (items : List ContextItem) :
    ∀ m, (((items.foldl
        (fun m item => mapSet m item.category (mapGetD m item.category [] ++ [item])) m)).map
          (·.2)).flatten.Perm ((m.map (·.2)).flatten ++ items) := by
  induction items with
  | nil => intro m; simp
  | cons x xs ih =>
    intro m
    rw [List.foldl_cons]
    refine (ih _).trans ?_
    refine ((groupBy_step_flatten m x x.category).append_right xs).trans ?_
    rw [List.append_assoc]
    exact List.Perm.refl _

theorem groupBy_flatten_perm (items : List ContextItem) :
    (((groupByCategory items).map (·.2)).flatten).Perm items := by
  have := groupBy_flatten_perm_aux items []
  simpa [groupByCategory] using this

/-- Members of a group are input items. -/
theorem groupBy_mem {items : List ContextItem} {g : ContextCategory × List ContextItem}
    (hg : g ∈ groupByCategory items) {x : ContextItem} (hx : x ∈ g.2) : x ∈ items := by
  have hperm := groupBy_flatten_perm items
  have : x ∈ ((groupByCategory items).map (·.2)).flatten := by
    rw [List.mem_flatten]
    exact ⟨g.2, List.mem_map_of_mem _ hg, hx⟩
  exact hperm.mem_iff.mp this

/-- Every item in a group carries the group's category. -/
theorem groupBy_cat {items : List ContextItem} :
    ∀ g ∈ groupByCategory items, ∀ x ∈ g.2, x.category = g.1 := by
  unfold groupByCategory
  suffices h : ∀ (m : List (ContextCategory × List ContextItem)),
      (∀ g ∈ m, ∀ x ∈ g.2, x.category = g.1) →
      ∀ g ∈ items.foldl
        (fun m item => mapSet m item.category (mapGetD m item.category [] ++ [item])) m,
        ∀ x ∈ g.2, x.category = g.1 by
    intro g hg x hx
    exact h [] (by simp) g hg x hx
  induction items with
  | nil => intro m hm; simpa using hm
  | cons i is ih =>
    intro m hm
    rw [List.foldl_cons]
    apply ih
    intro g hg x hx
    rcases mapSet_entry_mem hg with hgm | hge
    · exact hm g hgm x hx
    · subst hge
      simp only at hx
      rcases List.mem_append.mp hx with hx | hx
      · unfold mapGetD at hx
        rcases hfind : mapGet? m i.category with _ | v
        · rw [hfind] at hx; simp at hx
        · rw [hfind] at hx
          simp only [Option.getD_some] at hx
          obtain ⟨g', hg', h1, h2⟩ := mapGet?_some_entry hfind
          have := hm g' hg' x (h2 ▸ hx)
          rw [this, h1]
      · simp only [List.mem_singleton] at hx
        rw [hx]

/-- Group keys are duplicate-free. -/
theorem groupBy_keys_nodup (items : List ContextItem) :
    ((groupByCategory items).map (·.1)).Nodup := by
  unfold groupByCategory
  suffices h : ∀ (m : List (ContextCategory × List ContextItem)), (m.map (·.1)).Nodup →
      ((items.foldl
        (fun m item => mapSet m item.category (mapGetD m item.category [] ++ [item])) m).map
          (·.1)).Nodup by
    exact h [] (by simp)
  induction items with
  | nil => intro m hm; simpa using hm
  | cons i is ih =>
    intro m hm
    rw [List.foldl_cons]
    exact ih _ (mapSet_keys_nodup _ _ hm)

theorem allocStep_accept {cat : ContextCategory} {st : AllocSt} {rem : ℚ}
    {i : ContextItem} (h1 : i.tokens ≤ rem) :
    allocStep cat (st, rem) i =
      (⟨st.allocated ++ [i], st.dropped,
        mapSet st.budgetUsed cat (mapGetD st.budgetUsed cat 0 + i.tokens)⟩,
       rem - i.tokens) := by
  unfold allocStep
  rw [if_pos h1]

theorem allocStep_truncate {cat : ContextCategory} {st : AllocSt} {rem : ℚ}
    {i : ContextItem} (h1 : ¬ i.tokens ≤ rem) (h2 : i.truncatable = true ∧ 100 < rem) :
    allocStep cat (st, rem) i =
      (⟨st.allocated ++ [truncateItem i rem], st.dropped,
        mapSet st.budgetUsed cat
          (mapGetD st.budgetUsed cat 0 + (truncateItem i rem).tokens)⟩, 0) := by
  unfold allocStep
  rw [if_neg h1, if_pos h2]

theorem allocStep_drop {cat : ContextCategory} {st : AllocSt} {rem : ℚ}
    {i : ContextItem} (h1 : ¬ i.tokens ≤ rem) (h2 : ¬ (i.truncatable = true ∧ 100 < rem)) :
    allocStep cat (st, rem) i =
      (⟨st.allocated, st.dropped ++ [i], st.budgetUsed⟩, rem) := by
  unfold allocStep
  rw [if_neg h1, if_neg h2]

/-- Inner per-category loop: the allocated and dropped lists only grow, every
new allocated item is a version of a processed item, and processed items are
split between the two lists; the dropped chunk keeps the processing order. -/
theorem allocFold_parts (cat : ContextCategory) (l : List ContextItem) :
    ∀ (st : AllocSt) (rem : ℚ),
      ∃ A D origs,
        (l.foldl (allocStep cat) (st, rem)).1.allocated = st.allocated ++ A ∧
        (l.foldl (allocStep cat) (st, rem)).1.dropped = st.dropped ++ D ∧
        List.Forall₂ ItemVersion A origs ∧
        (origs ++ D).Perm l ∧
        D.Sublist l := by
  induction l with
  | nil =>
    intro st rem
    exact ⟨[], [], [], by simp, by simp, List.Forall₂.nil, by simp, by simp⟩
  | cons i l ih =>
    intro st rem
    rw [List.foldl_cons]
    by_cases h1 : i.tokens ≤ rem
    · rw [allocStep_accept h1]
      obtain ⟨A, D, origs, hA, hD, hF, hP, hS⟩ :=
        ih ⟨st.allocated ++ [i], st.dropped,
          mapSet st.budgetUsed cat (mapGetD st.budgetUsed cat 0 + i.tokens)⟩ (rem - i.tokens)
      refine ⟨i :: A, D, i :: origs, ?_, ?_, ?_, ?_, ?_⟩
      · rw [hA]; simp
      · rw [hD]
      · exact List.Forall₂.cons (Or.inl rfl) hF
      · exact hP.cons i
      · exact hS.cons i
    · by_cases h2 : i.truncatable = true ∧ 100 < rem
      · rw [allocStep_truncate h1 h2]
        obtain ⟨A, D, origs, hA, hD, hF, hP, hS⟩ :=
          ih ⟨st.allocated ++ [truncateItem i rem], st.dropped,
            mapSet st.budgetUsed cat
              (mapGetD st.budgetUsed cat 0 + (truncateItem i rem).tokens)⟩ 0
        refine ⟨truncateItem i rem :: A, D, i :: origs, ?_, ?_, ?_, ?_, ?_⟩
        · rw [hA]; simp
        · rw [hD]
        · exact List.Forall₂.cons (Or.inr ⟨rem, rfl⟩) hF
        · exact hP.cons i
        · exact hS.cons i
      · rw [allocStep_drop h1 h2]
        obtain ⟨A, D, origs, hA, hD, hF, hP, hS⟩ :=
          ih ⟨st.allocated, st.dropped ++ [i], st.budgetUsed⟩ rem
        refine ⟨A, i :: D, origs, ?_, ?_, ?_, ?_, ?_⟩
        · rw [hA]
        · rw [hD]; simp
        · exact hF
        · exact List.Perm.trans List.perm_middle (hP.cons i)
        · exact hS.cons₂ i

theorem forall₂_append {α β : Type _} {R : α → β → Prop} :
    ∀ {l₁ l₃ : List α} {l₂ l₄ : List β}, List.Forall₂ R l₁ l₂ → List.Forall₂ R l₃ l₄ →
      List.Forall₂ R (l₁ ++ l₃) (l₂ ++ l₄) := by
  intro l₁ l₃ l₂ l₄ h₁ h₂
  induction h₁ with
  | nil => simpa
  | cons h _ ih => exact List.Forall₂.cons h ih

/-- Outer loop over the category groups. -/
theorem allocGroups_parts (cb : List (ContextCategory × ℚ))
    (gs : List (ContextCategory × List ContextItem)) :
    ∀ (st : AllocSt),
      ∃ A D origs,
        (gs.foldl (allocCategory cb) st).allocated = st.allocated ++ A ∧
        (gs.foldl (allocCategory cb) st).dropped = st.dropped ++ D ∧
        List.Forall₂ ItemVersion A origs ∧
        (origs ++ D).Perm ((gs.map (·.2)).flatten) := by
  induction gs with
  | nil =>
    intro st
    exact ⟨[], [], [], by simp, by simp, List.Forall₂.nil, by simp⟩
  | cons g gs ih =>
    intro st
    rw [List.foldl_cons]
    obtain ⟨A₁, D₁, origs₁, hA₁, hD₁, hF₁, hP₁, _⟩ :=
      allocFold_parts g.1 (sortItems g.2) st (mapGetD cb g.1 0)
    obtain ⟨A₂, D₂, origs₂, hA₂, hD₂, hF₂, hP₂⟩ := ih (allocCategory cb st g)
    have hA₁' : (allocCategory cb st g).allocated = st.allocated ++ A₁ := by
      unfold allocCategory
      exact hA₁
    have hD₁' : (allocCategory cb st g).dropped = st.dropped ++ D₁ := by
      unfold allocCategory
      exact hD₁
    refine ⟨A₁ ++ A₂, D₁ ++ D₂, origs₁ ++ origs₂, ?_, ?_, forall₂_append hF₁ hF₂, ?_⟩
    · rw [hA₂, hA₁', List.append_assoc]
    · rw [hD₂, hD₁', List.append_assoc]
    · have hsorted : (sortItems g.2).Perm g.2 := List.perm_insertionSort itemBefore g.2
      have h1 : (origs₁ ++ D₁).Perm g.2 := hP₁.trans hsorted
      simp only [List.map_cons, List.flatten_cons]
      have hmid : (origs₂ ++ (D₁ ++ D₂)).Perm (D₁ ++ (origs₂ ++ D₂)) := by
        have e1 : origs₂ ++ (D₁ ++ D₂) = (origs₂ ++ D₁) ++ D₂ := by rw [List.append_assoc]
        have e2 : D₁ ++ (origs₂ ++ D₂) = (D₁ ++ origs₂) ++ D₂ := by rw [List.append_assoc]
        rw [e1, e2]
        exact List.Perm.append_right D₂ List.perm_append_comm
      have hsh : (origs₁ ++ origs₂ ++ (D₁ ++ D₂)).Perm ((origs₁ ++ D₁) ++ (origs₂ ++ D₂)) := by
        rw [List.append_assoc origs₁ origs₂, List.append_assoc origs₁ D₁]
        exact List.Perm.append_left origs₁ hmid
      exact hsh.trans (h1.append hP₂)

theorem estimateText_nonneg (text : String) : 0 ≤ estimateText text := by
  unfold estimateText
  have h1 : (0 : ℚ) ≤ (text.length : ℚ) / charsPerToken := by
    apply div_nonneg (by positivity)
    norm_num [charsPerToken]
  have h2 : (0 : ℤ) ≤ ⌈(text.length : ℚ) / charsPerToken⌉ := Int.ceil_nonneg h1
  have h3 : (0 : ℚ) ≤ ((⌈(text.length : ℚ) / charsPerToken⌉ : ℤ) : ℚ) * (1 + safetyBuffer) := by
    apply mul_nonneg
    · exact_mod_cast h2
    · norm_num [safetyBuffer]
  have h4 := Int.ceil_nonneg h3
  dsimp only
  exact_mod_cast h4

/-- Entries written by the zero-initialization loop of `allocate`. -/
theorem budgetUsed0_entries (bs : List CategoryBudget) :
    ∀ m, (∀ p ∈ m, p.2 = (0 : ℚ)) →
      ∀ p ∈ bs.foldl (fun m b => mapSet m b.category (0 : ℚ)) m, p.2 = 0 := by
  induction bs with
  | nil => intro m hm; simpa using hm
  | cons b bs ih =>
    intro m hm
    rw [List.foldl_cons]
    apply ih
    intro p hp
    rcases mapSet_entry_mem hp with h | h
    · exact hm p h
    · rw [h]

theorem budgetUsed0_sum (bs : List CategoryBudget) :
    (((bs.foldl (fun m b => mapSet m b.category (0 : ℚ)) []).map (·.2))).sum = 0 := by
  apply List.sum_eq_zero
  intro x hx
  rw [List.mem_map] at hx
  obtain ⟨p, hp, hpx⟩ := hx
  rw [← hpx]
  exact budgetUsed0_entries bs [] (by simp) p hp

theorem budgetUsed0_getD (bs : List CategoryBudget) (cat : ContextCategory) :
    mapGetD (bs.foldl (fun m b => mapSet m b.category (0 : ℚ)) []) cat 0 = 0 := by
  unfold mapGetD
  rcases h : mapGet? (bs.foldl (fun m b => mapSet m b.category (0 : ℚ)) []) cat with _ | v
  · rw [h]; rfl
  · rw [h]
    obtain ⟨p, hp, _, hv⟩ := mapGet?_some_entry h
    have := budgetUsed0_entries bs [] (by simp) p hp
    simp [← hv, this]

/-- The token-accounting invariant: the sum of `budgetUsed` equals the sum of
the allocated items' token counts, at every point of the allocation loops. -/
theorem allocStep_sumInv {cat : ContextCategory} {t : AllocSt × ℚ} {i : ContextItem}
    (h : (t.1.budgetUsed.map (·.2)).sum = (t.1.allocated.map (·.tokens)).sum) :
    (((allocStep cat t i).1.budgetUsed.map (·.2)).sum =
      (((allocStep cat t i).1.allocated.map (·.tokens)).sum)) := by
  obtain ⟨st, rem⟩ := t
  by_cases h1 : i.tokens ≤ rem
  · rw [allocStep_accept h1]
    simp only [mapSet_valuesSum, List.map_append, List.sum_append, List.map_cons,
      List.map_nil, List.sum_cons, List.sum_nil]
    simp only at h
    rw [h]
    ring
  · by_cases h2 : i.truncatable = true ∧ 100 < rem
    · rw [allocStep_truncate h1 h2]
      simp only [mapSet_valuesSum, List.map_append, List.sum_append, List.map_cons,
        List.map_nil, List.sum_cons, List.sum_nil]
      simp only at h
      rw [h]
      ring
    · rw [allocStep_drop h1 h2]
      exact h

theorem allocate_sumInv (alloc : BudgetAllocator) (items : List ContextItem) :
    let st := (groupByCategory items).foldl
      (allocCategory (calculateCategoryBudgets alloc))
      ⟨[], [], alloc.budgets.foldl (fun m b => mapSet m b.category 0) []⟩
    (st.budgetUsed.map (·.2)).sum = (st.allocated.map (·.tokens)).sum := by
  intro st
  have base : ∀ (gs : List (ContextCategory × List ContextItem)) (s : AllocSt),
      (s.budgetUsed.map (·.2)).sum = (s.allocated.map (·.tokens)).sum →
      (((gs.foldl (allocCategory (calculateCategoryBudgets alloc)) s).budgetUsed.map
        (·.2)).sum =
        (((gs.foldl (allocCategory (calculateCategoryBudgets alloc)) s).allocated.map
          (·.tokens)).sum)) := by
    intro gs
    apply foldl_inv (P := fun s : AllocSt =>
      (s.budgetUsed.map (·.2)).sum = (s.allocated.map (·.tokens)).sum)
    intro s g _ hs
    unfold allocCategory
    have : ∀ (l : List ContextItem) (t : AllocSt × ℚ),
        (t.1.budgetUsed.map (·.2)).sum = (t.1.allocated.map (·.tokens)).sum →
        (((l.foldl (allocStep g.1) t).1.budgetUsed.map (·.2)).sum =
          (((l.foldl (allocStep g.1) t).1.allocated.map (·.tokens)).sum)) := by
      intro l
      apply foldl_inv (P := fun t : AllocSt × ℚ =>
        (t.1.budgetUsed.map (·.2)).sum = (t.1.allocated.map (·.tokens)).sum)
      intro t i _ ht
      exact allocStep_sumInv ht
    exact this (sortItems g.2) (s, mapGetD (calculateCategoryBudgets alloc) g.1 0) hs
  apply base
  simp [budgetUsed0_sum alloc.budgets]

/-- `totalTokens` is the sum of the allocated items' token counts. -/
theorem allocate_totalTokens (alloc : BudgetAllocator) (items : List ContextItem) :
    (allocate alloc items).totalTokens =
      (((allocate alloc items).allocated.map (·.tokens)).sum) := by
  unfold allocate
  dsimp only
  have h := allocate_sumInv alloc items
  dsimp only at h
  rw [h]
  exact (((List.perm_insertionSort priorityGe _).map (·.tokens)).sum_eq).symm

/-- With non-negative input token counts every allocated item has a
non-negative token count. -/
theorem allocate_allocated_nonneg (alloc : BudgetAllocator) (items : List ContextItem)
    (hit : ∀ i ∈ items, 0 ≤ i.tokens) :
    ∀ x ∈ (allocate alloc items).allocated, 0 ≤ x.tokens := by
  unfold allocate
  dsimp only
  intro x hx
  rw [(List.perm_insertionSort priorityGe _).mem_iff] at hx
  -- invariant over the two nested folds
  have base : ∀ (gs : List (ContextCategory × List ContextItem)) (s : AllocSt),
      (∀ g ∈ gs, ∀ y ∈ g.2, 0 ≤ y.tokens) →
      (∀ y ∈ s.allocated, 0 ≤ y.tokens) →
      ∀ y ∈ (gs.foldl (allocCategory (calculateCategoryBudgets alloc)) s).allocated,
        0 ≤ y.tokens := by
    intro gs
    induction gs with
    | nil => intro s _ hs; simpa using hs
    | cons g gs ih =>
      intro s hg hs
      rw [List.foldl_cons]
      apply ih
      · intro g' hg'
        exact hg g' (List.mem_cons_of_mem _ hg')
      · -- one category round preserves the invariant
        unfold allocCategory
        have hgood : ∀ y ∈ sortItems g.2, 0 ≤ y.tokens := by
          intro y hy
          exact hg g (List.mem_cons_self _ _) y
            ((List.perm_insertionSort itemBefore g.2).mem_iff.mp hy)
        have inner : ∀ (l : List ContextItem) (t : AllocSt × ℚ),
            (∀ y ∈ l, 0 ≤ y.tokens) →
            (∀ y ∈ t.1.allocated, 0 ≤ y.tokens) →
            ∀ y ∈ (l.foldl (allocStep g.1) t).1.allocated, 0 ≤ y.tokens := by
          intro l
          induction l with
          | nil => intro t _ ht; simpa using ht
          | cons i is ihl =>
            intro t hl ht
            rw [List.foldl_cons]
            apply ihl
            · intro y hy; exact hl y (List.mem_cons_of_mem _ hy)
            · obtain ⟨st', rem'⟩ := t
              by_cases h1 : i.tokens ≤ rem'
              · rw [allocStep_accept h1]
                intro y hy
                rcases List.mem_append.mp hy with hy | hy
                · exact ht y hy
                · rw [List.mem_singleton.mp hy]
                  exact hl i (List.mem_cons_self _ _)
              · by_cases h2 : i.truncatable = true ∧ 100 < rem'
                · rw [allocStep_truncate h1 h2]
                  intro y hy
                  rcases List.mem_append.mp hy with hy | hy
                  · exact ht y hy
                  · rw [List.mem_singleton.mp hy]
                    exact estimateText_nonneg _
                · rw [allocStep_drop h1 h2]
                  exact ht
        exact inner (sortItems g.2) (s, mapGetD (calculateCategoryBudgets alloc) g.1 0)
          hgood hs
  refine base (groupByCategory items) _ ?_ (by simp) x hx
  intro g hg y hy
  exact hit y (groupBy_mem hg hy)

/-! ### The per-category budget bound (claim C2, third part) -/

/-- A rational that is (the embedding of) a JS integer. -/
def IsIntQ (q : ℚ) : Prop := ∃ z : ℤ, q = (z : ℚ)

theorem IsIntQ.sub {a b : ℚ} (ha : IsIntQ a) (hb : IsIntQ b) : IsIntQ (a - b) := by
  obtain ⟨x, hx⟩ := ha
  obtain ⟨y, hy⟩ := hb
  exact ⟨x - y, by rw [hx, hy]; push_cast; ring⟩

theorem estimateText_int (text : String) : IsIntQ (estimateText text) := by
  unfold estimateText
  exact ⟨_, rfl⟩

/-- The marker string returned for non-positive `targetChars` estimates to
6 tokens. -/
theorem estimate_marker : estimateText "... [truncated]" = 6 := by
  have hl : ("... [truncated]" : String).length = 15 := by decide
  unfold estimateText
  rw [hl]
  have h1 : (⌈((15 : ℕ) : ℚ) / charsPerToken⌉ : ℤ) = 5 := by
    rw [Int.ceil_eq_iff]
    constructor <;> norm_num [charsPerToken]
  rw [h1]
  show ((⌈((5 : ℤ) : ℚ) * (1 + safetyBuffer)⌉ : ℤ) : ℚ) = 6
  have h2 : (⌈((5 : ℤ) : ℚ) * (1 + safetyBuffer)⌉ : ℤ) = 6 := by
    rw [Int.ceil_eq_iff]
    constructor <;> norm_num [safetyBuffer]
  rw [h2]
  norm_num

/-- Key arithmetic bound: truncating to an *integer* remaining budget `z`
greater than 100 yields a re-estimated token count of at most `z`. -/
theorem truncate_tokens_le (text : String) (z : ℤ) (hz : 100 < (z : ℚ)) :
    estimateText (truncateToFit text ((z : ℚ))) ≤ (z : ℚ) := by
  unfold truncateToFit
  by_cases h : estimateText text ≤ (z : ℚ)
  · rw [if_pos h]
    exact h
  · rw [if_neg h]
    have hz' : (100 : ℤ) < z := by exact_mod_cast hz
    set F : ℤ := ⌊(z : ℚ) / (1 + safetyBuffer) * charsPerToken⌋ with hF
    by_cases htc0 : (F - 20 : ℤ) ≤ 0
    · rw [if_pos htc0]
      rw [estimate_marker]
      linarith
    · rw [if_neg htc0]
      have hcpt : charsPerToken = 7 / 2 := by norm_num [charsPerToken]
      have hsb : (1 + safetyBuffer : ℚ) = 11 / 10 := by norm_num [safetyBuffer]
      -- bound on F
      have hfl : ((F : ℤ) : ℚ) ≤ (z : ℚ) / (1 + safetyBuffer) * charsPerToken := by
        rw [hF]
        exact Int.floor_le _
      have hval : (z : ℚ) / (1 + safetyBuffer) * charsPerToken = 35 * z / 11 := by
        rw [hcpt, hsb]
        ring
      rw [hval] at hfl
      have hF_bound : 11 * F ≤ 35 * z := by
        have h1 : (11 : ℚ) * F ≤ 11 * (35 * z / 11) :=
          mul_le_mul_of_nonneg_left hfl (by norm_num)
        have h2 : (11 : ℚ) * (35 * z / 11) = 35 * z := by ring
        rw [h2] at h1
        exact_mod_cast h1
      -- length of the truncated text
      set s : String := String.mk (text.data.take (F - 20).toNat) ++ "\n... [truncated]"
        with hs
      have h16 : ("\n... [truncated]" : String).length = 16 := by decide
      have hslen : (s.length : ℤ) ≤ (F - 20) + 16 := by
        have happ : s.length = (text.data.take (F - 20).toNat).length + 16 := by
          rw [hs, String.length_append, h16]
          rfl
        rw [happ]
        have htake : (text.data.take (F - 20).toNat).length ≤ (F - 20).toNat := by
          rw [List.length_take]
          exact min_le_left _ _
        have htn : ((F - 20).toNat : ℤ) = F - 20 := Int.toNat_of_nonneg (by omega)
        push_cast
        omega
      -- ceiling bounds
      unfold estimateText
      set L : ℕ := s.length with hL
      set b : ℤ := ⌈(L : ℚ) / charsPerToken⌉ with hb
      show ((⌈((b : ℤ) : ℚ) * (1 + safetyBuffer)⌉ : ℤ) : ℚ) ≤ (z : ℚ)
      set e : ℤ := ⌈((b : ℤ) : ℚ) * (1 + safetyBuffer)⌉ with he
      have hb_bound : 7 * b ≤ 2 * (L : ℤ) + 6 := by
        have h1 : ((b : ℤ) : ℚ) < (L : ℚ) / charsPerToken + 1 := by
          rw [hb]
          exact Int.ceil_lt_add_one _
        rw [hcpt] at h1
        have h2 : (7 : ℚ) * b < 2 * L + 7 := by
          have h3 : (L : ℚ) / (7 / 2) = 2 * L / 7 := by ring
          rw [h3] at h1
          linarith
        have h4 : (7 * b : ℤ) < 2 * (L : ℤ) + 7 := by exact_mod_cast h2
        omega
      have he_bound : 10 * e ≤ 11 * b + 9 := by
        have h1 : ((e : ℤ) : ℚ) < ((b : ℤ) : ℚ) * (1 + safetyBuffer) + 1 := by
          rw [he]
          exact Int.ceil_lt_add_one _
        rw [hsb] at h1
        have h2 : (10 : ℚ) * e < 11 * b + 10 := by linarith
        have h3 : (10 * e : ℤ) < 11 * b + 10 := by exact_mod_cast h2
        omega
      have : e ≤ z := by omega
      exact_mod_cast this


/-! ### Lookup characterization of `calculateCategoryBudgets` -/

theorem foldl_mapSet_entries {α β γ : Type _} [BEq α] (key : γ → α) (f : γ → β)
    (bs : List γ) :
    ∀ m p, p ∈ bs.foldl (fun m x => mapSet m (key x) (f x)) m →
      p ∈ m ∨ ∃ x ∈ bs, p = (key x, f x) := by
  induction bs with
  | nil => intro m p hp; left; simpa using hp
  | cons b bs ih =>
    intro m p hp
    rw [List.foldl_cons] at hp
    rcases ih _ p hp with h | h
    · rcases mapSet_entry_mem h with h' | h'
      · left; exact h'
      · right; exact ⟨b, by simp, h'⟩
    · obtain ⟨x, hx, hpx⟩ := h
      right
      exact ⟨x, by simp [hx], hpx⟩

theorem foldl_mapSet_get_frozen {α β γ : Type _} [BEq α] [LawfulBEq α] (key : γ → α)
    (f : γ → β) (bs : List γ) (k : α) (hk : ∀ x ∈ bs, key x ≠ k) :
    ∀ m, mapGet? (bs.foldl (fun m x => mapSet m (key x) (f x)) m) k = mapGet? m k := by
  induction bs with
  | nil => intro m; rfl
  | cons b bs ih =>
    intro m
    rw [List.foldl_cons]
    rw [ih (fun x hx => hk x (List.mem_cons_of_mem _ hx))]
    apply mapGet?_mapSet_ne
    exact beq_eq_false_iff_ne.mpr (fun hh => hk b (by simp) hh.symm)

theorem foldl_mapSet_get {α β γ : Type _} [BEq α] [LawfulBEq α] (key : γ → α) (f : γ → β)
    {bs : List γ} (hnd : (bs.map key).Nodup) {x : γ} (hx : x ∈ bs) :
    ∀ m, mapGet? (bs.foldl (fun m y => mapSet m (key y) (f y)) m) (key x) = some (f x) := by
  induction bs with
  | nil => cases hx
  | cons b bs ih =>
    intro m
    rw [List.foldl_cons]
    simp only [List.map_cons, List.nodup_cons] at hnd
    rcases List.mem_cons.mp hx with h | h
    · subst h
      rw [foldl_mapSet_get_frozen key f bs (key x) ?_]
      · exact mapGet?_mapSet_self _ _ _
      · intro y hy hk
        exact hnd.1 (hk ▸ List.mem_map_of_mem key hy)
    · exact ih hnd.2 h _

theorem categoryBudgetValue_nonneg {total : ℚ} {b : CategoryBudget} (hent : EntryOk b)
    (htot : 0 < total) : 0 ≤ categoryBudgetValue total b := by
  obtain ⟨hp0, _, hmin, hmax, _⟩ := hent
  unfold categoryBudgetValue
  have h0 : (0 : ℤ) ≤ ⌊total * b.percentage⌋ := by
    rw [Int.le_floor]
    push_cast
    exact mul_nonneg htot.le hp0
  have h0q : (0 : ℚ) ≤ ((⌊total * b.percentage⌋ : ℤ) : ℚ) := by exact_mod_cast h0
  dsimp only
  by_cases hcase : (10000 : ℚ) ≤ total
  · rw [if_pos hcase]
    exact le_max_of_le_right (le_min h0q hmax)
  · rw [if_neg hcase]
    exact le_min h0q hmax

theorem categoryBudgetValue_int {total : ℚ} {b : CategoryBudget}
    (hmin : IsIntQ b.minTokens) (hmax : IsIntQ b.maxTokens) :
    IsIntQ (categoryBudgetValue total b) := by
  obtain ⟨x, hx⟩ := hmin
  obtain ⟨y, hy⟩ := hmax
  unfold categoryBudgetValue
  dsimp only
  by_cases hcase : (10000 : ℚ) ≤ total
  · rw [if_pos hcase]
    refine ⟨max x (min ⌊total * b.percentage⌋ y), ?_⟩
    rw [hx, hy]
    push_cast
    rfl
  · rw [if_neg hcase]
    refine ⟨min ⌊total * b.percentage⌋ y, ?_⟩
    rw [hy]
    push_cast
    rfl

theorem calc_getD_nonneg (alloc : BudgetAllocator)
    (hok : ∀ b ∈ alloc.budgets, EntryOk b) (htot : 0 < alloc.totalBudget) :
    ∀ c, 0 ≤ mapGetD (calculateCategoryBudgets alloc) c 0 := by
  intro c
  unfold mapGetD
  rcases hfound : mapGet? (calculateCategoryBudgets alloc) c with _ | v
  · simp only [Option.getD_none]
    exact le_refl 0
  · simp only [Option.getD_some]
    obtain ⟨p, hp, _, hv⟩ := mapGet?_some_entry hfound
    unfold calculateCategoryBudgets at hp
    rcases foldl_mapSet_entries (·.category) (categoryBudgetValue alloc.totalBudget)
        alloc.budgets [] p hp with h | h
    · cases h
    · obtain ⟨b, hb, hpb⟩ := h
      rw [← hv, hpb]
      exact categoryBudgetValue_nonneg (hok b hb) htot

theorem calc_getD_int (alloc : BudgetAllocator)
    (hint : ∀ b ∈ alloc.budgets, IsIntQ b.minTokens ∧ IsIntQ b.maxTokens) :
    ∀ c, IsIntQ (mapGetD (calculateCategoryBudgets alloc) c 0) := by
  intro c
  unfold mapGetD
  rcases hfound : mapGet? (calculateCategoryBudgets alloc) c with _ | v
  · simp only [Option.getD_none]
    exact ⟨0, by norm_num⟩
  · simp only [Option.getD_some]
    obtain ⟨p, hp, _, hv⟩ := mapGet?_some_entry hfound
    unfold calculateCategoryBudgets at hp
    rcases foldl_mapSet_entries (·.category) (categoryBudgetValue alloc.totalBudget)
        alloc.budgets [] p hp with h | h
    · cases h
    · obtain ⟨b, hb, hpb⟩ := h
      rw [← hv, hpb]
      exact categoryBudgetValue_int (hint b hb).1 (hint b hb).2

/-! ### The category-budget invariant of the allocation loop -/

theorem mapGetD_mapSet_self {α : Type _} [BEq α] [LawfulBEq α]
    (m : List (α × ℚ)) (k : α) (v : ℚ) : mapGetD (mapSet m k v) k 0 = v := by
  unfold mapGetD
  rw [mapGet?_mapSet_self]
  rfl

/-- The inner loop only writes the current category's entry of `budgetUsed`. -/
theorem allocFold_otherCat (cat : ContextCategory) (l : List ContextItem) :
    ∀ (st : AllocSt) (rem : ℚ) (c : ContextCategory), (c == cat) = false →
      mapGet? ((l.foldl (allocStep cat) (st, rem)).1).budgetUsed c =
        mapGet? st.budgetUsed c := by
  induction l with
  | nil => intro st rem c _; rfl
  | cons i l ih =>
    intro st rem c hc
    rw [List.foldl_cons]
    by_cases h1 : i.tokens ≤ rem
    · rw [allocStep_accept h1, ih _ _ _ hc]
      exact mapGet?_mapSet_ne _ _ hc
    · by_cases h2 : i.truncatable = true ∧ 100 < rem
      · rw [allocStep_truncate h1 h2, ih _ _ _ hc]
        exact mapGet?_mapSet_ne _ _ hc
      · rw [allocStep_drop h1 h2, ih _ _ _ hc]

/-- Within one category, used-plus-remaining never grows and `remaining`
stays a non-negative integer, as long as every processed token count is an
integer.  This is where the truncation bound enters. -/
theorem allocFold_catBound (cat : ContextCategory) :
    ∀ (l : List ContextItem), (∀ i ∈ l, IsIntQ i.tokens) →
    ∀ (st : AllocSt) (rem : ℚ), IsIntQ rem → 0 ≤ rem →
      mapGetD ((l.foldl (allocStep cat) (st, rem)).1).budgetUsed cat 0 +
          (l.foldl (allocStep cat) (st, rem)).2 ≤
        mapGetD st.budgetUsed cat 0 + rem ∧
      0 ≤ (l.foldl (allocStep cat) (st, rem)).2 := by
  intro l
  induction l with
  | nil =>
    intro _ st rem _ hrem
    exact ⟨le_refl _, hrem⟩
  | cons i l ih =>
    intro hl st rem hremInt hrem
    rw [List.foldl_cons]
    have hit := hl i (List.mem_cons_self _ _)
    have hl' : ∀ j ∈ l, IsIntQ j.tokens := fun j hj => hl j (List.mem_cons_of_mem _ hj)
    by_cases h1 : i.tokens ≤ rem
    · rw [allocStep_accept h1]
      have hrec := ih hl'
        ⟨st.allocated ++ [i], st.dropped,
          mapSet st.budgetUsed cat (mapGetD st.budgetUsed cat 0 + i.tokens)⟩
        (rem - i.tokens) (hremInt.sub hit) (by linarith)
      rcases hrec with ⟨hb, hr⟩
      refine ⟨?_, hr⟩
      calc mapGetD ((l.foldl (allocStep cat) (_, rem - i.tokens)).1).budgetUsed cat 0 +
            (l.foldl (allocStep cat) (_, rem - i.tokens)).2 ≤
          mapGetD (mapSet st.budgetUsed cat (mapGetD st.budgetUsed cat 0 + i.tokens)) cat 0 +
            (rem - i.tokens) := hb
        _ = mapGetD st.budgetUsed cat 0 + rem := by
            rw [mapGetD_mapSet_self]
            ring
    · by_cases h2 : i.truncatable = true ∧ 100 < rem
      · rw [allocStep_truncate h1 h2]
        obtain ⟨z, hz⟩ := hremInt
        have htr : (truncateItem i rem).tokens ≤ rem := by
          show estimateText (truncateToFit i.content rem) ≤ rem
          rw [hz]
          exact truncate_tokens_le i.content z (hz ▸ h2.2)
        have hrec := ih hl'
          ⟨st.allocated ++ [truncateItem i rem], st.dropped,
            mapSet st.budgetUsed cat
              (mapGetD st.budgetUsed cat 0 + (truncateItem i rem).tokens)⟩
          0 ⟨0, by norm_num⟩ (le_refl 0)
        rcases hrec with ⟨hb, hr⟩
        refine ⟨?_, hr⟩
        calc mapGetD ((l.foldl (allocStep cat) (_, 0)).1).budgetUsed cat 0 +
              (l.foldl (allocStep cat) (_, 0)).2 ≤
            mapGetD (mapSet st.budgetUsed cat
              (mapGetD st.budgetUsed cat 0 + (truncateItem i rem).tokens)) cat 0 + 0 := hb
          _ = mapGetD st.budgetUsed cat 0 + (truncateItem i rem).tokens := by
              rw [mapGetD_mapSet_self]
              ring
          _ ≤ mapGetD st.budgetUsed cat 0 + rem := by linarith
      · rw [allocStep_drop h1 h2]
        exact ih hl' ⟨st.allocated, st.dropped ++ [i], st.budgetUsed⟩ rem hremInt hrem

/-- The outer loop: each category's used tokens grow by at most that
category's sub-budget, and only if the category actually occurs. -/
theorem allocGroups_catBound (cb : List (ContextCategory × ℚ)) :
    ∀ (gs : List (ContextCategory × List ContextItem)) (st : AllocSt)
      (cat : ContextCategory),
      ((gs.map (·.1)).Nodup) →
      (∀ g ∈ gs, ∀ i ∈ g.2, IsIntQ i.tokens) →
      (∀ c, 0 ≤ mapGetD cb c 0 ∧ IsIntQ (mapGetD cb c 0)) →
      mapGetD ((gs.foldl (allocCategory cb) st).budgetUsed) cat 0 ≤
        mapGetD st.budgetUsed cat 0 +
          (if cat ∈ gs.map (·.1) then mapGetD cb cat 0 else 0) := by
  intro gs
  induction gs with
  | nil =>
    intro st cat _ _ _
    simp
  | cons g gs ih =>
    intro st cat hnd hint hcb
    rw [List.foldl_cons]
    simp only [List.map_cons, List.nodup_cons] at hnd
    have hintg : ∀ i ∈ sortItems g.2, IsIntQ i.tokens := by
      intro i hi
      exact hint g (List.mem_cons_self _ _) i
        ((List.perm_insertionSort itemBefore g.2).mem_iff.mp hi)
    have hint' : ∀ g' ∈ gs, ∀ i ∈ g'.2, IsIntQ i.tokens :=
      fun g' hg' => hint g' (List.mem_cons_of_mem _ hg')
    by_cases hc : cat = g.1
    · subst hc
      -- this category's round; afterwards it does not occur again
      have hbound := allocFold_catBound g.1 (sortItems g.2) hintg st (mapGetD cb g.1 0)
        (hcb g.1).2 (hcb g.1).1
      have hstep : mapGetD (allocCategory cb st g).budgetUsed g.1 0 ≤
          mapGetD st.budgetUsed g.1 0 + mapGetD cb g.1 0 := by
        unfold allocCategory
        rcases hbound with ⟨hb, hr⟩
        linarith
      have hnotin : g.1 ∉ gs.map (·.1) := hnd.1
      have hrest := ih (allocCategory cb st g) g.1 hnd.2 hint' hcb
      rw [if_neg hnotin] at hrest
      have hmem : g.1 ∈ (g :: gs).map (·.1) := by simp
      rw [if_pos hmem]
      linarith
    · have hfrozen : mapGetD (allocCategory cb st g).budgetUsed cat 0 =
          mapGetD st.budgetUsed cat 0 := by
        unfold allocCategory
        dsimp only
        unfold mapGetD
        rw [allocFold_otherCat g.1 (sortItems g.2) st _ cat (beq_eq_false_iff_ne.mpr hc)]
      have := ih (allocCategory cb st g) cat hnd.2 hint' hcb
      rw [hfrozen] at this
      have hmemiff : (cat ∈ (g :: gs).map (·.1)) ↔ (cat ∈ gs.map (·.1)) := by
        simp only [List.map_cons, List.mem_cons]
        constructor
        · rintro (h | h)
          · exact absurd h hc
          · exact h
        · exact Or.inr
      by_cases hmem : cat ∈ gs.map (·.1)
      · rw [if_pos (hmemiff.mpr hmem)]
        rw [if_pos hmem] at this
        exact this
      · rw [if_neg (fun hh => hmem (hmemiff.mp hh))]
        rw [if_neg hmem] at this
        exact this

/-- `allocate` never uses more than each category's computed sub-budget, under
integer token counts and non-negative integer sub-budgets. -/
theorem allocate_budgetUsed_le (alloc : BudgetAllocator) (items : List ContextItem)
    (hcb : ∀ c, 0 ≤ mapGetD (calculateCategoryBudgets alloc) c 0 ∧
      IsIntQ (mapGetD (calculateCategoryBudgets alloc) c 0))
    (hint_items : ∀ i ∈ items, IsIntQ i.tokens) :
    ∀ cat, mapGetD (allocate alloc items).budgetUsed cat 0 ≤
      mapGetD (calculateCategoryBudgets alloc) cat 0 := by
  intro cat
  unfold allocate
  dsimp only
  have hgroups := allocGroups_catBound (calculateCategoryBudgets alloc)
    (groupByCategory items)
    ⟨[], [], alloc.budgets.foldl (fun m b => mapSet m b.category 0) []⟩ cat
    (groupBy_keys_nodup items)
    (fun g hg i hi => hint_items i (groupBy_mem hg hi))
    hcb
  rw [budgetUsed0_getD] at hgroups
  by_cases hmem : cat ∈ (groupByCategory items).map (·.1)
  · rw [if_pos hmem] at hgroups
    linarith
  · rw [if_neg hmem] at hgroups
    have := (hcb cat).1
    linarith

theorem rel_of_forall₂ {α β : Type _} {r : α → β → Prop} {l₁ : List α} {l₂ : List β}
    (h : List.Forall₂ r l₁ l₂) : Multiset.Rel r ↑l₁ ↑l₂ := by
  induction h with
  | nil => exact Multiset.Rel.zero
  | cons h _ ih => simpa using Multiset.Rel.cons h ih

/-- The partition property of `allocate`: the inputs split exactly between
`allocated` (as versions, possibly truncated) and `dropped` (untouched). -/
theorem allocate_partition (alloc : BudgetAllocator) (items : List ContextItem) :
    ∃ origs : Multiset ContextItem,
      Multiset.Rel ItemVersion (↑(allocate alloc items).allocated) origs ∧
      origs + ↑(allocate alloc items).dropped = ↑items := by
  unfold allocate
  dsimp only
  obtain ⟨A, D, origs, hA, hD, hF, hP⟩ := allocGroups_parts (calculateCategoryBudgets alloc)
    (groupByCategory items)
    ⟨[], [], alloc.budgets.foldl (fun m b => mapSet m b.category 0) []⟩
  refine ⟨(origs : Multiset ContextItem), ?_, ?_⟩
  · have hcoe : (↑(((groupByCategory items).foldl (allocCategory (calculateCategoryBudgets
        alloc)) ⟨[], [], alloc.budgets.foldl (fun m b => mapSet m b.category 0)
          []⟩).allocated.insertionSort priorityGe) : Multiset ContextItem) = ↑A := by
      rw [Multiset.coe_eq_coe]
      refine (List.perm_insertionSort priorityGe _).trans ?_
      rw [hA]
      simp
    rw [hcoe]
    exact rel_of_forall₂ hF
  · rw [hD]
    have h0 : (⟨[], [], alloc.budgets.foldl (fun m b => mapSet m b.category 0)
        []⟩ : AllocSt).dropped = [] := rfl
    rw [h0, List.nil_append, Multiset.coe_add, Multiset.coe_eq_coe]
    exact hP.trans (groupBy_flatten_perm items)

/-- Per-category sorted-order of the dropped chunks. -/
theorem dropped_filter_sorted (cb : List (ContextCategory × ℚ)) (cat : ContextCategory) :
    ∀ (gs : List (ContextCategory × List ContextItem)) (st : AllocSt),
      (∀ g ∈ gs, ∀ x ∈ g.2, x.category = g.1) →
      ((gs.map (·.1)).Nodup) →
      List.Sorted itemBefore (st.dropped.filter (fun i => i.category == cat)) →
      (cat ∈ gs.map (·.1) → (st.dropped.filter (fun i => i.category == cat)) = []) →
      List.Sorted itemBefore
        (((gs.foldl (allocCategory cb) st).dropped).filter (fun i => i.category == cat)) := by
  intro gs
  induction gs with
  | nil =>
    intro st _ _ hsorted _
    exact hsorted
  | cons g gs ih =>
    intro st hcats hnd hsorted hempty
    rw [List.foldl_cons]
    simp only [List.map_cons, List.nodup_cons] at hnd
    obtain ⟨A, D, origs, hA, hD, hF, hP, hSub⟩ :=
      allocFold_parts g.1 (sortItems g.2) st (mapGetD cb g.1 0)
    have hD' : (allocCategory cb st g).dropped = st.dropped ++ D := by
      unfold allocCategory
      exact hD
    have hDpair : List.Pairwise itemBefore D :=
      List.Pairwise.sublist hSub (List.sorted_insertionSort itemBefore g.2)
    have hDcat : ∀ x ∈ D, x.category = g.1 := by
      intro x hx
      have hx2 : x ∈ sortItems g.2 := hSub.subset hx
      have hx3 : x ∈ g.2 := (List.perm_insertionSort itemBefore g.2).mem_iff.mp hx2
      exact hcats g (List.mem_cons_self _ _) x hx3
    by_cases hc : cat = g.1
    · -- the matching category's round
      have hprior : st.dropped.filter (fun i => i.category == cat) = [] :=
        hempty (by simp [hc])
      have hDfull : D.filter (fun i => i.category == cat) = D := by
        rw [List.filter_eq_self]
        intro x hx
        rw [hDcat x hx, hc]
        exact beq_iff_eq.mpr rfl
      have hfilter : (allocCategory cb st g).dropped.filter (fun i => i.category == cat)
          = D := by
        rw [hD', List.filter_append, hprior, hDfull, List.nil_append]
      apply ih (allocCategory cb st g)
        (fun g' hg' => hcats g' (List.mem_cons_of_mem _ hg'))
        hnd.2
      · rw [hfilter]
        exact hDpair
      · intro hmem
        exact absurd (hc ▸ hmem) hnd.1
    · -- other category: nothing with category `cat` is added
      have hDempty : D.filter (fun i => i.category == cat) = [] := by
        rw [List.filter_eq_nil_iff]
        intro x hx
        rw [hDcat x hx]
        exact fun hbe => hc (beq_iff_eq.mp hbe).symm
      have hfilter : (allocCategory cb st g).dropped.filter (fun i => i.category == cat)
          = st.dropped.filter (fun i => i.category == cat) := by
        rw [hD', List.filter_append, hDempty, List.append_nil]
      apply ih (allocCategory cb st g)
        (fun g' hg' => hcats g' (List.mem_cons_of_mem _ hg'))
        hnd.2
      · rw [hfilter]
        exact hsorted
      · intro hmem
        rw [hfilter]
        exact hempty (by simp [hmem])

theorem floorQ_eq {q : ℚ} {z : ℤ} (h1 : (z : ℚ) ≤ q) (h2 : q < z + 1) : ⌊q⌋ = z :=
  Int.floor_eq_iff.mpr ⟨h1, by exact_mod_cast h2⟩

theorem ceilQ_eq {q : ℚ} {z : ℤ} (h1 : (z : ℚ) - 1 < q) (h2 : q ≤ z) : ⌈q⌉ = z :=
  Int.ceil_eq_iff.mpr ⟨by exact_mod_cast h1, h2⟩

/-- C2 (amended): for every validly constructed `BudgetAllocator` and every
item list, (i) the input items split exactly between `allocated` — each
allocated item being an input item unchanged or a truncated version of one —
and `dropped`, never both, never neither; (ii) `totalTokens` equals the sum of
the allocated items' (possibly recomputed) token counts; and (iii) *provided
the table's `minTokens`/`maxTokens` and all item token counts are integers*
(which holds for all token counts produced by the estimators), no category's
`budgetUsed` exceeds that category's computed sub-budget, including under
truncation.  The integrality proviso in (iii) is the amendment: with a
fractional `maxTokens` the truncation re-estimate can exceed the fractional
remaining budget by less than one token (see the counterexample). -/
theorem budget_conservation_amended :
    (∀ (total : ℚ) (bs : List CategoryBudget) (a : BudgetAllocator)
        (items : List ContextItem), mkBudgetAllocator total (some bs) = Except.ok a →
        ((∃ origs : Multiset ContextItem,
            Multiset.Rel ItemVersion (↑(allocate a items).allocated) origs ∧
            origs + ↑(allocate a items).dropped = ↑items) ∧
          (allocate a items).totalTokens =
            (((allocate a items).allocated.map (·.tokens)).sum))) ∧
    (∀ (total : ℚ) (bs : List CategoryBudget) (a : BudgetAllocator)
        (items : List ContextItem), mkBudgetAllocator total (some bs) = Except.ok a →
        (∀ b ∈ bs, IsIntQ b.minTokens ∧ IsIntQ b.maxTokens) →
        (∀ i ∈ items, IsIntQ i.tokens) →
        ∀ cat, mapGetD (allocate a items).budgetUsed cat 0 ≤
          mapGetD (calculateCategoryBudgets a) cat 0) := by
  constructor
  · intro total bs a items _
    exact ⟨allocate_partition a items, allocate_totalTokens a items⟩
  · intro total bs a items hmk hintbs hintit cat
    obtain ⟨htot, htoteq, hbudg, hgood⟩ := mk_ok_facts hmk
    have hok : ∀ b ∈ a.budgets, EntryOk b := by rw [hbudg]; exact hgood.2.2
    have htot' : 0 < a.totalBudget := by rw [htoteq]; exact htot
    have hint' : ∀ b ∈ a.budgets, IsIntQ b.minTokens ∧ IsIntQ b.maxTokens := by
      rw [hbudg]; exact hintbs
    exact allocate_budgetUsed_le a items
      (fun c => ⟨calc_getD_nonneg a hok htot' c, calc_getD_int a hint' c⟩) hintit cat

/-- C7: for every validly constructed allocator, each category's sub-budget is
`floor(totalBudget × percentage)` capped at `maxTokens`, with the `minTokens`
floor applied only when `totalBudget ≥ 10000`; all sub-budgets are
non-negative for any valid total budget (in particular down to 1), and
`totalTokens` is non-negative for any item list with non-negative token
counts.  NaN cannot arise in the exact-rational embedding, and `allocate` and
`calculateCategoryBudgets` are total functions, so no exception is raised. -/
theorem category_budget_formula :
    ∀ (total : ℚ) (bs : List CategoryBudget) (a : BudgetAllocator),
      mkBudgetAllocator total (some bs) = Except.ok a →
      (∀ b ∈ bs, mapGet? (calculateCategoryBudgets a) b.category =
        some (if 10000 ≤ total then
                max b.minTokens (min ((⌊total * b.percentage⌋ : ℤ) : ℚ) b.maxTokens)
              else min ((⌊total * b.percentage⌋ : ℤ) : ℚ) b.maxTokens)) ∧
      (∀ cat, 0 ≤ mapGetD (calculateCategoryBudgets a) cat 0) ∧
      (∀ items : List ContextItem, (∀ i ∈ items, 0 ≤ i.tokens) →
        0 ≤ (allocate a items).totalTokens) := by
  intro total bs a hmk
  obtain ⟨htot, htoteq, hbudg, hgood⟩ := mk_ok_facts hmk
  have hok : ∀ b ∈ a.budgets, EntryOk b := by rw [hbudg]; exact hgood.2.2
  have htot' : 0 < a.totalBudget := by rw [htoteq]; exact htot
  refine ⟨?_, calc_getD_nonneg a hok htot', ?_⟩
  · intro b hb
    have hnd : (a.budgets.map (·.category)).Nodup := by rw [hbudg]; exact hgood.1
    have hb' : b ∈ a.budgets := by rw [hbudg]; exact hb
    have hlook := foldl_mapSet_get (·.category) (categoryBudgetValue a.totalBudget)
      hnd hb' []
    unfold calculateCategoryBudgets
    rw [hlook]
    congr 1
    unfold categoryBudgetValue
    rw [htoteq]
  · intro items hnn
    rw [allocate_totalTokens]
    apply List.sum_nonneg
    intro x hx
    rw [List.mem_map] at hx
    obtain ⟨i, hi, hix⟩ := hx
    rw [← hix]
    exact allocate_allocated_nonneg a items hnn i hi

/-- C8 (amended): within each category, `allocate` considers items in
descending priority order with ties broken by ascending plain (non-locale)
ordinal comparison of `path` (empty string for path-less items); the returned
`allocated` list is sorted by descending priority (not grouped by category).
The `dropped` list, however, is *not* in the original encounter order of the
input items (see the counterexample): it is grouped by category in
first-encounter order and, within each category, keeps the descending
priority / ascending path consideration order, stated here as: the dropped
items of each category form a list ordered by the consideration order. -/
theorem allocation_ordering_amended (alloc : BudgetAllocator) (items : List ContextItem) :
    List.Sorted (fun a b : ContextItem => b.priority ≤ a.priority)
      (allocate alloc items).allocated ∧
    ∀ cat : ContextCategory,
      List.Sorted itemBefore
        ((allocate alloc items).dropped.filter (fun i => i.category == cat)) := by
  constructor
  · show List.Sorted priorityGe (allocate alloc items).allocated
    unfold allocate
    dsimp only
    exact List.sorted_insertionSort priorityGe _
  · intro cat
    unfold allocate
    dsimp only
    apply dropped_filter_sorted _ cat (groupByCategory items) _ groupBy_cat
      (groupBy_keys_nodup items)
    · exact List.sorted_nil
    · intro _
      rfl

/-- Concrete inputs for the C8 counterexample. -/
def c8item1 : ContextItem := ⟨.task, some "a", "", 5, 1, false⟩

def c8item2 : ContextItem := ⟨.task, some "b", "", 5, 2, false⟩

def c8alloc : BudgetAllocator := ⟨200, [⟨.task, 1, 0, 0⟩]⟩

theorem c8_eval : (allocate c8alloc [c8item1, c8item2]).dropped = [c8item2, c8item1] := by
  have hfl : (⌊(200 : ℚ) * 1⌋ : ℤ) = 200 := by
    rw [Int.floor_eq_iff]
    constructor <;> norm_num
  have hb1 : itemBefore c8item2 c8item1 := by
    unfold itemBefore c8item1 c8item2
    norm_num
  have hnb : ¬ itemBefore c8item1 c8item2 := by
    unfold itemBefore c8item1 c8item2
    dsimp only
    push_neg
    constructor
    · norm_num
    · intro h
      norm_num at h
  have hsort : sortItems [c8item1, c8item2] = [c8item2, c8item1] := by
    unfold sortItems
    simp only [List.insertionSort, List.orderedInsert, if_neg hnb, if_pos hb1]
  have hcb : mapGetD (calculateCategoryBudgets c8alloc) ContextCategory.task 0 = 0 := by
    unfold calculateCategoryBudgets c8alloc categoryBudgetValue
    simp only [List.foldl_cons, List.foldl_nil, mapSet]
    rw [hfl]
    norm_num [mapGetD, mapGet?]
  have hcat1 : c8item1.category = ContextCategory.task := rfl
  have hcat2 : c8item2.category = ContextCategory.task := rfl
  have hgroup : groupByCategory [c8item1, c8item2] =
      [(ContextCategory.task, [c8item1, c8item2])] := by
    unfold groupByCategory
    simp [List.foldl_cons, List.foldl_nil, hcat1, hcat2, mapGetD, mapGet?, mapSet]
  have hfold : ∀ (st : AllocSt),
      ((([c8item2, c8item1].foldl (allocStep ContextCategory.task) (st, (0 : ℚ)))).1).dropped =
        st.dropped ++ [c8item2, c8item1] := by
    intro st
    rw [List.foldl_cons, allocStep_drop (by norm_num [c8item2]) (by simp [c8item2]),
      List.foldl_cons, allocStep_drop (by norm_num [c8item1]) (by simp [c8item1]),
      List.foldl_nil]
    simp
  unfold allocate
  dsimp only
  rw [hgroup, List.foldl_cons, List.foldl_nil]
  unfold allocCategory
  dsimp only
  rw [hcb, hsort, hfold]
  simp
/-- C8 counterexample: with two same-category items of priorities 1 then 2
that are both too large for the category budget, the returned `dropped` list
is `[higher-priority, lower-priority]` — the per-category consideration order —
and *not* the original encounter order `[c8item1, c8item2]` required by the
claim as stated. -/
theorem dropped_not_encounter_order :
    (allocate c8alloc [c8item1, c8item2]).dropped = [c8item2, c8item1] ∧
    (allocate c8alloc [c8item1, c8item2]).dropped ≠ [c8item1, c8item2] := by
  refine ⟨c8_eval, ?_⟩
  rw [c8_eval]
  intro h
  have h1 := congrArg (fun l => (List.headD l c8item1).path) h
  simp only [List.headD_cons] at h1
  have h2 : some "b" = some "a" := h1
  exact absurd h2 (by decide)

/-- Concrete inputs for the C2 counterexample.  The 400-character content is
long enough that truncation to the fractional remaining budget occurs. -/
def c2content : String := String.mk (List.replicate 400 'a')

def c2budgets : List CategoryBudget := [⟨.task, 1, 0, 1009 / 10⟩]

def c2item : ContextItem := ⟨.task, none, c2content, 200, 1, true⟩

def c2alloc : BudgetAllocator := ⟨200, c2budgets⟩

theorem c2_mk_ok : mkBudgetAllocator 200 (some c2budgets) = Except.ok c2alloc := by
  have hval : validateBudgets c2budgets = Except.ok () := by
    unfold validateBudgets c2budgets
    have h1 : validateGo [] 0 [(⟨.task, 1, 0, 1009 / 10⟩ : CategoryBudget)] =
        Except.ok (0 + 1) := by
      unfold validateGo
      rw [if_neg (by simp), if_neg (by norm_num), if_neg (by norm_num),
        if_neg (by norm_num), if_neg (by norm_num)]
      rfl
    rw [h1]
    dsimp only
    rw [if_neg (by norm_num [pctTolerance])]
  unfold mkBudgetAllocator
  rw [if_neg (by norm_num)]
  dsimp only
  rw [hval]
  rfl

theorem c2_content_len : c2content.length = 400 := by
  show (List.replicate 400 'a').length = 400
  exact List.length_replicate 400 'a'

theorem c2_est_full : estimateText c2content = 127 := by
  unfold estimateText
  dsimp only
  rw [c2_content_len]
  have h1 : (⌈((400 : ℕ) : ℚ) / charsPerToken⌉ : ℤ) = 115 := by
    apply ceilQ_eq <;> norm_num [charsPerToken]
  rw [h1]
  have h2 : (⌈((115 : ℤ) : ℚ) * (1 + safetyBuffer)⌉ : ℤ) = 127 := by
    apply ceilQ_eq <;> norm_num [safetyBuffer]
  rw [h2]
  norm_num

theorem c2_trunc_tokens :
    estimateText (truncateToFit c2content (1009 / 10)) = 101 := by
  unfold truncateToFit
  rw [if_neg (by rw [c2_est_full]; norm_num)]
  dsimp only
  have hF : (⌊(1009 / 10 : ℚ) / (1 + safetyBuffer) * charsPerToken⌋ : ℤ) = 321 := by
    apply floorQ_eq <;> norm_num [safetyBuffer, charsPerToken]
  rw [hF]
  rw [if_neg (by norm_num)]
  have htn : ((321 : ℤ) - 20).toNat = 301 := by decide
  rw [htn]
  have hslen : (String.mk (c2content.data.take 301) ++ "\n... [truncated]").length = 317 := by
    rw [String.length_append]
    have h1 : (String.mk (c2content.data.take 301)).length = 301 := by
      show (c2content.data.take 301).length = 301
      rw [List.length_take]
      have h400 : c2content.data.length = 400 := c2_content_len
      omega
    have h2 : ("\n... [truncated]" : String).length = 16 := by decide
    omega
  unfold estimateText
  dsimp only
  rw [hslen]
  have h1 : (⌈((317 : ℕ) : ℚ) / charsPerToken⌉ : ℤ) = 91 := by
    apply ceilQ_eq <;> norm_num [charsPerToken]
  rw [h1]
  have h2 : (⌈((91 : ℤ) : ℚ) * (1 + safetyBuffer)⌉ : ℤ) = 101 := by
    apply ceilQ_eq <;> norm_num [safetyBuffer]
  rw [h2]
  norm_num

theorem c2_eval :
    mapGetD (allocate c2alloc [c2item]).budgetUsed ContextCategory.task 0 = 101 := by
  have hfl : (⌊(200 : ℚ) * 1⌋ : ℤ) = 200 := by
    apply floorQ_eq <;> norm_num
  have hcb : mapGetD (calculateCategoryBudgets c2alloc) ContextCategory.task 0 =
      1009 / 10 := by
    unfold calculateCategoryBudgets c2alloc c2budgets categoryBudgetValue
    simp only [List.foldl_cons, List.foldl_nil, mapSet]
    rw [hfl]
    rw [if_neg (by norm_num)]
    norm_num [mapGetD, mapGet?]
  have hcat : c2item.category = ContextCategory.task := rfl
  have hgroup : groupByCategory [c2item] = [(ContextCategory.task, [c2item])] := by
    unfold groupByCategory
    simp [List.foldl_cons, List.foldl_nil, hcat, mapGetD, mapGet?, mapSet]
  have hsort : sortItems [c2item] = [c2item] := by
    unfold sortItems
    simp [List.insertionSort, List.orderedInsert]
  unfold allocate
  dsimp only
  rw [hgroup, List.foldl_cons, List.foldl_nil]
  unfold allocCategory
  dsimp only
  rw [hcb, hsort, List.foldl_cons,
    allocStep_truncate (by norm_num [c2item]) ⟨rfl, by norm_num⟩, List.foldl_nil]
  dsimp only
  have hbused0 : c2alloc.budgets.foldl (fun m b => mapSet m b.category 0) [] =
      [(ContextCategory.task, (0 : ℚ))] := by
    unfold c2alloc c2budgets
    simp [mapSet]
  rw [hbused0]
  have htok : (truncateItem c2item (1009 / 10)).tokens = 101 := by
    show estimateText (truncateToFit c2item.content (1009 / 10)) = 101
    exact c2_trunc_tokens
  rw [htok]
  simp [mapSet, mapGetD, mapGet?]

/-- C2 counterexample: a validly constructed allocator with a fractional
`maxTokens` of 100.9 whose single truncatable item is truncated to fit, yet
the recorded `budgetUsed` (101 tokens) exceeds the computed sub-budget
(100.9 tokens) — refuting the claim's third part as stated. -/
theorem budgetUsed_exceeds_subBudget :
    mkBudgetAllocator 200 (some c2budgets) = Except.ok c2alloc ∧
    mapGetD (calculateCategoryBudgets c2alloc) ContextCategory.task 0 = 1009 / 10 ∧
    mapGetD (allocate c2alloc [c2item]).budgetUsed ContextCategory.task 0 = 101 ∧
    ¬ ((101 : ℚ) ≤ 1009 / 10) := by
  refine ⟨c2_mk_ok, ?_, c2_eval, by norm_num⟩
  have hfl : (⌊(200 : ℚ) * 1⌋ : ℤ) = 200 := by
    apply floorQ_eq <;> norm_num
  unfold calculateCategoryBudgets c2alloc c2budgets categoryBudgetValue
  simp only [List.foldl_cons, List.foldl_nil, mapSet]
  rw [hfl]
  rw [if_neg (by norm_num)]
  norm_num [mapGetD, mapGet?]
/-- Concrete valid allocator shared by the allocator witnesses. -/
def cwBudgets : List CategoryBudget := [⟨.task, 1, 0, 0⟩]

def cwAlloc : BudgetAllocator := ⟨200, cwBudgets⟩

theorem cw_mk_ok : mkBudgetAllocator 200 (some cwBudgets) = Except.ok cwAlloc := by
  have hval : validateBudgets cwBudgets = Except.ok () := by
    unfold validateBudgets cwBudgets
    have h1 : validateGo [] 0 [(⟨.task, 1, 0, 0⟩ : CategoryBudget)] =
        Except.ok (0 + 1) := by
      unfold validateGo
      rw [if_neg (by simp), if_neg (by norm_num), if_neg (by norm_num),
        if_neg (by norm_num), if_neg (by norm_num)]
      rfl
    rw [h1]
    dsimp only
    rw [if_neg (by norm_num [pctTolerance])]
  unfold mkBudgetAllocator
  rw [if_neg (by norm_num)]
  dsimp only
  rw [hval]
  rfl

/-- Witness for C2 at a concrete valid allocator and the empty item list. -/
theorem budget_conservation_witness :
    mkBudgetAllocator 200 (some cwBudgets) = Except.ok cwAlloc ∧
    ((∃ origs : Multiset ContextItem,
        Multiset.Rel ItemVersion (↑(allocate cwAlloc []).allocated) origs ∧
        origs + ↑(allocate cwAlloc []).dropped = ↑([] : List ContextItem)) ∧
      (allocate cwAlloc []).totalTokens =
        (((allocate cwAlloc []).allocated.map (·.tokens)).sum)) ∧
    (∀ cat, mapGetD (allocate cwAlloc []).budgetUsed cat 0 ≤
      mapGetD (calculateCategoryBudgets cwAlloc) cat 0) :=
  ⟨cw_mk_ok,
   budget_conservation_amended.1 200 cwBudgets cwAlloc [] cw_mk_ok,
   budget_conservation_amended.2 200 cwBudgets cwAlloc [] cw_mk_ok
     (by
       intro b hb
       simp only [cwBudgets, List.mem_singleton] at hb
       subst hb
       exact ⟨⟨0, by norm_num⟩, ⟨0, by norm_num⟩⟩)
     (by intro i hi; cases hi)⟩

/-- Witness for C7 at a concrete valid allocator. -/
theorem category_budget_formula_witness :
    mkBudgetAllocator 200 (some cwBudgets) = Except.ok cwAlloc ∧
    ((∀ b ∈ cwBudgets, mapGet? (calculateCategoryBudgets cwAlloc) b.category =
        some (if 10000 ≤ (200 : ℚ) then
                max b.minTokens (min ((⌊(200 : ℚ) * b.percentage⌋ : ℤ) : ℚ) b.maxTokens)
              else min ((⌊(200 : ℚ) * b.percentage⌋ : ℤ) : ℚ) b.maxTokens)) ∧
      (∀ cat, 0 ≤ mapGetD (calculateCategoryBudgets cwAlloc) cat 0) ∧
      (∀ items : List ContextItem, (∀ i ∈ items, 0 ≤ i.tokens) →
        0 ≤ (allocate cwAlloc items).totalTokens)) :=
  ⟨cw_mk_ok, category_budget_formula 200 cwBudgets cwAlloc cw_mk_ok⟩

/-! ## Shared edge model — `src/schemas/edge.ts` -/

/-- `EdgeTypeEnum` (string union in the source; the JS string values are given
by `edgeTypeKey` below, which also determines string-comparison order). -/
inductive EdgeType
  | imp | call | type_reference | extendsType | uses_table | publishes_event
  | calls_endpoint | reads_config | test_covers
deriving DecidableEq

/-- The JS string value of each edge type. -/
def edgeTypeKey : EdgeType → String
  | .imp => "import"
  | .call => "call"
  | .type_reference => "type_reference"
  | .extendsType => "extends"
  | .uses_table => "uses_table"
  | .publishes_event => "publishes_event"
  | .calls_endpoint => "calls_endpoint"
  | .reads_config => "reads_config"
  | .test_covers => "test_covers"

/-- `DetectionMethodEnum`. -/
inductive DetectionMethod
  | declared | ast | regex | heuristic
deriving DecidableEq

/-- `EdgeSchema` (the optional `last_verified` field is never consumed by the
analyzer or builder and is omitted). -/
structure Edge where
  source : String
  target : String
  type : EdgeType
  confidence : ℚ
  detection_method : DetectionMethod
  evidence : Option String
deriving DecidableEq

/-! ## `normalizePath` — `src/utils/paths.ts`

`p.replace(/\\/g, '/')` replaces every backslash character, modelled as a
character map; the trailing-slash strip is modelled on the character list
(JS `endsWith('/')` with `length > 1`). -/

def normalizePath (p : String) : String :=
  let n := String.mk (p.data.map (fun c => if c = '\\' then '/' else c))
  if 1 < n.data.length ∧ n.data.getLast? = some '/' then String.mk n.data.dropLast else n

/-! ## Graph builder — `src/graph/builder.ts` -/

/-- One entry of `ScanResult.imports`. -/
structure ScanImport where
  source : String
  symbols : List String
  isDefault : Bool
  isNamespace : Bool
  line : Nat

/-- `ScanResult` (only `imports[*].source` is consumed by the builder). -/
structure ScanResult where
  imports : List ScanImport
  exports : List String
  calls : List String
  typeReferences : List String

/-- `GraphBuilder.addScanResult`: the builder state is the insertion-ordered
`files` map keyed by normalized path (the JS value also repeats the path). -/
def addScanResult (files : List (String × ScanResult)) (path : String)
    (result : ScanResult) : List (String × ScanResult) :=
  mapSet files (normalizePath path) result

/-- `GraphBuilder.isRelativeImport` (startsWith checks on the character
list). -/
def isRelativeImport (source : String) : Bool :=
  source.data.take 2 = ['.', '/'] || source.data.take 3 = ['.', '.', '/'] ||
    source == "." || source == ".."

/-- Index of the last occurrence of a character (JS `lastIndexOf`). -/
def lastIdxOf (c : Char) : List Char → Option Nat
  | [] => none
  | a :: rest =>
    match lastIdxOf c rest with
    | some i => some (i + 1)
    | none => if a = c then some 0 else none

/-- `GraphBuilder.dirname` (pure string manipulation). -/
def dirname (path : String) : String :=
  let normalized := normalizePath path
  match lastIdxOf '/' normalized.data with
  | none => "."
  | some 0 => "/"
  | some i => String.mk (normalized.data.take i)

/-- JS `split('/')` on the character list (keeps empty segments, as JS
does; callers filter them out like the source's `.filter(Boolean)`). -/
def splitOnChar (c : Char) : List Char → List (List Char)
  | [] => [[]]
  | a :: rest =>
    let r := splitOnChar c rest
    if a = c then [] :: r
    else
      match r with
      | [] => [[a]]
      | seg :: segs => (a :: seg) :: segs

/-- `GraphBuilder.resolvePath`: lexical resolution of `.` and `..`
segments. -/
def resolvePath (fromDir relativePath : String) : String :=
  let normalizedFrom := normalizePath fromDir
  let normalizedRel := normalizePath relativePath
  let fromParts : List String :=
    if normalizedFrom = "." then []
    else ((splitOnChar '/' normalizedFrom.data).map String.mk).filter (· ≠ "")
  let relParts : List String :=
    ((splitOnChar '/' normalizedRel.data).map String.mk).filter (· ≠ "")
  let resultParts := relParts.foldl
    (fun acc part =>
      if part = "." then acc
      else if part = ".." then acc.dropLast
      else acc ++ [part])
    fromParts
  let joined := String.intercalate "/" resultParts
  if joined = "" then "." else joined

/-- `GraphBuilder.joinPath` for the two-segment `index` case. -/
def joinPath2 (a b : String) : String := normalizePath (a ++ "/" ++ b)

/-- The fixed extension priority list of `resolveImportPath`. -/
def extensionsList : List String :=
  [".ts", ".tsx", ".js", ".jsx", ".mjs", ".cjs", ".py", ".pyi", ""]

/-- `GraphBuilder.resolveImportPath` (`builder.ts` lines 82–109): first try
the resolved path with each extension appended, then `index` files; the first
candidate present in the known file set wins. -/
def resolveImportPath (files : List (String × ScanResult))
    (fromPath importSource : String) : Option String :=
  let fromDir := dirname fromPath
  let resolved := resolvePath fromDir importSource
  match extensionsList.find? (fun ext => mapHas files (resolved ++ ext)) with
  | some ext => some (resolved ++ ext)
  | none =>
    match (extensionsList.filter (fun ext => ext ≠ "")).find?
        (fun ext => mapHas files (joinPath2 resolved ("index" ++ ext))) with
    | some ext => some (joinPath2 resolved ("index" ++ ext))
    | none => none

/-- Relation of the final `(source, target)` edge sort of `buildEdges`
("comparator result ≤ 0"). -/
def edgeSTLe (a b : Edge) : Prop :=
  strLt a.source b.source = true ∨
    (a.source = b.source ∧ (strLt a.target b.target = true ∨ a.target = b.target))

instance : DecidableRel edgeSTLe := fun a b => by unfold edgeSTLe; infer_instance

/-- `GraphBuilder.buildEdges` (`builder.ts` lines 31–66). -/
def buildEdges (files : List (String × ScanResult)) : List Edge :=
  let sortedPaths := sortStrings (files.map (·.1))
  let edges := sortedPaths.foldl
    (fun edges sourcePath =>
      match mapGet? files sourcePath with
      | none => edges
      | some scanResult =>
        scanResult.imports.foldl
          (fun edges imp =>
            if isRelativeImport imp.source then
              match resolveImportPath files sourcePath imp.source with
              | some targetPath =>
                if mapHas files targetPath then
                  edges ++ [{ source := sourcePath, target := targetPath, type := .imp,
                              confidence := 0.95, detection_method := .ast,
                              evidence := some ("import from \x27" ++ imp.source ++ "\x27") }]
                else edges
              | none => edges
            else edges)
          edges)
    []
  edges.insertionSort edgeSTLe

/-! ### C4: import-resolution precedence and the `.js` → `.ts` mapping -/

def emptyScan : ScanResult := ⟨[], [], [], []⟩

def appScanShared : ScanResult := ⟨[⟨"./shared", ["util"], false, false, 1⟩], [], [], []⟩

def appScanFoo : ScanResult := ⟨[⟨"./foo.js", ["x"], false, false, 1⟩], [], [], []⟩

/-- Known files: `src/app.ts` importing `./shared`, with both `src/shared.ts`
and `src/shared.js` present. -/
def sharedFiles : List (String × ScanResult) :=
  addScanResult (addScanResult (addScanResult [] "src/app.ts" appScanShared)
    "src/shared.ts" emptyScan) "src/shared.js" emptyScan

/-- Known files: `src/app.ts` importing `./foo.js`, with only `src/foo.ts`
present (no literal `src/foo.js`). -/
def fooFiles : List (String × ScanResult) :=
  addScanResult (addScanResult [] "src/app.ts" appScanFoo) "src/foo.ts" emptyScan

/-- C4 (code_bug): extension priority does give `shared.ts` precedence over
`shared.js` for an extensionless `./shared` import, but the ESM-style
`./foo.js` specifier with only a sibling `foo.ts` present resolves to *no*
edge at all: `resolveImportPath` only appends extensions to the resolved
specifier (`foo.js.ts`, …, `foo.js`, then `foo.js/index.*`) and never maps
`.js` to `.ts`, contradicting the claim, the spec, and the repository's own
test `resolves index file with .js extension import`. -/
theorem import_resolution_js_mapping :
    (buildEdges sharedFiles).map (fun e => (e.source, e.target)) =
      [("src/app.ts", "src/shared.ts")] ∧
    buildEdges fooFiles = [] := by
  constructor
  · decide
  · decide

/-! ## Impact analyzer — `src/src/impact/analyzer.ts`

Modelling notes: JS `Map`s appear as insertion-ordered association lists
(`mapSet` updates the first matching key in place, as `Map.set` does) and
JS `Set`s as duplicate-free insertion-ordered lists; `minimatch` is an
external dependency and appears as an opaque boolean `matcher` parameter;
the cursor-based `while (head < queue.length)` loops are iterated with
explicit fuel (`defaultFuel`), with fuel sufficiency proved separately;
JS string comparison `<` is modelled on code points, which agrees with
the UTF-16 comparison JS performs for strings of basic-plane characters;
JS `sort` with a comparator is modelled as a stable sort by the
"comparator result is non-positive" relation. -/

/-- `ChangedFile` (`src/git`): the analyzer consumes only the `path`
field. -/
structure ChangedFile where
  path : String
deriving DecidableEq

/-- `Component` (`src/schemas/component.ts`): the fields consumed by the
analyzer. -/
structure Component where
  name : String
  paths : List String
  depends_on : List String
deriving DecidableEq

/-- `ProjectModel` (`src/model/loader.ts`), without the unused `config`
field.  `dependentsByComponent` is the reverse-dependency `Map` built at
load time. -/
structure ProjectModel where
  components : List Component
  declaredEdges : List Edge
  discoveredEdges : List Edge
  dependentsByComponent : List (String × List String)
deriving DecidableEq

/-- `ImpactEdge` of the analyzer (component level).  `type` is the string
union `direct | transitive`. -/
structure ImpactEdge where
  source : String
  target : String
  type : String
  confidence : ℚ
  distance : Nat
  reason : String
deriving DecidableEq

/-- `FileImpactEdge` of the analyzer (file level). -/
structure FileImpactEdge where
  source : String
  target : String
  type : EdgeType
  confidence : ℚ
  detection_method : DetectionMethod
  distance : Nat
deriving DecidableEq

/-- The `summary` object of `ImpactReport`. -/
structure ImpactSummary where
  filesChanged : Nat
  componentsAffected : Nat
  filesAffected : Nat
  confidenceMean : ℚ
deriving DecidableEq

/-- `ImpactReport`. -/
structure ImpactReport where
  changedFiles : List ChangedFile
  affectedComponents : List String
  affectedFiles : List String
  impactEdges : List ImpactEdge
  fileImpactEdges : List FileImpactEdge
  summary : ImpactSummary
deriving DecidableEq

/-! ### `getMergedEdges` (`analyzer.ts` lines 104-135) -/

/-- The string key under which an edge is merged. -/
def edgeKey (e : Edge) : String :=
  normalizePath e.source ++ "|" ++ normalizePath e.target ++ "|" ++ edgeTypeKey e.type

/-- One step of the declared-edge loop: `edgeMap.set(key, edge)`. -/
def addDeclared (m : List (String × Edge)) (e : Edge) : List (String × Edge) :=
  mapSet m (edgeKey e) e

/-- One step of the discovered-edge loop: overwrite only when no entry
exists or the discovered confidence is strictly higher. -/
def addDiscovered (m : List (String × Edge)) (e : Edge) : List (String × Edge) :=
  match mapGet? m (edgeKey e) with
  | none => mapSet m (edgeKey e) e
  | some existing =>
    if existing.confidence < e.confidence then mapSet m (edgeKey e) e else m

/-- "Comparator result non-positive" for the final merged-edge sort on
raw `(source, target, type)`. -/
def edgeLe (a b : Edge) : Prop :=
  strLt a.source b.source = true ∨ (a.source = b.source ∧
    (strLt a.target b.target = true ∨ (a.target = b.target ∧
      (strLt (edgeTypeKey a.type) (edgeTypeKey b.type) = true ∨
        edgeTypeKey a.type = edgeTypeKey b.type))))

instance : DecidableRel edgeLe := fun a b => by unfold edgeLe; infer_instance

/-- `getMergedEdges`: declared edges first, discovered edges merged in
keeping the strictly-higher confidence version, then the map values in
insertion order, sorted for deterministic output. -/
def getMergedEdges (m : ProjectModel) : List Edge :=
  let afterDeclared := m.declaredEdges.foldl addDeclared []
  let merged := m.discoveredEdges.foldl addDiscovered afterDeclared
  (merged.map (fun p => p.2)).insertionSort edgeLe

/-! ### Forward and reverse file-edge lookups (`analyzer.ts` lines 141-183) -/

/-- Group edges into a `Map` keyed by `key`, appending each edge to its
bucket (`getReverseFileEdges` and the forward lookup of
`findAffectedFiles` both have this shape). -/
def groupEdgesBy (key : Edge → String) (edges : List Edge) : List (String × List Edge) :=
  edges.foldl (fun m edge => mapSet m (key edge) (mapGetD m (key edge) [] ++ [edge])) []

/-- `getReverseFileEdges`: file → edges targeting it. -/
def getReverseFileEdges (mergedEdges : List Edge) : List (String × List Edge) :=
  groupEdgesBy (fun e => normalizePath e.target) mergedEdges

/-! ### `findAffectedFiles` (`analyzer.ts` lines 167-246) -/

/-- Sort relation of the per-file forward loop (`a.target < b.target ?
-1 : 1`; the comparator result is non-positive exactly when the targets
are strictly ordered). -/
def tgtLt (a b : Edge) : Prop := strLt a.target b.target = true

instance : DecidableRel tgtLt := fun a b => by unfold tgtLt; infer_instance

/-- Sort relation of the per-file reverse loop (`a.source < b.source ?
-1 : 1`). -/
def srcLt (a b : Edge) : Prop := strLt a.source b.source = true

instance : DecidableRel srcLt := fun a b => by unfold srcLt; infer_instance

/-- "Comparator result non-positive" for the final file-impact-edge sort
on `(source, target)`. -/
def fileEdgeLe (a b : FileImpactEdge) : Prop :=
  strLt a.source b.source = true ∨
    (a.source = b.source ∧ (strLt a.target b.target = true ∨ a.target = b.target))

instance : DecidableRel fileEdgeLe := fun a b => by unfold fileEdgeLe; infer_instance

/-- State of the bidirectional file BFS: `queue` is the unprocessed tail
of the growing JS array (everything from the `head` cursor on). -/
structure FilesSt where
  affectedFiles : List String
  fileImpactEdges : List FileImpactEdge
  queue : List (String × Nat)
  visited : List String
deriving DecidableEq

/-- The body of one `for (const edge of ...)` loop of `findAffectedFiles`:
`proj` picks the far endpoint (target for forward edges, source for
reverse ones). -/
def processEdges (file : String) (distance : Nat) (proj : Edge → String)
    (edges : List Edge) (s : FilesSt) : FilesSt :=
  edges.foldl (fun s edge =>
    let other := normalizePath (proj edge)
    if s.affectedFiles.contains other then s
    else
      { affectedFiles := s.affectedFiles ++ [other],
        fileImpactEdges := s.fileImpactEdges ++
          [{ source := file, target := other, type := edge.type,
             confidence := edge.confidence * max 0.5 (1 - (distance : ℚ) * 0.1),
             detection_method := edge.detection_method,
             distance := distance + 1 }],
        queue := s.queue ++ [(other, distance + 1)],
        visited := s.visited }) s

/-- One iteration of the `while (head < queue.length)` loop of
`findAffectedFiles`. -/
def fileStep (forward reverse : List (String × List Edge)) (s : FilesSt) : FilesSt :=
  match s.queue with
  | [] => s
  | (file, distance) :: rest =>
    if s.visited.contains file then { s with queue := rest }
    else
      let s1 : FilesSt := { s with queue := rest, visited := s.visited ++ [file] }
      let s2 := processEdges file distance (fun e => e.target)
        ((mapGetD forward file []).insertionSort tgtLt) s1
      processEdges file distance (fun e => e.source)
        ((mapGetD reverse file []).insertionSort srcLt) s2

def filesDone (s : FilesSt) : Bool := s.queue.isEmpty

/-- `findAffectedFiles`: BFS from the changed files over merged edges in
both directions; returns the affected-file set (insertion order) and the
file impact edges sorted by `(source, target)`. -/
def findAffectedFiles (fuel : Nat) (mergedEdges : List Edge)
    (changedPaths : List String) : List String × List FileImpactEdge :=
  let forward := groupEdgesBy (fun e => normalizePath e.source) mergedEdges
  let reverse := getReverseFileEdges mergedEdges
  let s0 : FilesSt :=
    { affectedFiles := changedPaths, fileImpactEdges := [],
      queue := changedPaths.map (fun p => (p, 0)), visited := [] }
  let s := iterStep (fileStep forward reverse) filesDone fuel s0
  (s.affectedFiles, s.fileImpactEdges.insertionSort fileEdgeLe)

/-! ### Component-level traversals (`analyzer.ts` lines 248-288, 349-384) -/

/-- `findDirectComponents`: the insertion-ordered set of component names
with a path pattern matching some changed file. -/
def findDirectComponents (matcher : String → String → Bool)
    (components : List Component) (changes : List ChangedFile) : List String :=
  changes.foldl (fun direct change =>
    components.foldl (fun direct component =>
      if component.paths.any (fun pattern => matcher change.path pattern) then
        setAdd direct component.name
      else direct) direct) []

/-- `dependents.length <= 1 ? dependents : [...dependents].sort()`. -/
def sortedDependents (dependents : List String) : List String :=
  if dependents.length ≤ 1 then dependents else sortStrings dependents

/-- The dependents lookup `this.model.dependentsByComponent.get(current) ?? []`. -/
def depsOf (m : ProjectModel) (current : String) : List String :=
  mapGetD m.dependentsByComponent current []

/-- State of the transitive-component BFS. -/
structure TransSt where
  all : List String
  queue : List String
deriving DecidableEq

/-- One iteration of the `findTransitiveComponents` loop. -/
def transStep (dependents : String → List String) (s : TransSt) : TransSt :=
  match s.queue with
  | [] => s
  | current :: rest =>
    let ordered := sortedDependents (dependents current)
    ordered.foldl (fun s dependent =>
      if s.all.contains dependent then s
      else { all := s.all ++ [dependent], queue := s.queue ++ [dependent] })
      { s with queue := rest }

def transDone (s : TransSt) : Bool := s.queue.isEmpty

/-- `findTransitiveComponents`: closure of the direct set under the
(sorted) dependents relation, starting from the lexically sorted direct
queue. -/
def findTransitiveComponents (fuel : Nat) (m : ProjectModel)
    (direct : List String) : List String :=
  (iterStep (transStep (depsOf m)) transDone fuel
    { all := direct, queue := sortStrings direct }).all

/-- State of the `calculateDistances` BFS. -/
structure DistSt where
  distances : List (String × Nat)
  queue : List (String × Nat)
deriving DecidableEq

/-- `distances.has(current) && distances.get(current)! <= dist`. -/
def distSkip (distances : List (String × Nat)) (current : String) (dist : Nat) : Bool :=
  match mapGet? distances current with
  | some d => d ≤ dist
  | none => false

/-- One iteration of the `calculateDistances` loop. -/
def distStep (dependents : String → List String) (s : DistSt) : DistSt :=
  match s.queue with
  | [] => s
  | (current, dist) :: rest =>
    if distSkip s.distances current dist then { s with queue := rest }
    else
      { distances := mapSet s.distances current dist,
        queue := rest ++
          (sortedDependents (dependents current)).map (fun dep => (dep, dist + 1)) }

def distDone (s : DistSt) : Bool := s.queue.isEmpty

/-- `calculateDistances`: hop counts from the direct set. -/
def calculateDistances (fuel : Nat) (m : ProjectModel)
    (direct : List String) : List (String × Nat) :=
  (iterStep (distStep (depsOf m)) distDone fuel
    { distances := [], queue := (sortStrings direct).map (fun c => (c, 0)) }).distances

/-! ### `buildImpactEdges` (`analyzer.ts` lines 290-347, 376-384) -/

/-- `mapComponentsToFiles`: component name → sorted changed files matching
its patterns (components with no match are left out of the map). -/
def mapComponentsToFiles (matcher : String → String → Bool)
    (components : List Component) (changes : List ChangedFile) :
    List (String × List String) :=
  components.foldl (fun result component =>
    let matchingFiles :=
      (changes.filter (fun change =>
        component.paths.any (fun pattern => matcher change.path pattern))).map
        (fun change => change.path)
    if matchingFiles.isEmpty then result
    else mapSet result component.name (sortStrings matchingFiles)) []

/-- `findDependencySource`: the first directly-affected dependency, with
the JS fallback `component.depends_on[0] || 'unknown'` (the empty
string is falsy). -/
def findDependencySource (components : List Component) (target : String)
    (direct : List String) : String :=
  match components.find? (fun c => c.name == target) with
  | none => "unknown"
  | some component =>
    match component.depends_on.find? (fun dep => direct.contains dep) with
    | some dep => dep
    | none =>
      match component.depends_on with
      | [] => "unknown"
      | d :: _ => if d = "" then "unknown" else d

/-- The `ImpactEdge` pushed for one affected component. -/
def mkImpactEdge (componentToFiles : List (String × List String))
    (components : List Component) (direct : List String)
    (distances : List (String × Nat)) (componentName : String) : ImpactEdge :=
  let distance := mapGetD distances componentName 0
  let isDirect := direct.contains componentName
  let confidence : ℚ := if isDirect then 1 else max 0.3 (1 - (distance : ℚ) * 0.2)
  let source :=
    if isDirect then
      match mapGetD componentToFiles componentName [] with
      | [] => "unknown"
      | f :: _ => if f = "" then "unknown" else f
    else findDependencySource components componentName direct
  { source := source, target := componentName,
    type := if isDirect then "direct" else "transitive",
    confidence := confidence, distance := distance,
    reason :=
      if isDirect then "File matches component path pattern"
      else "Depends on affected component (distance: " ++ toString distance ++ ")" }

/-- "Comparator result non-positive" for `(a, b) => b.confidence -
a.confidence`: descending confidence. -/
def confGe (a b : ImpactEdge) : Prop := b.confidence ≤ a.confidence

instance : DecidableRel confGe := fun a b => by unfold confGe; infer_instance

/-- The impact edges in push order, before the final confidence sort. -/
def impactEdgesRaw (matcher : String → String → Bool) (m : ProjectModel)
    (changes : List ChangedFile) (direct allAffected : List String)
    (distances : List (String × Nat)) : List ImpactEdge :=
  let componentToFiles := mapComponentsToFiles matcher m.components changes
  allAffected.map (mkImpactEdge componentToFiles m.components direct distances)

/-- `buildImpactEdges`. -/
def buildImpactEdges (fuel : Nat) (matcher : String → String → Bool)
    (m : ProjectModel) (changes : List ChangedFile)
    (direct allAffected : List String) : List ImpactEdge :=
  let distances := calculateDistances fuel m direct
  (impactEdgesRaw matcher m changes direct allAffected distances).insertionSort confGe

/-! ### `analyze` (`analyzer.ts` lines 69-98) -/

/-- Total length of the dependents lists. -/
def depsTotal (m : ProjectModel) : Nat :=
  (m.dependentsByComponent.map (fun p => p.2.length)).sum

/-- Fuel that provably dominates the measures of all three BFS loops (the
JS loops need no fuel; sufficiency of this bound is the termination
theorem). -/
def defaultFuel (m : ProjectModel) (changes : List ChangedFile) : Nat :=
  let base := 2 * m.components.length + depsTotal m + 2 * changes.length +
    2 * (m.declaredEdges.length + m.discoveredEdges.length) + 1
  base * base + base

/-- `analyze`, with explicit fuel for the three internal loops. -/
def analyzeFuel (fuel : Nat) (matcher : String → String → Bool)
    (m : ProjectModel) (changes : List ChangedFile) : ImpactReport :=
  let directComponents := findDirectComponents matcher m.components changes
  let allAffected := findTransitiveComponents fuel m directComponents
  let impactEdges := buildImpactEdges fuel matcher m changes directComponents allAffected
  let changedPaths := changes.foldl (fun s c => setAdd s (normalizePath c.path)) []
  let fa := findAffectedFiles fuel (getMergedEdges m) changedPaths
  let confidences := impactEdges.map (fun e => e.confidence)
  let confidenceMean : ℚ :=
    if 0 < confidences.length then confidences.sum / (confidences.length : ℚ) else 0
  { changedFiles := changes,
    affectedComponents := sortStrings allAffected,
    affectedFiles := sortStrings fa.1,
    impactEdges := impactEdges,
    fileImpactEdges := fa.2,
    summary :=
      { filesChanged := changes.length,
        componentsAffected := allAffected.length,
        filesAffected := fa.1.length,
        confidenceMean := confidenceMean } }

/-- `ImpactAnalyzer.analyze`. -/
def analyze (matcher : String → String → Bool) (m : ProjectModel)
    (changes : List ChangedFile) : ImpactReport :=
  analyzeFuel (defaultFuel m changes) matcher m changes

/-! ### C10: empty-impact safety of the summary mean -/

theorem findTransitiveComponents_nil (fuel : Nat) (m : ProjectModel) :
    findTransitiveComponents fuel m [] = [] := by
  unfold findTransitiveComponents
  rw [iterStep_done]
  rfl

theorem buildImpactEdges_nil (fuel : Nat) (matcher : String → String → Bool)
    (m : ProjectModel) (changes : List ChangedFile) (direct : List String) :
    buildImpactEdges fuel matcher m changes direct [] = [] := by
  unfold buildImpactEdges impactEdgesRaw
  rfl

/-- C10: when `analyze()` produces no component-level impact edges,
`summary.confidenceMean` is exactly `0` rather than a division by zero;
and with an empty changed-file list, `affectedComponents` and
`impactEdges` are both empty and the mean is `0`. -/
theorem confidence_mean_zero (matcher : String → String → Bool)
    (m : ProjectModel) (changes : List ChangedFile) :
    ((analyze matcher m changes).impactEdges = [] →
      (analyze matcher m changes).summary.confidenceMean = 0) ∧
    ((analyze matcher m []).impactEdges = [] ∧
      (analyze matcher m []).affectedComponents = [] ∧
      (analyze matcher m []).summary.confidenceMean = 0) := by
  constructor
  · intro h
    simp only [analyze, analyzeFuel] at h ⊢
    rw [h]
    simp
  · have hdir : findDirectComponents matcher m.components ([] : List ChangedFile) = [] := rfl
    refine ⟨?_, ?_, ?_⟩ <;>
      simp [analyze, analyzeFuel, hdir, findTransitiveComponents_nil,
        buildImpactEdges_nil, sortStrings]

def c10matcher : String → String → Bool := fun _ _ => false

def c10model : ProjectModel := ⟨[], [], [], []⟩

/-- Witness: a concrete run with one changed file and an empty model has
no impact edges, and its mean is `0` by the theorem. -/
theorem confidence_mean_zero_witness :
    (analyze c10matcher c10model [⟨"a"⟩]).impactEdges = [] ∧
    (analyze c10matcher c10model [⟨"a"⟩]).summary.confidenceMean = 0 := by
  have h : (analyze c10matcher c10model [⟨"a"⟩]).impactEdges = [] := by decide
  exact ⟨h, (confidence_mean_zero c10matcher c10model [⟨"a"⟩]).1 h⟩

/-! ### C5: confidence formula and bounds -/

/-- Every edge stored in a `groupEdgesBy` bucket comes from the grouped
list. -/
theorem groupEdgesBy_sub (key : Edge → String) (l : List Edge) :
    ∀ k : String, ∀ x ∈ mapGetD (groupEdgesBy key l) k [], x ∈ l := by
  unfold groupEdgesBy
  apply foldl_inv (P := fun mm : List (String × List Edge) =>
    ∀ k : String, ∀ x ∈ mapGetD mm k [], x ∈ l)
  · intro mm e he hmm k x hx
    by_cases hk : k = key e
    · subst hk
      rw [mapGetD, mapGet?_mapSet_self, Option.getD_some] at hx
      rcases List.mem_append.mp hx with hx | hx
      · exact hmm _ x hx
      · rw [List.mem_singleton.mp hx]; exact he
    · have hne : (k == key e) = false := beq_eq_false_iff_ne.mpr hk
      rw [mapGetD, mapGet?_mapSet_ne _ _ hne] at hx
      exact hmm k x hx
  · intro k x hx
    simp [mapGetD, mapGet?] at hx

/-- Every merged edge is a declared or discovered edge of the model. -/
theorem getMergedEdges_sub (m : ProjectModel) :
    ∀ e ∈ getMergedEdges m, e ∈ m.declaredEdges ++ m.discoveredEdges := by
  intro e he
  unfold getMergedEdges at he
  have he2 := (List.perm_insertionSort edgeLe _).subset he
  rw [List.mem_map] at he2
  obtain ⟨p, hp, hpe⟩ := he2
  have hvals : ∀ q ∈ m.discoveredEdges.foldl addDiscovered (m.declaredEdges.foldl addDeclared []),
      (q : String × Edge).2 ∈ m.declaredEdges ++ m.discoveredEdges := by
    apply foldl_inv (P := fun mm : List (String × Edge) =>
      ∀ q ∈ mm, (q : String × Edge).2 ∈ m.declaredEdges ++ m.discoveredEdges)
    · intro mm x hx hmm q hq
      unfold addDiscovered at hq
      rcases hget : mapGet? mm (edgeKey x) with _ | ex
      · rw [hget] at hq
        rcases mapSet_entry_mem hq with hh | hh
        · exact hmm q hh
        · rw [hh]; exact List.mem_append.mpr (Or.inr hx)
      · rw [hget] at hq
        dsimp only at hq
        by_cases himp : ex.confidence < x.confidence
        · rw [if_pos himp] at hq
          rcases mapSet_entry_mem hq with hh | hh
          · exact hmm q hh
          · rw [hh]; exact List.mem_append.mpr (Or.inr hx)
        · rw [if_neg himp] at hq
          exact hmm q hq
    · apply foldl_inv (P := fun mm : List (String × Edge) =>
        ∀ q ∈ mm, (q : String × Edge).2 ∈ m.declaredEdges ++ m.discoveredEdges)
      · intro mm x hx hmm q hq
        unfold addDeclared at hq
        rcases mapSet_entry_mem hq with hh | hh
        · exact hmm q hh
        · rw [hh]; exact List.mem_append.mpr (Or.inl hx)
      · intro q hq; cases hq
  rw [← hpe]
  exact hvals p hp

/-- The shape of every file-impact confidence: a merged-edge confidence
times the distance decay factor. -/
def ConfShape (merged : List Edge) (fe : FileImpactEdge) : Prop :=
  ∃ e ∈ merged, ∃ d : Nat,
    fe.confidence = e.confidence * max 0.5 (1 - (d : ℚ) * 0.1)

theorem processEdges_confShape {merged : List Edge} (file : String) (distance : Nat)
    (proj : Edge → String) (edges : List Edge) (hsub : ∀ e ∈ edges, e ∈ merged) :
    ∀ s : FilesSt, (∀ fe ∈ s.fileImpactEdges, ConfShape merged fe) →
      ∀ fe ∈ (processEdges file distance proj edges s).fileImpactEdges, ConfShape merged fe := by
  unfold processEdges
  apply foldl_inv (P := fun s : FilesSt => ∀ fe ∈ s.fileImpactEdges, ConfShape merged fe)
  intro s x hx hs fe hfe
  dsimp only at hfe
  by_cases hc : s.affectedFiles.contains (normalizePath (proj x))
  · rw [if_pos hc] at hfe
    exact hs fe hfe
  · rw [if_neg hc] at hfe
    dsimp only at hfe
    rcases List.mem_append.mp hfe with hfe | hfe
    · exact hs fe hfe
    · rw [List.mem_singleton.mp hfe]
      exact ⟨x, hsub x hx, distance, rfl⟩

theorem fileStep_confShape {merged : List Edge} {forward reverse : List (String × List Edge)}
    (hf : ∀ k : String, ∀ e ∈ mapGetD forward k [], e ∈ merged)
    (hr : ∀ k : String, ∀ e ∈ mapGetD reverse k [], e ∈ merged) (s : FilesSt)
    (hs : ∀ fe ∈ s.fileImpactEdges, ConfShape merged fe) :
    ∀ fe ∈ (fileStep forward reverse s).fileImpactEdges, ConfShape merged fe := by
  rcases hq : s.queue with _ | ⟨fd, rest⟩
  · unfold fileStep; rw [hq]; exact hs
  · obtain ⟨file, distance⟩ := fd
    unfold fileStep
    rw [hq]
    dsimp only
    by_cases hv : s.visited.contains file
    · rw [if_pos hv]; exact hs
    · rw [if_neg hv]
      apply processEdges_confShape
      · intro e he
        exact hr file (e := e) ((List.perm_insertionSort srcLt _).subset he)
      apply processEdges_confShape
      · intro e he
        exact hf file (e := e) ((List.perm_insertionSort tgtLt _).subset he)
      · exact hs

theorem findAffectedFiles_confShape (fuel : Nat) (merged : List Edge)
    (changedPaths : List String) :
    ∀ fe ∈ (findAffectedFiles fuel merged changedPaths).2, ConfShape merged fe := by
  have hinv := @iterStep_inv FilesSt
    (fileStep (groupEdgesBy (fun e => normalizePath e.source) merged)
      (getReverseFileEdges merged)) filesDone
    (fun s : FilesSt => ∀ fe ∈ s.fileImpactEdges, ConfShape merged fe)
    (fun s hs => fileStep_confShape (groupEdgesBy_sub _ _)
      (groupEdgesBy_sub (fun e => normalizePath e.target) merged) s hs)
    fuel
    { affectedFiles := changedPaths, fileImpactEdges := [],
      queue := changedPaths.map (fun p => (p, 0)), visited := [] }
    (by intro fe hfe; simp at hfe)
  intro fe hfe
  unfold findAffectedFiles at hfe
  dsimp only at hfe
  exact hinv fe ((List.perm_insertionSort fileEdgeLe _).subset hfe)
/-- `mkImpactEdge` on a directly-affected component. -/
theorem mkImpactEdge_direct (ctf : List (String × List String))
    (components : List Component) (direct : List String)
    (distances : List (String × Nat)) (name : String)
    (h : direct.contains name = true) :
    mkImpactEdge ctf components direct distances name =
      { source :=
          match mapGetD ctf name [] with
          | [] => "unknown"
          | f :: _ => if f = "" then "unknown" else f,
        target := name, type := "direct", confidence := 1,
        distance := mapGetD distances name 0,
        reason := "File matches component path pattern" } := by
  unfold mkImpactEdge
  rw [h]
  rfl

/-- `mkImpactEdge` on a transitively-affected component. -/
theorem mkImpactEdge_trans (ctf : List (String × List String))
    (components : List Component) (direct : List String)
    (distances : List (String × Nat)) (name : String)
    (h : direct.contains name = false) :
    mkImpactEdge ctf components direct distances name =
      { source := findDependencySource components name direct,
        target := name, type := "transitive",
        confidence := max 0.3 (1 - ((mapGetD distances name 0 : Nat) : ℚ) * 0.2),
        distance := mapGetD distances name 0,
        reason := "Depends on affected component (distance: " ++
          toString (mapGetD distances name 0) ++ ")" } := by
  unfold mkImpactEdge
  rw [h]
  rfl

theorem mkImpactEdge_props (ctf : List (String × List String))
    (components : List Component) (direct : List String)
    (distances : List (String × Nat)) (name : String) :
    ((mkImpactEdge ctf components direct distances name).type = "direct" →
      (mkImpactEdge ctf components direct distances name).confidence = 1) ∧
    ((mkImpactEdge ctf components direct distances name).type = "transitive" →
      (mkImpactEdge ctf components direct distances name).confidence =
        max 0.3 (1 - ((mkImpactEdge ctf components direct distances name).distance : ℚ) * 0.2)) ∧
    0 ≤ (mkImpactEdge ctf components direct distances name).confidence ∧
    (mkImpactEdge ctf components direct distances name).confidence ≤ 1 := by
  cases hd : direct.contains name with
  | true =>
    rw [mkImpactEdge_direct ctf components direct distances name hd]
    refine ⟨fun _ => rfl, fun habs => ?_, by norm_num, by norm_num⟩
    dsimp only at habs
    exact absurd habs (by decide)
  | false =>
    rw [mkImpactEdge_trans ctf components direct distances name hd]
    refine ⟨fun habs => ?_, fun _ => rfl, ?_, ?_⟩
    · dsimp only at habs
      exact absurd habs (by decide)
    · exact le_trans (by norm_num) (le_max_left _ _)
    · exact max_le (by norm_num)
        (sub_le_self _ (mul_nonneg (Nat.cast_nonneg _) (by norm_num)))

/-- C5: in every impact report, direct impact edges carry confidence
exactly `1`, transitive ones carry `max(0.3, 1 - 0.2 * distance)` for
their BFS distance, and — given that every model edge confidence lies in
`[0, 1]` — every component- and file-level impact edge confidence lies
in `[0, 1]`. -/
theorem confidence_formula (matcher : String → String → Bool) (m : ProjectModel)
    (changes : List ChangedFile)
    (hconf : ∀ e ∈ m.declaredEdges ++ m.discoveredEdges,
      0 ≤ e.confidence ∧ e.confidence ≤ 1) :
    (∀ ie ∈ (analyze matcher m changes).impactEdges,
      (ie.type = "direct" → ie.confidence = 1) ∧
      (ie.type = "transitive" →
        ie.confidence = max 0.3 (1 - (ie.distance : ℚ) * 0.2)) ∧
      0 ≤ ie.confidence ∧ ie.confidence ≤ 1) ∧
    (∀ fe ∈ (analyze matcher m changes).fileImpactEdges,
      0 ≤ fe.confidence ∧ fe.confidence ≤ 1) := by
  constructor
  · intro ie hie
    simp only [analyze, analyzeFuel] at hie
    unfold buildImpactEdges at hie
    dsimp only at hie
    have h2 := (List.perm_insertionSort confGe _).subset hie
    unfold impactEdgesRaw at h2
    dsimp only at h2
    rw [List.mem_map] at h2
    obtain ⟨name, _, heq⟩ := h2
    rw [← heq]
    exact mkImpactEdge_props _ _ _ _ _
  · intro fe hfe
    simp only [analyze, analyzeFuel] at hfe
    obtain ⟨e, he, d, hconfEq⟩ := findAffectedFiles_confShape _ _ _ fe hfe
    have hce := hconf e (getMergedEdges_sub m e he)
    rw [hconfEq]
    constructor
    · exact mul_nonneg hce.1 (le_trans (by norm_num) (le_max_left _ _))
    · have hfac1 : max (0.5 : ℚ) (1 - (d : ℚ) * 0.1) ≤ 1 :=
        max_le (by norm_num)
          (sub_le_self _ (mul_nonneg (Nat.cast_nonneg _) (by norm_num)))
      have hfac0 : (0 : ℚ) ≤ max 0.5 (1 - (d : ℚ) * 0.1) :=
        le_trans (by norm_num) (le_max_left _ _)
      calc e.confidence * max 0.5 (1 - (d : ℚ) * 0.1) ≤ 1 * 1 :=
            mul_le_mul hce.2 hfac1 hfac0 (by norm_num)
        _ = 1 := by norm_num

def c5matcher : String → String → Bool := fun _ _ => false

def c5edge : Edge := ⟨"a", "b", .imp, 1, .ast, none⟩

def c5model : ProjectModel := ⟨[], [], [c5edge], []⟩

/-- Witness: a concrete model with one discovered edge of confidence `1`
satisfies the bounds hypothesis, so the file-level bounds follow from the
theorem. -/
theorem confidence_formula_witness :
    (∀ e ∈ c5model.declaredEdges ++ c5model.discoveredEdges,
      0 ≤ e.confidence ∧ e.confidence ≤ 1) ∧
    (∀ fe ∈ (analyze c5matcher c5model [⟨"a"⟩]).fileImpactEdges,
      0 ≤ fe.confidence ∧ fe.confidence ≤ 1) := by
  have h : ∀ e ∈ c5model.declaredEdges ++ c5model.discoveredEdges,
      0 ≤ e.confidence ∧ e.confidence ≤ 1 := by
    intro e he
    simp only [c5model, List.nil_append, List.mem_singleton] at he
    rw [he]
    exact ⟨by norm_num [c5edge], by norm_num [c5edge]⟩
  exact ⟨h, (confidence_formula c5matcher c5model [⟨"a"⟩] h).2⟩
/-! ### C9: the source of transitive impact edges -/

theorem contains_true_iff {α : Type _} [BEq α] [LawfulBEq α] (l : List α) (a : α) :
    l.contains a = true ↔ a ∈ l := by
  induction l with
  | nil => simp
  | cons x xs ih => simp

/-- `find?` returns the first satisfying element: the list splits around
it with an all-failing prefix. -/
theorem find?_some_split {α : Type _} {p : α → Bool} :
    ∀ {l : List α} {a : α}, l.find? p = some a →
      ∃ pre post, l = pre ++ a :: post ∧ p a = true ∧ ∀ x ∈ pre, p x = false := by
  intro l
  induction l with
  | nil => intro a h; cases h
  | cons x xs ih =>
    intro a h
    cases hx : p x with
    | true =>
      rw [List.find?_cons_of_pos _ hx] at h
      obtain rfl := Option.some.inj h
      exact ⟨[], xs, rfl, hx, by intro y hy; cases hy⟩
    | false =>
      rw [List.find?_cons_of_neg _ (by simp [hx])] at h
      obtain ⟨pre, post, hsplit, hpa, hpre⟩ := ih h
      refine ⟨x :: pre, post, by rw [hsplit]; rfl, hpa, ?_⟩
      intro y hy
      rcases List.mem_cons.mp hy with rfl | hy
      · exact hx
      · exact hpre y hy

/-- Membership in the report impact edges, unfolded to the pushed edge of
one affected component. -/
theorem analyze_impactEdges_iff (matcher : String → String → Bool) (m : ProjectModel)
    (changes : List ChangedFile) (ie : ImpactEdge) :
    ie ∈ (analyze matcher m changes).impactEdges ↔
      ∃ name ∈ findTransitiveComponents (defaultFuel m changes) m
          (findDirectComponents matcher m.components changes),
        mkImpactEdge (mapComponentsToFiles matcher m.components changes) m.components
          (findDirectComponents matcher m.components changes)
          (calculateDistances (defaultFuel m changes) m
            (findDirectComponents matcher m.components changes)) name = ie := by
  simp only [analyze, analyzeFuel]
  unfold buildImpactEdges
  dsimp only
  rw [(List.perm_insertionSort confGe _).mem_iff]
  unfold impactEdgesRaw
  dsimp only
  rw [List.mem_map]

/-- C9 (amended): for every transitive impact edge whose target resolves
to a component, the `source` field is the first directly-affected entry
of that component's `depends_on`; when no entry is directly affected it
falls back to the FIRST DECLARED dependency (`depends_on[0]`), and only
when `depends_on` is empty (or its head is the empty string) is it the
literal `"unknown"`. -/
theorem transitive_edge_source_amended (matcher : String → String → Bool)
    (m : ProjectModel) (changes : List ChangedFile) (ie : ImpactEdge) {comp : Component}
    (hie : ie ∈ (analyze matcher m changes).impactEdges)
    (htype : ie.type = "transitive")
    (hcomp : m.components.find? (fun c => c.name == ie.target) = some comp) :
    ((∃ d ∈ comp.depends_on, d ∈ findDirectComponents matcher m.components changes) →
      ∃ pre post, comp.depends_on = pre ++ ie.source :: post ∧
        ie.source ∈ findDirectComponents matcher m.components changes ∧
        ∀ x ∈ pre, x ∉ findDirectComponents matcher m.components changes) ∧
    ((∀ d ∈ comp.depends_on, d ∉ findDirectComponents matcher m.components changes) →
      (comp.depends_on = [] → ie.source = "unknown") ∧
      (∀ d rest, comp.depends_on = d :: rest →
        ie.source = if d = "" then "unknown" else d)) := by
  obtain ⟨name, _, heq⟩ := (analyze_impactEdges_iff matcher m changes ie).mp hie
  cases hd : (findDirectComponents matcher m.components changes).contains name with
  | true =>
    exfalso
    rw [← heq, mkImpactEdge_direct _ _ _ _ _ hd] at htype
    simp at htype
  | false =>
    rw [← heq, mkImpactEdge_trans _ _ _ _ _ hd] at hcomp ⊢
    dsimp only at hcomp ⊢
    unfold findDependencySource
    rw [hcomp]
    dsimp only
    rcases hfind : comp.depends_on.find?
        (fun dep => (findDirectComponents matcher m.components changes).contains dep)
      with _ | dep
    · dsimp only
      constructor
      · rintro ⟨d, hdmem, hddir⟩
        exfalso
        have := List.find?_eq_none.mp hfind d hdmem
        exact this ((contains_true_iff _ _).mpr hddir)
      · intro _
        constructor
        · intro hnil; rw [hnil]
        · intro d rest hlist; rw [hlist]
    · dsimp only
      obtain ⟨pre, post, hsplit, hpa, hpre⟩ := find?_some_split hfind
      constructor
      · intro _
        refine ⟨pre, post, hsplit, (contains_true_iff _ _).mp hpa, ?_⟩
        intro x hx hmem
        have := hpre x hx
        rw [(contains_true_iff _ _).mpr hmem] at this
        cases this
      · intro hall
        exfalso
        have hdepmem : dep ∈ comp.depends_on := by
          rw [hsplit]; exact List.mem_append.mpr (Or.inr (List.mem_cons_self _ _))
        exact hall dep hdepmem ((contains_true_iff _ _).mp hpa)
def c9matcher : String → String → Bool :=
  fun path pattern => path == "src/a/x" && pattern == "src/a/*"

/-- Chain `a ← b ← c`: component `a` matches the changed file, `b` depends
on `a`, `c` depends only on `b` (which is not directly affected). -/
def c9model : ProjectModel :=
  ⟨[⟨"a", ["src/a/*"], []⟩, ⟨"b", [], ["a"]⟩, ⟨"c", [], ["b"]⟩], [], [],
   [("a", ["b"]), ("b", ["c"]), ("c", [])]⟩

/-- The impact edge pushed for component `c` in the `c9model` run. -/
def c9edgeC : ImpactEdge :=
  mkImpactEdge (mapComponentsToFiles c9matcher c9model.components [⟨"src/a/x"⟩])
    c9model.components (findDirectComponents c9matcher c9model.components [⟨"src/a/x"⟩])
    (calculateDistances (defaultFuel c9model [⟨"src/a/x"⟩]) c9model
      (findDirectComponents c9matcher c9model.components [⟨"src/a/x"⟩])) "c"

/-- Counterexample to C9 as stated: component `c` has no directly-affected
dependency, yet its transitive impact edge carries source `"b"` (the
first declared dependency, `depends_on[0]`), not `"unknown"`. -/
theorem transitive_source_fallback_not_unknown :
    (∀ dep ∈ (⟨"c", [], ["b"]⟩ : Component).depends_on,
      dep ∉ findDirectComponents c9matcher c9model.components [⟨"src/a/x"⟩]) ∧
    ∃ ie ∈ (analyze c9matcher c9model [⟨"src/a/x"⟩]).impactEdges,
      ie.target = "c" ∧ ie.type = "transitive" ∧ ie.source = "b" ∧ ie.source ≠ "unknown" := by
  refine ⟨by decide, c9edgeC, ?_, by decide, by decide, by decide, by decide⟩
  exact (analyze_impactEdges_iff _ _ _ _).mpr ⟨"c", by decide, rfl⟩

/-- Witness: the amended characterisation applied to the concrete edge for
component `c` of `c9model`. -/
theorem transitive_edge_source_amended_witness :
    ((∃ d ∈ (["b"] : List String),
        d ∈ findDirectComponents c9matcher c9model.components [⟨"src/a/x"⟩]) →
      ∃ pre post, (["b"] : List String) = pre ++ c9edgeC.source :: post ∧
        c9edgeC.source ∈ findDirectComponents c9matcher c9model.components [⟨"src/a/x"⟩] ∧
        ∀ x ∈ pre, x ∉ findDirectComponents c9matcher c9model.components [⟨"src/a/x"⟩]) ∧
    ((∀ d ∈ (["b"] : List String),
        d ∉ findDirectComponents c9matcher c9model.components [⟨"src/a/x"⟩]) →
      ((["b"] : List String) = [] → c9edgeC.source = "unknown") ∧
      (∀ d rest, (["b"] : List String) = d :: rest →
        c9edgeC.source = if d = "" then "unknown" else d)) :=
  @transitive_edge_source_amended c9matcher c9model [⟨"src/a/x"⟩] c9edgeC ⟨"c", [], ["b"]⟩
    ((analyze_impactEdges_iff _ _ _ _).mpr ⟨"c", by decide, rfl⟩)
    (by decide) (by decide)
/-! ### C6: termination and uniqueness -/

theorem setAdd_nodup {α : Type _} [BEq α] [LawfulBEq α] {s : List α} (h : s.Nodup) (a : α) :
    (setAdd s a).Nodup := by
  unfold setAdd
  by_cases hc : s.contains a = true
  · rw [if_pos hc]; exact h
  · rw [if_neg hc]
    rw [List.nodup_append]
    refine ⟨h, List.nodup_singleton a, ?_⟩
    intro x hx hmem
    rw [List.mem_singleton.mp hmem] at hx
    exact hc ((contains_true_iff _ _).mpr hx)

theorem setAdd_mem {α : Type _} [BEq α] {s : List α} {a x : α} (h : x ∈ setAdd s a) :
    x ∈ s ∨ x = a := by
  unfold setAdd at h
  by_cases hc : s.contains a = true
  · rw [if_pos hc] at h; exact Or.inl h
  · rw [if_neg hc] at h
    rcases List.mem_append.mp h with h | h
    · exact Or.inl h
    · exact Or.inr (List.mem_singleton.mp h)

theorem setAdd_length {α : Type _} [BEq α] (s : List α) (a : α) :
    (setAdd s a).length ≤ s.length + 1 := by
  unfold setAdd
  by_cases hc : s.contains a = true
  · rw [if_pos hc]; omega
  · rw [if_neg hc]; simp

/-- A duplicate-free list of members of `u` is no longer than `u`. -/
theorem nodup_sub_length {α : Type _} {l u : List α} (hnd : l.Nodup)
    (hsub : ∀ x ∈ l, x ∈ u) : l.length ≤ u.length :=
  (List.subperm_of_subset hnd hsub).length_le

/-- The changed-path set built in `analyze` is duplicate-free. -/
theorem changedPaths_nodup (changes : List ChangedFile) :
    (changes.foldl (fun s c => setAdd s (normalizePath c.path)) []).Nodup := by
  apply foldl_inv (P := fun s : List String => s.Nodup)
  · intro s c _ h; exact setAdd_nodup h _
  · exact List.nodup_nil

theorem foldl_setAdd_length (changes : List ChangedFile) :
    ∀ acc : List String,
      (changes.foldl (fun s c => setAdd s (normalizePath c.path)) acc).length ≤
        acc.length + changes.length := by
  induction changes with
  | nil => intro acc; simp
  | cons c cs ih =>
    intro acc
    simp only [List.foldl_cons, List.length_cons]
    calc (cs.foldl (fun s c => setAdd s (normalizePath c.path))
            (setAdd acc (normalizePath c.path))).length ≤
          (setAdd acc (normalizePath c.path)).length + cs.length := ih _
      _ ≤ acc.length + 1 + cs.length := by
          have := setAdd_length acc (normalizePath c.path); omega
      _ = acc.length + (cs.length + 1) := by omega

theorem mapSet_length {α β : Type _} [BEq α] (m : List (α × β)) (k : α) (v : β) :
    (mapSet m k v).length ≤ m.length + 1 := by
  induction m with
  | nil => simp [mapSet]
  | cons p ps ih =>
    by_cases h : p.1 == k
    · simp [mapSet, h]
    · simp only [mapSet, h, Bool.false_eq_true, if_false, List.length_cons]
      omega

theorem getMergedEdges_length (m : ProjectModel) :
    (getMergedEdges m).length ≤ m.declaredEdges.length + m.discoveredEdges.length := by
  unfold getMergedEdges
  dsimp only
  rw [(List.perm_insertionSort edgeLe _).length_eq, List.length_map]
  have hdecl : ∀ (l : List Edge) (acc : List (String × Edge)),
      (l.foldl addDeclared acc).length ≤ acc.length + l.length := by
    intro l
    induction l with
    | nil => intro acc; simp
    | cons e es ih =>
      intro acc
      simp only [List.foldl_cons, List.length_cons]
      calc (es.foldl addDeclared (addDeclared acc e)).length ≤
            (addDeclared acc e).length + es.length := ih _
        _ ≤ acc.length + 1 + es.length := by
            have := mapSet_length acc (edgeKey e) e; unfold addDeclared; omega
        _ = acc.length + (es.length + 1) := by omega
  have hdisc : ∀ (l : List Edge) (acc : List (String × Edge)),
      (l.foldl addDiscovered acc).length ≤ acc.length + l.length := by
    intro l
    induction l with
    | nil => intro acc; simp
    | cons e es ih =>
      intro acc
      simp only [List.foldl_cons, List.length_cons]
      have hstep : (addDiscovered acc e).length ≤ acc.length + 1 := by
        unfold addDiscovered
        rcases hget : mapGet? acc (edgeKey e) with _ | ex
        · exact mapSet_length acc (edgeKey e) e
        · dsimp only
          by_cases himp : ex.confidence < e.confidence
          · rw [if_pos himp]; exact mapSet_length acc (edgeKey e) e
          · rw [if_neg himp]; omega
      calc (es.foldl addDiscovered (addDiscovered acc e)).length ≤
            (addDiscovered acc e).length + es.length := ih _
        _ ≤ acc.length + 1 + es.length := by omega
        _ = acc.length + (es.length + 1) := by omega
  calc (m.discoveredEdges.foldl addDiscovered (m.declaredEdges.foldl addDeclared [])).length ≤
        (m.declaredEdges.foldl addDeclared []).length + m.discoveredEdges.length := hdisc _ _
    _ ≤ 0 + m.declaredEdges.length + m.discoveredEdges.length := by
        have := hdecl m.declaredEdges []
        simp only [List.length_nil] at this
        omega
    _ = m.declaredEdges.length + m.discoveredEdges.length := by omega

theorem findDirectComponents_nodup (matcher : String → String → Bool)
    (components : List Component) (changes : List ChangedFile) :
    (findDirectComponents matcher components changes).Nodup := by
  unfold findDirectComponents
  apply foldl_inv (P := fun s : List String => s.Nodup)
  · intro s c _ h
    apply foldl_inv (P := fun s : List String => s.Nodup)
    · intro s comp _ h
      by_cases hm : comp.paths.any (fun pattern => matcher c.path pattern) = true
      · rw [if_pos hm]; exact setAdd_nodup h _
      · rw [if_neg hm]; exact h
    · exact h
  · exact List.nodup_nil

theorem findDirectComponents_sub (matcher : String → String → Bool)
    (components : List Component) (changes : List ChangedFile) :
    ∀ x ∈ findDirectComponents matcher components changes,
      x ∈ components.map (fun c => c.name) := by
  unfold findDirectComponents
  apply foldl_inv (P := fun s : List String =>
    ∀ x ∈ s, x ∈ components.map (fun c => c.name))
  · intro s c _ h
    apply foldl_inv (P := fun s : List String =>
      ∀ x ∈ s, x ∈ components.map (fun c => c.name))
    · intro s comp hcomp h x hx
      by_cases hm : comp.paths.any (fun pattern => matcher c.path pattern) = true
      · rw [if_pos hm] at hx
        rcases setAdd_mem hx with hx | hx
        · exact h x hx
        · rw [hx]; exact List.mem_map_of_mem _ hcomp
      · rw [if_neg hm] at hx; exact h x hx
    · exact h
  · intro x hx; cases hx

/-- A dependents lookup lands inside the flattened dependents lists. -/
theorem mapGetD_mem_flatten {α β : Type _} [BEq α] [LawfulBEq α] (mm : List (α × List β))
    (k : α) {x : β} (hx : x ∈ mapGetD mm k []) : x ∈ (mm.map (fun p => p.2)).flatten := by
  unfold mapGetD at hx
  rcases hget : mapGet? mm k with _ | v
  · rw [hget] at hx; cases hx
  · rw [hget] at hx
    obtain ⟨p, hp, _, hv⟩ := mapGet?_some_entry hget
    rw [List.mem_flatten]
    exact ⟨p.2, List.mem_map_of_mem _ hp, by rw [hv]; exact hx⟩

theorem sortedDependents_perm (l : List String) : (sortedDependents l).Perm l := by
  unfold sortedDependents
  by_cases h : l.length ≤ 1
  · rw [if_pos h]
  · rw [if_neg h]; exact sortStrings_perm l

/-- A dependents list is no longer than the total over all components. -/
theorem depsOf_length (m : ProjectModel) (current : String) :
    (depsOf m current).length ≤ depsTotal m := by
  unfold depsOf mapGetD
  rcases hget : mapGet? m.dependentsByComponent current with _ | v
  · simp [depsTotal]
  · simp only [Option.getD_some]
    obtain ⟨p, hp, _, hv⟩ := mapGet?_some_entry hget
    unfold depsTotal
    rw [← hv]
    exact List.single_le_sum (fun y _ => Nat.zero_le y) p.2.length
      (List.mem_map_of_mem _ hp)
theorem transFold_inv (univT : List String) :
    ∀ deps : List String, (∀ d ∈ deps, d ∈ univT) →
      ∀ t : TransSt, t.all.Nodup → (∀ x ∈ t.all, x ∈ univT) →
        ((deps.foldl (fun s dependent =>
            if s.all.contains dependent then s
            else { all := s.all ++ [dependent], queue := s.queue ++ [dependent] }) t).all.Nodup ∧
          (∀ x ∈ (deps.foldl (fun s dependent =>
            if s.all.contains dependent then s
            else { all := s.all ++ [dependent], queue := s.queue ++ [dependent] }) t).all,
            x ∈ univT) ∧
          (deps.foldl (fun s dependent =>
            if s.all.contains dependent then s
            else { all := s.all ++ [dependent], queue := s.queue ++ [dependent] }) t).queue.length +
            (univT.length - (deps.foldl (fun s dependent =>
              if s.all.contains dependent then s
              else { all := s.all ++ [dependent], queue := s.queue ++ [dependent] }) t).all.length) ≤
            t.queue.length + (univT.length - t.all.length)) := by
  intro deps
  induction deps with
  | nil => intro _ t h1 h2; exact ⟨h1, h2, le_refl _⟩
  | cons d ds ih =>
    intro hdeps t h1 h2
    have hdmem : d ∈ univT := hdeps d (List.mem_cons_self _ _)
    have hdeps2 : ∀ x ∈ ds, x ∈ univT := fun x hx => hdeps x (List.mem_cons_of_mem _ hx)
    simp only [List.foldl_cons]
    by_cases hc : t.all.contains d = true
    · rw [if_pos hc]
      exact ih hdeps2 t h1 h2
    · rw [if_neg hc]
      have hdnot : d ∉ t.all := fun hmem => hc ((contains_true_iff _ _).mpr hmem)
      have h1n : (t.all ++ [d]).Nodup := by
        rw [List.nodup_append]
        refine ⟨h1, List.nodup_singleton d, ?_⟩
        intro x hx hxm
        rw [List.mem_singleton.mp hxm] at hx
        exact hdnot hx
      have h2n : ∀ x ∈ t.all ++ [d], x ∈ univT := by
        intro x hx
        rcases List.mem_append.mp hx with hx | hx
        · exact h2 x hx
        · rw [List.mem_singleton.mp hx]; exact hdmem
      have hlen : (t.all ++ [d]).length ≤ univT.length := nodup_sub_length h1n h2n
      obtain ⟨hr1, hr2, hr3⟩ := ih hdeps2 ⟨t.all ++ [d], t.queue ++ [d]⟩ h1n h2n
      refine ⟨hr1, hr2, le_trans hr3 ?_⟩
      simp only [List.length_append, List.length_singleton] at *
      omega

theorem transStep_all_inv (univT : List String) (m : ProjectModel)
    (huniv : ∀ k : String, ∀ x ∈ depsOf m k, x ∈ univT)
    (s : TransSt) (hs : s.all.Nodup ∧ ∀ x ∈ s.all, x ∈ univT) :
    ((transStep (depsOf m) s).all.Nodup ∧
      ∀ x ∈ (transStep (depsOf m) s).all, x ∈ univT) ∧
    (transDone s = false →
      (transStep (depsOf m) s).queue.length +
          (univT.length - (transStep (depsOf m) s).all.length) <
        s.queue.length + (univT.length - s.all.length)) := by
  rcases hq : s.queue with _ | ⟨c, rest⟩
  · constructor
    · unfold transStep; rw [hq]; exact hs
    · intro hdone
      unfold transDone at hdone
      rw [hq] at hdone
      cases hdone
  · have hdeps : ∀ d ∈ sortedDependents (depsOf m c), d ∈ univT := fun d hd =>
      huniv c d ((sortedDependents_perm _).subset hd)
    have hfold := transFold_inv univT (sortedDependents (depsOf m c)) hdeps
      ⟨s.all, rest⟩ hs.1 hs.2
    unfold transStep
    rw [hq]
    dsimp only
    refine ⟨⟨hfold.1, hfold.2.1⟩, fun _ => ?_⟩
    have h3 := hfold.2.2
    have h4 : ({ all := s.all, queue := rest } : TransSt).queue.length = rest.length := rfl
    have h5 : ({ all := s.all, queue := rest } : TransSt).all.length = s.all.length := rfl
    rw [h4, h5] at h3
    simp only [List.length_cons]
    omega

/-- Fuel stability of the transitive-component BFS: any fuel of at least
`|direct| + depsTotal` computes the same result. -/
theorem findTransitiveComponents_stable (m : ProjectModel) (direct : List String)
    (hnd : direct.Nodup) {n₁ n₂ : Nat}
    (h₁ : direct.length + depsTotal m ≤ n₁) (h₂ : direct.length + depsTotal m ≤ n₂) :
    findTransitiveComponents n₁ m direct = findTransitiveComponents n₂ m direct := by
  unfold findTransitiveComponents
  have huniv : ∀ k : String, ∀ x ∈ depsOf m k,
      x ∈ direct ++ (m.dependentsByComponent.map (fun p => p.2)).flatten := by
    intro k x hx
    exact List.mem_append.mpr (Or.inr (mapGetD_mem_flatten _ _ hx))
  have hulen : (direct ++ (m.dependentsByComponent.map (fun p => p.2)).flatten).length =
      direct.length + depsTotal m := by
    rw [List.length_append, List.length_flatten, List.map_map]
    rfl
  congr 1
  apply iterStep_stable₂
    (I := fun s : TransSt => s.all.Nodup ∧ ∀ x ∈ s.all,
      x ∈ direct ++ (m.dependentsByComponent.map (fun p => p.2)).flatten)
    (μ := fun s : TransSt => s.queue.length +
      ((direct ++ (m.dependentsByComponent.map (fun p => p.2)).flatten).length - s.all.length))
  · intro s hsI hdone
    exact (transStep_all_inv _ m huniv s hsI).1
  · intro s hsI hdone
    exact (transStep_all_inv _ m huniv s hsI).2 hdone
  · exact ⟨hnd, fun x hx => List.mem_append.mpr (Or.inl hx)⟩
  · dsimp only
    rw [(sortStrings_perm direct).length_eq, hulen]
    omega
  · dsimp only
    rw [(sortStrings_perm direct).length_eq, hulen]
    omega

theorem transStep_nodup (dependents : String → List String) (s : TransSt)
    (h : s.all.Nodup) : (transStep dependents s).all.Nodup := by
  rcases hq : s.queue with _ | ⟨c, rest⟩
  · unfold transStep; rw [hq]; exact h
  · unfold transStep
    rw [hq]
    dsimp only
    have : ∀ (deps : List String) (t : TransSt), t.all.Nodup →
        (deps.foldl (fun s dependent =>
          if s.all.contains dependent then s
          else { all := s.all ++ [dependent], queue := s.queue ++ [dependent] }) t).all.Nodup := by
      intro deps
      induction deps with
      | nil => intro t ht; exact ht
      | cons d ds ih =>
        intro t ht
        simp only [List.foldl_cons]
        by_cases hc : t.all.contains d = true
        · rw [if_pos hc]; exact ih t ht
        · rw [if_neg hc]
          apply ih
          rw [List.nodup_append]
          refine ⟨ht, List.nodup_singleton d, ?_⟩
          intro x hx hxm
          rw [List.mem_singleton.mp hxm] at hx
          exact hc ((contains_true_iff _ _).mpr hx)
    exact this _ _ h

theorem findTransitiveComponents_nodup (fuel : Nat) (m : ProjectModel)
    (direct : List String) (hnd : direct.Nodup) :
    (findTransitiveComponents fuel m direct).Nodup := by
  unfold findTransitiveComponents
  exact @iterStep_inv TransSt (transStep (depsOf m)) transDone (fun s => s.all.Nodup)
    (fun s hs => transStep_nodup _ s hs) fuel _ hnd
theorem processEdges_inv (univF : List String) (file : String) (distance : Nat)
    (proj : Edge → String) :
    ∀ edges : List Edge, (∀ e ∈ edges, normalizePath (proj e) ∈ univF) →
      ∀ t : FilesSt, t.affectedFiles.Nodup → (∀ x ∈ t.affectedFiles, x ∈ univF) →
        ((processEdges file distance proj edges t).affectedFiles.Nodup ∧
          (∀ x ∈ (processEdges file distance proj edges t).affectedFiles, x ∈ univF) ∧
          (processEdges file distance proj edges t).queue.length +
            (univF.length - (processEdges file distance proj edges t).affectedFiles.length) ≤
            t.queue.length + (univF.length - t.affectedFiles.length)) := by
  intro edges
  induction edges with
  | nil => intro _ t h1 h2; exact ⟨h1, h2, le_refl _⟩
  | cons e es ih =>
    intro hmem t h1 h2
    have hemem : normalizePath (proj e) ∈ univF := hmem e (List.mem_cons_self _ _)
    have hmem2 : ∀ x ∈ es, normalizePath (proj x) ∈ univF := fun x hx =>
      hmem x (List.mem_cons_of_mem _ hx)
    unfold processEdges at ih ⊢
    simp only [List.foldl_cons]
    by_cases hc : t.affectedFiles.contains (normalizePath (proj e)) = true
    · rw [if_pos hc]
      exact ih hmem2 t h1 h2
    · rw [if_neg hc]
      have hdnot : normalizePath (proj e) ∉ t.affectedFiles := fun hmm =>
        hc ((contains_true_iff _ _).mpr hmm)
      have h1n : (t.affectedFiles ++ [normalizePath (proj e)]).Nodup := by
        rw [List.nodup_append]
        refine ⟨h1, List.nodup_singleton _, ?_⟩
        intro x hx hxm
        rw [List.mem_singleton.mp hxm] at hx
        exact hdnot hx
      have h2n : ∀ x ∈ t.affectedFiles ++ [normalizePath (proj e)], x ∈ univF := by
        intro x hx
        rcases List.mem_append.mp hx with hx | hx
        · exact h2 x hx
        · rw [List.mem_singleton.mp hx]; exact hemem
      have hlen : (t.affectedFiles ++ [normalizePath (proj e)]).length ≤ univF.length :=
        nodup_sub_length h1n h2n
      obtain ⟨hr1, hr2, hr3⟩ := ih hmem2
        (FilesSt.mk (t.affectedFiles ++ [normalizePath (proj e)])
          (t.fileImpactEdges ++ [FileImpactEdge.mk file (normalizePath (proj e)) e.type
            (e.confidence * max 0.5 (1 - (distance : ℚ) * 0.1)) e.detection_method
            (distance + 1)])
          (t.queue ++ [(normalizePath (proj e), distance + 1)]) t.visited) h1n h2n
      refine ⟨hr1, hr2, le_trans hr3 ?_⟩
      simp only [List.length_append, List.length_singleton] at *
      omega

theorem fileStep_inv (univF : List String) {merged : List Edge}
    (forward reverse : List (String × List Edge))
    (hfw : ∀ k : String, ∀ e ∈ mapGetD forward k [], e ∈ merged)
    (hrv : ∀ k : String, ∀ e ∈ mapGetD reverse k [], e ∈ merged)
    (htgt : ∀ e ∈ merged, normalizePath e.target ∈ univF)
    (hsrc : ∀ e ∈ merged, normalizePath e.source ∈ univF)
    (s : FilesSt) (hs : s.affectedFiles.Nodup ∧ ∀ x ∈ s.affectedFiles, x ∈ univF) :
    ((fileStep forward reverse s).affectedFiles.Nodup ∧
      ∀ x ∈ (fileStep forward reverse s).affectedFiles, x ∈ univF) ∧
    (filesDone s = false →
      (fileStep forward reverse s).queue.length +
          (univF.length - (fileStep forward reverse s).affectedFiles.length) <
        s.queue.length + (univF.length - s.affectedFiles.length)) := by
  rcases hq : s.queue with _ | ⟨fd, rest⟩
  · constructor
    · unfold fileStep; rw [hq]; exact hs
    · intro hdone
      unfold filesDone at hdone
      rw [hq] at hdone
      cases hdone
  · obtain ⟨file, distance⟩ := fd
    unfold fileStep
    rw [hq]
    dsimp only
    by_cases hv : s.visited.contains file = true
    · rw [if_pos hv]
      refine ⟨hs, fun _ => ?_⟩
      simp only [List.length_cons]
      omega
    · rw [if_neg hv]
      have hfw2 : ∀ e ∈ (mapGetD forward file []).insertionSort tgtLt,
          normalizePath ((fun e : Edge => e.target) e) ∈ univF := fun e he =>
        htgt e (hfw file e ((List.perm_insertionSort tgtLt _).subset he))
      have hrv2 : ∀ e ∈ (mapGetD reverse file []).insertionSort srcLt,
          normalizePath ((fun e : Edge => e.source) e) ∈ univF := fun e he =>
        hsrc e (hrv file e ((List.perm_insertionSort srcLt _).subset he))
      have hmid := processEdges_inv univF file distance (fun e => e.target)
        ((mapGetD forward file []).insertionSort tgtLt) hfw2
        (FilesSt.mk s.affectedFiles s.fileImpactEdges rest (s.visited ++ [file])) hs.1 hs.2
      obtain ⟨hm1, hm2, hm3⟩ := hmid
      have hfin := processEdges_inv univF file distance (fun e => e.source)
        ((mapGetD reverse file []).insertionSort srcLt) hrv2 _ hm1 hm2
      obtain ⟨hf1, hf2, hf3⟩ := hfin
      refine ⟨⟨hf1, hf2⟩, fun _ => ?_⟩
      have h4 : (FilesSt.mk s.affectedFiles s.fileImpactEdges rest
          (s.visited ++ [file])).queue.length = rest.length := rfl
      have h5 : (FilesSt.mk s.affectedFiles s.fileImpactEdges rest
          (s.visited ++ [file])).affectedFiles.length = s.affectedFiles.length := rfl
      rw [h4, h5] at hm3
      simp only [List.length_cons]
      omega

/-- Fuel stability of the file BFS. -/
theorem findAffectedFiles_stable (merged : List Edge) (changedPaths : List String)
    (hnd : changedPaths.Nodup) {n₁ n₂ : Nat}
    (h₁ : changedPaths.length + 2 * merged.length ≤ n₁)
    (h₂ : changedPaths.length + 2 * merged.length ≤ n₂) :
    findAffectedFiles n₁ merged changedPaths = findAffectedFiles n₂ merged changedPaths := by
  unfold findAffectedFiles
  dsimp only
  have hstep := fun s hs => fileStep_inv
    (changedPaths ++ merged.map (fun e => normalizePath e.source) ++
      merged.map (fun e => normalizePath e.target))
    (groupEdgesBy (fun e => normalizePath e.source) merged)
    (getReverseFileEdges merged)
    (groupEdgesBy_sub _ _)
    (groupEdgesBy_sub (fun e => normalizePath e.target) merged)
    (fun e he => List.mem_append.mpr (Or.inr (List.mem_map_of_mem _ he)))
    (fun e he => List.mem_append.mpr
      (Or.inl (List.mem_append.mpr (Or.inr (List.mem_map_of_mem _ he)))))
    s hs
  have hiter := @iterStep_stable₂ FilesSt
    (fileStep (groupEdgesBy (fun e => normalizePath e.source) merged)
      (getReverseFileEdges merged)) filesDone
    (fun s : FilesSt => s.affectedFiles.Nodup ∧ ∀ x ∈ s.affectedFiles,
      x ∈ changedPaths ++ merged.map (fun e => normalizePath e.source) ++
        merged.map (fun e => normalizePath e.target))
    (fun s : FilesSt => s.queue.length +
      ((changedPaths ++ merged.map (fun e => normalizePath e.source) ++
        merged.map (fun e => normalizePath e.target)).length - s.affectedFiles.length))
    (fun s hsI _ => (hstep s hsI).1)
    (fun s hsI hdone => (hstep s hsI).2 hdone)
    n₁ n₂
    { affectedFiles := changedPaths, fileImpactEdges := [],
      queue := changedPaths.map (fun p => (p, 0)), visited := [] }
    ⟨hnd, fun x hx =>
      List.mem_append.mpr (Or.inl (List.mem_append.mpr (Or.inl hx)))⟩
    (by
      dsimp only
      simp only [List.length_map, List.length_append]
      omega)
    (by
      dsimp only
      simp only [List.length_map, List.length_append]
      omega)
  rw [hiter]
/-- The queue ordering invariant of the distance BFS: distances are
non-decreasing along the queue and never jump by more than one. -/
def distR (p q : String × Nat) : Prop := p.2 ≤ q.2 ∧ q.2 ≤ p.2 + 1

theorem mapSet_length_of_none {α β : Type _} [BEq α] {m : List (α × β)} {k : α}
    (h : mapGet? m k = none) (v : β) : (mapSet m k v).length = m.length + 1 := by
  induction m with
  | nil => simp [mapSet]
  | cons p ps ih =>
    by_cases hp : p.1 == k
    · simp only [mapGet?, hp, if_true] at h
      cases h
    · simp only [mapGet?, hp, Bool.false_eq_true, if_false] at h
      simp only [mapSet, hp, Bool.false_eq_true, if_false, List.length_cons]
      rw [ih h]

/-- The invariant and measure of one `calculateDistances` step. -/
theorem distStep_inv (univD : List String) (KK : Nat) (m : ProjectModel)
    (huniv : ∀ k : String, ∀ x ∈ depsOf m k, x ∈ univD)
    (hK : ∀ k : String, (depsOf m k).length ≤ KK) (s : DistSt)
    (hs : s.queue.Pairwise distR ∧ (∀ p ∈ s.queue, p.1 ∈ univD) ∧
      ((s.distances.map (fun p => p.1)).Nodup) ∧ (∀ p ∈ s.distances, p.1 ∈ univD) ∧
      (∀ k v, mapGet? s.distances k = some v → ∀ p ∈ s.queue, v ≤ p.2)) :
    ((distStep (depsOf m) s).queue.Pairwise distR ∧
      (∀ p ∈ (distStep (depsOf m) s).queue, p.1 ∈ univD) ∧
      (((distStep (depsOf m) s).distances.map (fun p => p.1)).Nodup) ∧
      (∀ p ∈ (distStep (depsOf m) s).distances, p.1 ∈ univD) ∧
      (∀ k v, mapGet? (distStep (depsOf m) s).distances k = some v →
        ∀ p ∈ (distStep (depsOf m) s).queue, v ≤ p.2)) ∧
    (distDone s = false →
      (distStep (depsOf m) s).queue.length +
          (KK + 1) * (univD.length - (distStep (depsOf m) s).distances.length) <
        s.queue.length + (KK + 1) * (univD.length - s.distances.length)) := by
  obtain ⟨hpw, hqu, hnd, hde, hst⟩ := hs
  rcases hq : s.queue with _ | ⟨cd, rest⟩
  · constructor
    · have hss : distStep (depsOf m) s = s := by
        unfold distStep; rw [hq]
      rw [hss]
      exact ⟨hpw, hqu, hnd, hde, hst⟩
    · intro hdone
      unfold distDone at hdone
      rw [hq] at hdone
      cases hdone
  · obtain ⟨current, dist⟩ := cd
    rw [hq] at hpw hqu hst
    have hhead : ∀ y ∈ rest, dist ≤ y.2 ∧ y.2 ≤ dist + 1 := by
      intro y hy
      exact (List.pairwise_cons.mp hpw).1 y hy
    have htail : rest.Pairwise distR := (List.pairwise_cons.mp hpw).2
    have hcur : current ∈ univD := hqu (current, dist) (List.mem_cons_self _ _)
    unfold distStep
    rw [hq]
    dsimp only
    by_cases hskip : distSkip s.distances current dist = true
    · rw [if_pos hskip]
      dsimp only
      refine ⟨⟨htail, ?_, hnd, hde, ?_⟩, fun _ => ?_⟩
      · intro p hp; exact hqu p (List.mem_cons_of_mem _ hp)
      · intro k v hv p hp; exact hst k v hv p (List.mem_cons_of_mem _ hp)
      · simp only [List.length_cons]
        omega
    · rw [if_neg hskip]
      dsimp only
      have hnone : mapGet? s.distances current = none := by
        rcases hget : mapGet? s.distances current with _ | d
        · rfl
        · exfalso
          apply hskip
          unfold distSkip
          rw [hget]
          have : d ≤ dist := hst current d hget (current, dist) (List.mem_cons_self _ _)
          exact decide_eq_true this
      have hnewlen : ((sortedDependents (depsOf m current)).map
          (fun dep => (dep, dist + 1))).length ≤ KK := by
        rw [List.length_map, (sortedDependents_perm _).length_eq]
        exact hK current
      have hnewmem : ∀ p ∈ (sortedDependents (depsOf m current)).map
          (fun dep => (dep, dist + 1)), (p : String × Nat).1 ∈ univD ∧
            (p : String × Nat).2 = dist + 1 := by
        intro p hp
        rw [List.mem_map] at hp
        obtain ⟨dep, hdep, hpe⟩ := hp
        rw [← hpe]
        exact ⟨huniv current dep ((sortedDependents_perm _).subset hdep), rfl⟩
      have hdlen : (mapSet s.distances current dist).length = s.distances.length + 1 :=
        mapSet_length_of_none hnone dist
      have hdsub : ∀ p ∈ mapSet s.distances current dist, (p : String × Nat).1 ∈ univD := by
        intro p hp
        rcases mapSet_entry_mem hp with hp | hp
        · exact hde p hp
        · rw [hp]; exact hcur
      have hdnd : ((mapSet s.distances current dist).map (fun p => p.1)).Nodup :=
        mapSet_keys_nodup current dist hnd
      have hdbound : s.distances.length + 1 ≤ univD.length := by
        have := nodup_sub_length hdnd (by
          intro x hx
          rw [List.mem_map] at hx
          obtain ⟨p, hp, hpe⟩ := hx
          rw [← hpe]
          exact hdsub p hp)
        rw [List.length_map, hdlen] at this
        exact this
      refine ⟨⟨?_, ?_, hdnd, hdsub, ?_⟩, fun _ => ?_⟩
      · rw [List.pairwise_append]
        refine ⟨htail, ?_, ?_⟩
        · rw [List.pairwise_map]
          exact List.pairwise_of_forall fun a b => ⟨Nat.le_refl _, Nat.le_succ _⟩
        · intro a ha b hb
          obtain ⟨_, hb2⟩ := hnewmem b hb
          obtain ⟨ha1, ha2⟩ := hhead a ha
          exact ⟨by omega, by omega⟩
      · intro p hp
        rcases List.mem_append.mp hp with hp | hp
        · exact hqu p (List.mem_cons_of_mem _ hp)
        · exact (hnewmem p hp).1
      · intro k v hv p hp
        by_cases hk : (k == current) = true
        · have hkc : k = current := eq_of_beq hk
          rw [hkc, mapGet?_mapSet_self] at hv
          obtain rfl := Option.some.inj hv
          rcases List.mem_append.mp hp with hp | hp
          · exact (hhead p hp).1
          · rw [(hnewmem p hp).2]; omega
        · have hk2 : (k == current) = false := by simpa using hk
          rw [mapGet?_mapSet_ne _ _ hk2] at hv
          rcases List.mem_append.mp hp with hp | hp
          · exact hst k v hv p (List.mem_cons_of_mem _ hp)
          · have hvd : v ≤ dist := hst k v hv (current, dist) (List.mem_cons_self _ _)
            rw [(hnewmem p hp).2]
            omega
      · rw [List.length_append, hdlen, List.length_cons]
        obtain ⟨b, hb⟩ : ∃ b, univD.length - s.distances.length = b + 1 :=
          ⟨univD.length - s.distances.length - 1, by omega⟩
        have hb2 : univD.length - (s.distances.length + 1) = b := by omega
        rw [hb, hb2]
        have hmul : (KK + 1) * (b + 1) = (KK + 1) * b + (KK + 1) := by ring
        rw [hmul]
        set X := (KK + 1) * b with hX
        omega

/-- Fuel stability of the distance BFS. -/
theorem calculateDistances_stable (m : ProjectModel) (direct : List String) {n₁ n₂ : Nat}
    (h₁ : direct.length + (depsTotal m + 1) * (direct.length + depsTotal m) ≤ n₁)
    (h₂ : direct.length + (depsTotal m + 1) * (direct.length + depsTotal m) ≤ n₂) :
    calculateDistances n₁ m direct = calculateDistances n₂ m direct := by
  unfold calculateDistances
  have huniv : ∀ k : String, ∀ x ∈ depsOf m k,
      x ∈ direct ++ (m.dependentsByComponent.map (fun p => p.2)).flatten := by
    intro k x hx
    exact List.mem_append.mpr (Or.inr (mapGetD_mem_flatten _ _ hx))
  have hulen : (direct ++ (m.dependentsByComponent.map (fun p => p.2)).flatten).length =
      direct.length + depsTotal m := by
    rw [List.length_append, List.length_flatten, List.map_map]
    rfl
  have hstep := fun s hs => distStep_inv
    (direct ++ (m.dependentsByComponent.map (fun p => p.2)).flatten) (depsTotal m) m
    huniv (fun k => depsOf_length m k) s hs
  congr 1
  apply iterStep_stable₂
    (I := fun s : DistSt => s.queue.Pairwise distR ∧
      (∀ p ∈ s.queue, p.1 ∈ direct ++ (m.dependentsByComponent.map (fun p => p.2)).flatten) ∧
      ((s.distances.map (fun p => p.1)).Nodup) ∧
      (∀ p ∈ s.distances,
        p.1 ∈ direct ++ (m.dependentsByComponent.map (fun p => p.2)).flatten) ∧
      (∀ k v, mapGet? s.distances k = some v → ∀ p ∈ s.queue, v ≤ p.2))
    (μ := fun s : DistSt => s.queue.length + (depsTotal m + 1) *
      ((direct ++ (m.dependentsByComponent.map (fun p => p.2)).flatten).length -
        s.distances.length))
  · intro s hsI _
    exact (hstep s hsI).1
  · intro s hsI hdone
    exact (hstep s hsI).2 hdone
  · refine ⟨?_, ?_, by simp, by simp, ?_⟩
    · rw [List.pairwise_map]
      exact List.pairwise_of_forall fun a b => ⟨Nat.le_refl _, Nat.le_succ _⟩
    · intro p hp
      rw [List.mem_map] at hp
      obtain ⟨c, hc, hpe⟩ := hp
      rw [← hpe]
      exact List.mem_append.mpr (Or.inl ((sortStrings_perm direct).subset hc))
    · intro k v hv
      cases hv
  · dsimp only
    rw [List.length_map, (sortStrings_perm direct).length_eq, hulen, List.length_nil,
      Nat.sub_zero]
    exact h₁
  · dsimp only
    rw [List.length_map, (sortStrings_perm direct).length_eq, hulen, List.length_nil,
      Nat.sub_zero]
    exact h₂
def c6matcher : String → String → Bool :=
  fun path pattern => path == "src/x" && pattern == "src/*"

/-- A self-loop: component `recursive` depends on itself. -/
def c6model : ProjectModel :=
  ⟨[⟨"recursive", ["src/*"], ["recursive"]⟩], [], [], [("recursive", ["recursive"])]⟩

set_option maxHeartbeats 1000000 in
theorem c6_affected :
    (analyze c6matcher c6model [⟨"src/x"⟩]).affectedComponents = ["recursive"] := by
  decide

set_option maxHeartbeats 1000000 in
/-- C6: `analyze()` terminates on every project model — the default fuel
is provably sufficient for all three internal BFS loops, so any extra
fuel computes the identical report, exactly as the fuel-free JS loops do
— every affected component appears exactly once in `affectedComponents`,
and the self-loop scenario (`recursive` depending on itself, one matching
changed file) yields `affectedComponents = ["recursive"]` of length 1. -/
theorem analyze_terminates :
    (∀ (matcher : String → String → Bool) (m : ProjectModel) (changes : List ChangedFile)
      (extra : Nat),
      analyzeFuel (defaultFuel m changes + extra) matcher m changes =
        analyze matcher m changes) ∧
    (∀ (matcher : String → String → Bool) (m : ProjectModel) (changes : List ChangedFile),
      (analyze matcher m changes).affectedComponents.Nodup) ∧
    ((analyze c6matcher c6model [⟨"src/x"⟩]).affectedComponents = ["recursive"] ∧
      (analyze c6matcher c6model [⟨"src/x"⟩]).affectedComponents.length = 1) := by
  have hnodup : ∀ (matcher : String → String → Bool) (m : ProjectModel)
      (changes : List ChangedFile),
      (analyze matcher m changes).affectedComponents.Nodup := by
    intro matcher m changes
    simp only [analyze, analyzeFuel]
    exact (sortStrings_perm _).nodup_iff.mpr
      (findTransitiveComponents_nodup _ _ _ (findDirectComponents_nodup _ _ _))
  refine ⟨?_, hnodup, c6_affected, by rw [c6_affected]; rfl⟩
  intro matcher m changes extra
  have hdf : defaultFuel m changes =
      (2 * m.components.length + depsTotal m + 2 * changes.length +
        2 * (m.declaredEdges.length + m.discoveredEdges.length) + 1) *
      (2 * m.components.length + depsTotal m + 2 * changes.length +
        2 * (m.declaredEdges.length + m.discoveredEdges.length) + 1) +
      (2 * m.components.length + depsTotal m + 2 * changes.length +
        2 * (m.declaredEdges.length + m.discoveredEdges.length) + 1) := rfl
  have hdirnd := findDirectComponents_nodup matcher m.components changes
  have hdirlen : (findDirectComponents matcher m.components changes).length ≤
      m.components.length := by
    have := nodup_sub_length hdirnd (findDirectComponents_sub matcher m.components changes)
    rw [List.length_map] at this
    exact this
  have hbase : 2 * m.components.length + depsTotal m + 2 * changes.length +
      2 * (m.declaredEdges.length + m.discoveredEdges.length) + 1 ≤ defaultFuel m changes := by
    rw [hdf]
    exact Nat.le_add_left _ _
  have htransB : (findDirectComponents matcher m.components changes).length + depsTotal m ≤
      defaultFuel m changes := by
    refine le_trans ?_ hbase
    omega
  have hdistB : (findDirectComponents matcher m.components changes).length +
      (depsTotal m + 1) *
        ((findDirectComponents matcher m.components changes).length + depsTotal m) ≤
      defaultFuel m changes := by
    rw [hdf]
    have h1 : depsTotal m + 1 ≤ 2 * m.components.length + depsTotal m + 2 * changes.length +
        2 * (m.declaredEdges.length + m.discoveredEdges.length) + 1 := by omega
    have h2 : (findDirectComponents matcher m.components changes).length + depsTotal m ≤
        2 * m.components.length + depsTotal m + 2 * changes.length +
        2 * (m.declaredEdges.length + m.discoveredEdges.length) + 1 := by omega
    have h3 := Nat.mul_le_mul h1 h2
    have h4 : (findDirectComponents matcher m.components changes).length ≤
        2 * m.components.length + depsTotal m + 2 * changes.length +
        2 * (m.declaredEdges.length + m.discoveredEdges.length) + 1 := by omega
    rw [Nat.add_comm ((2 * m.components.length + depsTotal m + 2 * changes.length +
        2 * (m.declaredEdges.length + m.discoveredEdges.length) + 1) *
      (2 * m.components.length + depsTotal m + 2 * changes.length +
        2 * (m.declaredEdges.length + m.discoveredEdges.length) + 1))]
    exact Nat.add_le_add h4 h3
  have hcpnd := changedPaths_nodup changes
  have hcplen : (changes.foldl (fun s c => setAdd s (normalizePath c.path)) []).length ≤
      changes.length := by
    have := foldl_setAdd_length changes []
    simp only [List.length_nil] at this
    omega
  have hmlen := getMergedEdges_length m
  have hfilesB : (changes.foldl (fun s c => setAdd s (normalizePath c.path)) []).length +
      2 * (getMergedEdges m).length ≤ defaultFuel m changes := by
    refine le_trans ?_ hbase
    omega
  have htrans := findTransitiveComponents_stable m
    (findDirectComponents matcher m.components changes) hdirnd
    (le_trans htransB (Nat.le_add_right _ extra)) htransB
  have hdist := calculateDistances_stable m
    (findDirectComponents matcher m.components changes)
    (le_trans hdistB (Nat.le_add_right _ extra)) hdistB
  have hfiles := findAffectedFiles_stable (getMergedEdges m)
    (changes.foldl (fun s c => setAdd s (normalizePath c.path)) []) hcpnd
    (le_trans hfilesB (Nat.le_add_right _ extra)) hfilesB
  show analyzeFuel (defaultFuel m changes + extra) matcher m changes =
    analyzeFuel (defaultFuel m changes) matcher m changes
  simp only [analyzeFuel, buildImpactEdges]
  rw [htrans, hdist, hfiles]
/-! ### C1: determinism of `analyze()` under insertion-order changes -/

/-- `m₂` contains the same data as `m₁` with the `discoveredEdges` list
and the per-component `dependentsByComponent` lists in other insertion
orders. -/
def ModelReordered (m₁ m₂ : ProjectModel) : Prop :=
  m₁.components = m₂.components ∧
  m₁.declaredEdges = m₂.declaredEdges ∧
  m₁.discoveredEdges.Perm m₂.discoveredEdges ∧
  List.Forall₂ (fun p q : String × List String => p.1 = q.1 ∧ p.2.Perm q.2)
    m₁.dependentsByComponent m₂.dependentsByComponent

/-- No two distinct discovered edges share a merge key with equal
confidence (the strict-improvement merge breaks such ties by insertion
order). -/
def NoDiscoveredTies (m : ProjectModel) : Prop :=
  ∀ e₁ ∈ m.discoveredEdges, ∀ e₂ ∈ m.discoveredEdges,
    edgeKey e₁ = edgeKey e₂ → e₁.confidence = e₂.confidence → e₁ = e₂

/-- The per-key effect of one discovered edge on the merge map. -/
def mergeStep (v : Option Edge) (e : Edge) : Option Edge :=
  match v with
  | none => some e
  | some ex => if ex.confidence < e.confidence then some e else some ex

/-- The per-key result of folding a list of discovered edges. -/
def mergeVal (v₀ : Option Edge) (l : List Edge) : Option Edge := l.foldl mergeStep v₀

theorem mergeVal_cons (v₀ : Option Edge) (e : Edge) (l : List Edge) :
    mergeVal v₀ (e :: l) = mergeVal (mergeStep v₀ e) l := rfl

/-- The merge map lookup after the discovered-edge loop is the
`mergeVal` of the edges carrying that key. -/
theorem foldl_addDiscovered_lookup (k : String) :
    ∀ (l : List Edge) (A : List (String × Edge)),
      mapGet? (l.foldl addDiscovered A) k =
        mergeVal (mapGet? A k) (l.filter (fun e => edgeKey e == k)) := by
  intro l
  induction l with
  | nil => intro A; rfl
  | cons e es ih =>
    intro A
    simp only [List.foldl_cons, List.filter_cons]
    by_cases hk : (edgeKey e == k) = true
    · rw [if_pos hk, mergeVal_cons, ih]
      have hke : edgeKey e = k := eq_of_beq hk
      congr 1
      unfold addDiscovered mergeStep
      rcases hget : mapGet? A (edgeKey e) with _ | ex
      · rw [hke] at hget
        rw [hget]
        dsimp only
        rw [← hke, mapGet?_mapSet_self]
      · rw [hke] at hget
        rw [hget]
        dsimp only
        by_cases himp : ex.confidence < e.confidence
        · rw [if_pos himp, if_pos himp, ← hke, mapGet?_mapSet_self]
        · rw [if_neg himp, if_neg himp, hget]
    · rw [if_neg hk, ih]
      have hk2 : (edgeKey e == k) = false := by simpa using hk
      have hke : (k == edgeKey e) = false := by
        rw [beq_eq_false_iff_ne] at hk2 ⊢
        exact fun hh => hk2 hh.symm
      congr 1
      unfold addDiscovered
      rcases hget : mapGet? A (edgeKey e) with _ | ex
      · rw [mapGet?_mapSet_ne _ _ hke]
      · dsimp only
        by_cases himp : ex.confidence < e.confidence
        · rw [if_pos himp, mapGet?_mapSet_ne _ _ hke]
        · rw [if_neg himp]

/-- `mergeStep` commutes for edges that cannot tie on confidence. -/
theorem mergeStep_comm {x y : Edge} (hxy : x.confidence = y.confidence → x = y)
    (v : Option Edge) : mergeStep (mergeStep v y) x = mergeStep (mergeStep v x) y := by
  have hpick : ∀ a b : Edge, (a.confidence = b.confidence → a = b) →
      (if b.confidence < a.confidence then some a else some b) =
        (if a.confidence < b.confidence then some b else some a) := by
    intro a b hab
    rcases lt_trichotomy a.confidence b.confidence with hlt | heq | hgt
    · rw [if_neg (lt_asymm hlt), if_pos hlt]
    · rw [if_neg (by rw [heq]; exact lt_irrefl _), if_neg (by rw [heq]; exact lt_irrefl _),
        hab heq]
    · rw [if_pos hgt, if_neg (lt_asymm hgt)]
  rcases v with _ | ex
  · exact hpick x y hxy
  · show mergeStep (if ex.confidence < y.confidence then some y else some ex) x =
      mergeStep (if ex.confidence < x.confidence then some x else some ex) y
    by_cases h1 : ex.confidence < y.confidence
    · by_cases h2 : ex.confidence < x.confidence
      · rw [if_pos h1, if_pos h2]
        exact hpick x y hxy
      · rw [if_pos h1, if_neg h2]
        have hxy2 : x.confidence < y.confidence := lt_of_le_of_lt (not_lt.mp h2) h1
        show (if y.confidence < x.confidence then some x else some y) =
          (if ex.confidence < y.confidence then some y else some ex)
        rw [if_neg (lt_asymm hxy2), if_pos h1]
    · by_cases h2 : ex.confidence < x.confidence
      · rw [if_neg h1, if_pos h2]
        have hyx : y.confidence < x.confidence := lt_of_le_of_lt (not_lt.mp h1) h2
        show (if ex.confidence < x.confidence then some x else some ex) =
          (if x.confidence < y.confidence then some y else some x)
        rw [if_pos h2, if_neg (lt_asymm hyx)]
      · rw [if_neg h1, if_neg h2]
        show (if ex.confidence < x.confidence then some x else some ex) =
          (if ex.confidence < y.confidence then some y else some ex)
        rw [if_neg h1, if_neg h2]

/-- `mergeVal` is invariant under permutation of a tie-free edge list. -/
theorem mergeVal_perm {l₁ l₂ : List Edge} (h : l₁.Perm l₂)
    (hdist : ∀ a ∈ l₁, ∀ b ∈ l₁, a.confidence = b.confidence → a = b) :
    ∀ v₀ : Option Edge, mergeVal v₀ l₁ = mergeVal v₀ l₂ := by
  induction h with
  | nil => intro v₀; rfl
  | cons x hh ih =>
    intro v₀
    rw [mergeVal_cons, mergeVal_cons]
    exact ih (fun a ha b hb => hdist a (List.mem_cons_of_mem _ ha) b
      (List.mem_cons_of_mem _ hb)) _
  | swap x y l =>
    intro v₀
    rw [mergeVal_cons, mergeVal_cons, mergeVal_cons, mergeVal_cons]
    have hxy : x.confidence = y.confidence → x = y := fun hc =>
      hdist x (List.mem_cons_of_mem _ (List.mem_cons_self _ _)) y
        (List.mem_cons_self _ _) hc
    rw [mergeStep_comm hxy v₀]
  | trans h₁ h₂ ih₁ ih₂ =>
    intro v₀
    rw [ih₁ hdist v₀]
    exact ih₂ (fun a ha b hb => hdist a (h₁.mem_iff.mpr ha) b (h₁.mem_iff.mpr hb)) v₀
theorem strLt_total (a b : String) : strLt a b = true ∨ strLt b a = true ∨ a = b := by
  unfold strLt
  by_cases h1 : lexLt a.data b.data = true
  · exact Or.inl h1
  · by_cases h2 : lexLt b.data a.data = true
    · exact Or.inr (Or.inl h2)
    · exact Or.inr (Or.inr (String.ext (lexLt_connex (by simpa using h1) (by simpa using h2))))

theorem strLt_asymm {a b : String} (h : strLt a b = true) : strLt b a = false :=
  lexLt_asymm h

theorem strLt_irrefl (a : String) : strLt a a = false := lexLt_irrefl a.data

theorem strLt_trans {a b c : String} (h1 : strLt a b = true) (h2 : strLt b c = true) :
    strLt a c = true := lexLt_trans h1 h2

instance : IsTotal Edge edgeLe :=
  ⟨fun a b => by
    unfold edgeLe
    rcases strLt_total a.source b.source with h | h | h
    · exact Or.inl (Or.inl h)
    · exact Or.inr (Or.inl h)
    · rcases strLt_total a.target b.target with h2 | h2 | h2
      · exact Or.inl (Or.inr ⟨h, Or.inl h2⟩)
      · exact Or.inr (Or.inr ⟨h.symm, Or.inl h2⟩)
      · rcases strLt_total (edgeTypeKey a.type) (edgeTypeKey b.type) with h3 | h3 | h3
        · exact Or.inl (Or.inr ⟨h, Or.inr ⟨h2, Or.inl h3⟩⟩)
        · exact Or.inr (Or.inr ⟨h.symm, Or.inr ⟨h2.symm, Or.inl h3⟩⟩)
        · exact Or.inl (Or.inr ⟨h, Or.inr ⟨h2, Or.inr h3⟩⟩)⟩

theorem strOrd_trans {a b c : String}
    (h1 : strLt a b = true ∨ a = b) (h2 : strLt b c = true ∨ b = c) :
    strLt a c = true ∨ a = c := by
  rcases h1 with h1 | h1
  · rcases h2 with h2 | h2
    · exact Or.inl (strLt_trans h1 h2)
    · rw [← h2]; exact Or.inl h1
  · rw [h1]; exact h2

theorem strOrd_antisymm {a b : String}
    (h1 : strLt a b = true ∨ a = b) (h2 : strLt b a = true ∨ b = a) : a = b := by
  rcases h1 with h1 | h1
  · rcases h2 with h2 | h2
    · rw [strLt_asymm h1] at h2; cases h2
    · exact h2.symm
  · exact h1

theorem lex_trans {a₁ b₁ c₁ : String} {A B C : Prop}
    (h1 : strLt a₁ b₁ = true ∨ (a₁ = b₁ ∧ A))
    (h2 : strLt b₁ c₁ = true ∨ (b₁ = c₁ ∧ B))
    (hABC : A → B → C) :
    strLt a₁ c₁ = true ∨ (a₁ = c₁ ∧ C) := by
  rcases h1 with h1 | ⟨he1, hA⟩
  · rcases h2 with h2 | ⟨he2, hB⟩
    · exact Or.inl (strLt_trans h1 h2)
    · rw [he2] at h1
      exact Or.inl h1
  · rcases h2 with h2 | ⟨he2, hB⟩
    · rw [he1]
      exact Or.inl h2
    · exact Or.inr ⟨he1.trans he2, hABC hA hB⟩

theorem lex_antisymm {a₁ b₁ : String} {A B : Prop}
    (h1 : strLt a₁ b₁ = true ∨ (a₁ = b₁ ∧ A))
    (h2 : strLt b₁ a₁ = true ∨ (b₁ = a₁ ∧ B)) :
    a₁ = b₁ ∧ (A ∧ B) := by
  rcases h1 with h1 | ⟨he1, hA⟩
  · rcases h2 with h2 | ⟨he2, hB⟩
    · rw [strLt_asymm h1] at h2
      cases h2
    · rw [he2] at h1
      rw [strLt_irrefl] at h1
      cases h1
  · rcases h2 with h2 | ⟨he2, hB⟩
    · rw [he1] at h2
      rw [strLt_irrefl] at h2
      cases h2
    · exact ⟨he1, hA, hB⟩

instance : IsTrans Edge edgeLe :=
  ⟨fun a b c hab hbc => by
    unfold edgeLe at *
    refine lex_trans hab hbc (fun hA hB => ?_)
    exact lex_trans hA hB (fun hA2 hB2 => strOrd_trans hA2 hB2)⟩

/-- Mutually `edgeLe` edges agree on the raw `(source, target, type)`
triple. -/
theorem edgeLe_antisymm_fields {a b : Edge} (h1 : edgeLe a b) (h2 : edgeLe b a) :
    a.source = b.source ∧ a.target = b.target ∧ edgeTypeKey a.type = edgeTypeKey b.type := by
  unfold edgeLe at h1 h2
  obtain ⟨hs, hA, hB⟩ := lex_antisymm h1 h2
  obtain ⟨ht, hA2, hB2⟩ := lex_antisymm hA hB
  exact ⟨hs, ht, strOrd_antisymm hA2 hB2⟩

/-- The merged edge map of a model. -/
def mergedMap (m : ProjectModel) : List (String × Edge) :=
  m.discoveredEdges.foldl addDiscovered (m.declaredEdges.foldl addDeclared [])

theorem mergedMap_keys_nodup (m : ProjectModel) :
    ((mergedMap m).map (fun p => p.1)).Nodup := by
  unfold mergedMap
  apply foldl_inv (P := fun mm : List (String × Edge) => (mm.map (fun p => p.1)).Nodup)
  · intro mm e _ h
    unfold addDiscovered
    rcases mapGet? mm (edgeKey e) with _ | ex
    · exact mapSet_keys_nodup _ _ h
    · dsimp only
      by_cases himp : ex.confidence < e.confidence
      · rw [if_pos himp]
        exact mapSet_keys_nodup _ _ h
      · rw [if_neg himp]
        exact h
  · apply foldl_inv (P := fun mm : List (String × Edge) => (mm.map (fun p => p.1)).Nodup)
    · intro mm e _ h
      exact mapSet_keys_nodup _ _ h
    · simp

theorem mergedMap_keyinv (m : ProjectModel) :
    ∀ p ∈ mergedMap m, (p : String × Edge).1 = edgeKey p.2 := by
  unfold mergedMap
  apply foldl_inv (P := fun mm : List (String × Edge) =>
    ∀ p ∈ mm, (p : String × Edge).1 = edgeKey p.2)
  · intro mm e _ h p hp
    unfold addDiscovered at hp
    rcases hget : mapGet? mm (edgeKey e) with _ | ex
    · rw [hget] at hp
      rcases mapSet_entry_mem hp with hh | hh
      · exact h p hh
      · rw [hh]
    · rw [hget] at hp
      dsimp only at hp
      by_cases himp : ex.confidence < e.confidence
      · rw [if_pos himp] at hp
        rcases mapSet_entry_mem hp with hh | hh
        · exact h p hh
        · rw [hh]
      · rw [if_neg himp] at hp
        exact h p hp
  · apply foldl_inv (P := fun mm : List (String × Edge) =>
      ∀ p ∈ mm, (p : String × Edge).1 = edgeKey p.2)
    · intro mm e _ h p hp
      unfold addDeclared at hp
      rcases mapSet_entry_mem hp with hh | hh
      · exact h p hh
      · rw [hh]
    · intro p hp
      cases hp

theorem mapGet?_of_mem_nodup {α β : Type _} [BEq α] [LawfulBEq α] {m : List (α × β)}
    (hnd : (m.map (fun p => p.1)).Nodup) {p : α × β} (hp : p ∈ m) :
    mapGet? m p.1 = some p.2 := by
  induction m with
  | nil => cases hp
  | cons q qs ih =>
    simp only [List.map_cons, List.nodup_cons] at hnd
    rcases List.mem_cons.mp hp with rfl | hp2
    · simp [mapGet?]
    · have hne : (q.1 == p.1) = false := by
        rw [beq_eq_false_iff_ne]
        intro he
        exact hnd.1 (he ▸ List.mem_map_of_mem _ hp2)
      simp only [mapGet?, hne, Bool.false_eq_true, if_false]
      exact ih hnd.2 hp2

theorem entries_perm_of_lookup_eq {α β : Type _} [BEq α] [LawfulBEq α] [DecidableEq α]
    [DecidableEq β] {m₁ m₂ : List (α × β)}
    (h₁ : (m₁.map (fun p => p.1)).Nodup) (h₂ : (m₂.map (fun p => p.1)).Nodup)
    (hlook : ∀ k, mapGet? m₁ k = mapGet? m₂ k) : m₁.Perm m₂ := by
  have hmem : ∀ {ma mb : List (α × β)}, (mb.map (fun p => p.1)).Nodup →
      (∀ k, mapGet? ma k = mapGet? mb k) → ∀ p ∈ mb, p ∈ ma := by
    intro ma mb hb hab p hp
    have hg : mapGet? ma p.1 = some p.2 := by
      rw [hab]
      exact mapGet?_of_mem_nodup hb hp
    obtain ⟨q, hq, hq1, hq2⟩ := mapGet?_some_entry hg
    have : q = p := Prod.ext hq1 hq2
    rw [← this]
    exact hq
  exact (List.perm_ext_iff_of_nodup (h₁.of_map _) (h₂.of_map _)).mpr
    (fun p => ⟨fun hp => hmem h₁ (fun k => (hlook k).symm) p hp,
      fun hp => hmem h₂ hlook p hp⟩)

theorem pairwise_key_ne_inj {α β : Type _} {f : α → β} :
    ∀ {l : List α}, l.Pairwise (fun x y => f x ≠ f y) →
      ∀ {a b : α}, a ∈ l → b ∈ l → f a = f b → a = b := by
  intro l
  induction l with
  | nil => intro _ a b ha; cases ha
  | cons x xs ih =>
    intro hpw a b ha hb hf
    have hhead := (List.pairwise_cons.mp hpw).1
    have htail := (List.pairwise_cons.mp hpw).2
    rcases List.mem_cons.mp ha with rfl | ha2
    · rcases List.mem_cons.mp hb with rfl | hb2
      · rfl
      · exact absurd hf (hhead b hb2)
    · rcases List.mem_cons.mp hb with rfl | hb2
      · exact absurd hf.symm (hhead a ha2)
      · exact ih htail ha2 hb2 hf

/-- `eq_of_perm_of_sorted` with antisymmetry required only on the listed
elements. -/
theorem eq_of_perm_of_sorted_anti {α : Type _} {r : α → α → Prop} :
    ∀ {l₁ l₂ : List α}, l₁.Perm l₂ →
      (∀ a ∈ l₁, ∀ b ∈ l₁, r a b → r b a → a = b) →
      l₁.Sorted r → l₂.Sorted r → l₁ = l₂ := by
  intro l₁
  induction l₁ with
  | nil => intro l₂ hperm _ _ _; exact hperm.nil_eq
  | cons a t₁ ih =>
    intro l₂ hperm hanti hs₁ hs₂
    rcases l₂ with _ | ⟨b, t₂⟩
    · exact absurd hperm.symm.nil_eq (by simp)
    · by_cases hab : a = b
      · subst hab
        rw [ih hperm.cons_inv
          (fun x hx y hy hr1 hr2 =>
            hanti x (List.mem_cons_of_mem _ hx) y (List.mem_cons_of_mem _ hy) hr1 hr2)
          hs₁.of_cons hs₂.of_cons]
      · exfalso
        have hain : a ∈ b :: t₂ := hperm.subset (List.mem_cons_self _ _)
        have hbin : b ∈ a :: t₁ := hperm.symm.subset (List.mem_cons_self _ _)
        have ha2 : a ∈ t₂ := by
          rcases List.mem_cons.mp hain with h | h
          · exact absurd h hab
          · exact h
        have hb2 : b ∈ t₁ := by
          rcases List.mem_cons.mp hbin with h | h
          · exact absurd h.symm hab
          · exact h
        have hr1 : r a b := List.rel_of_sorted_cons hs₁ b hb2
        have hr2 : r b a := List.rel_of_sorted_cons hs₂ a ha2
        exact hab (hanti a (List.mem_cons_self _ _) b (List.mem_cons_of_mem _ hb2) hr1 hr2)

theorem values_pairwise_key {M : List (String × Edge)}
    (hnd : (M.map (fun p => p.1)).Nodup)
    (hkey : ∀ p ∈ M, (p : String × Edge).1 = edgeKey p.2) :
    (M.map (fun p => p.2)).Pairwise (fun x y => edgeKey x ≠ edgeKey y) := by
  induction M with
  | nil => exact List.Pairwise.nil
  | cons p ps ih =>
    simp only [List.map_cons, List.nodup_cons] at hnd
    rw [List.map_cons, List.pairwise_cons]
    constructor
    · intro y hy heq
      rw [List.mem_map] at hy
      obtain ⟨q, hq, hqe⟩ := hy
      apply hnd.1
      have h1 : p.1 = edgeKey p.2 := hkey p (List.mem_cons_self _ _)
      have h2 : q.1 = edgeKey q.2 := hkey q (List.mem_cons_of_mem _ hq)
      have : p.1 = q.1 := by rw [h1, h2, hqe]; exact heq
      rw [this]
      exact List.mem_map_of_mem _ hq
    · exact ih hnd.2 (fun q hq => hkey q (List.mem_cons_of_mem _ hq))

/-- The heart of C1: the merged, sorted edge list is invariant under
reordering of the discovered edges, provided no two distinct discovered
edges tie on key and confidence. -/
theorem getMergedEdges_reordered {m₁ m₂ : ProjectModel} (hre : ModelReordered m₁ m₂)
    (hties : NoDiscoveredTies m₁) : getMergedEdges m₁ = getMergedEdges m₂ := by
  obtain ⟨hcomp, hdecl, hdisc, hdeps⟩ := hre
  have hlook : ∀ k, mapGet? (mergedMap m₁) k = mapGet? (mergedMap m₂) k := by
    intro k
    unfold mergedMap
    rw [foldl_addDiscovered_lookup, foldl_addDiscovered_lookup, ← hdecl]
    apply mergeVal_perm (hdisc.filter _)
    intro a ha b hb hconf
    have ha2 := List.mem_filter.mp ha
    have hb2 := List.mem_filter.mp hb
    exact hties a ha2.1 b hb2.1
      (by rw [eq_of_beq ha2.2, eq_of_beq hb2.2]) hconf
  have hperm : (mergedMap m₁).Perm (mergedMap m₂) :=
    entries_perm_of_lookup_eq (mergedMap_keys_nodup m₁) (mergedMap_keys_nodup m₂) hlook
  have hvals : ((mergedMap m₁).map (fun p => p.2)).Perm ((mergedMap m₂).map (fun p => p.2)) :=
    hperm.map _
  show ((mergedMap m₁).map (fun p => p.2)).insertionSort edgeLe =
    ((mergedMap m₂).map (fun p => p.2)).insertionSort edgeLe
  apply eq_of_perm_of_sorted_anti
    (((List.perm_insertionSort edgeLe _).trans hvals).trans
      (List.perm_insertionSort edgeLe _).symm)
  · intro a ha b hb hr1 hr2
    have ha2 : a ∈ (mergedMap m₁).map (fun p => p.2) :=
      (List.perm_insertionSort edgeLe _).subset ha
    have hb2 : b ∈ (mergedMap m₁).map (fun p => p.2) :=
      (List.perm_insertionSort edgeLe _).subset hb
    obtain ⟨hsrc, htgt, hty⟩ := edgeLe_antisymm_fields hr1 hr2
    have hkeq : edgeKey a = edgeKey b := by
      unfold edgeKey
      rw [hsrc, htgt, hty]
    exact pairwise_key_ne_inj
      (values_pairwise_key (mergedMap_keys_nodup m₁) (mergedMap_keyinv m₁)) ha2 hb2 hkeq
  · exact List.sorted_insertionSort edgeLe _
  · exact List.sorted_insertionSort edgeLe _
theorem mapGetD_forall₂_perm :
    ∀ {d₁ d₂ : List (String × List String)},
      List.Forall₂ (fun p q : String × List String => p.1 = q.1 ∧ p.2.Perm q.2) d₁ d₂ →
      ∀ k : String, (mapGetD d₁ k []).Perm (mapGetD d₂ k []) := by
  intro d₁ d₂ h
  induction h with
  | nil => intro k; exact List.Perm.refl _
  | @cons a b l₁ l₂ hab hrest ih =>
    intro k
    unfold mapGetD
    simp only [mapGet?]
    rw [← hab.1]
    by_cases hk : (a.1 == k) = true
    · rw [if_pos hk, if_pos hk]
      simpa using hab.2
    · rw [if_neg hk, if_neg hk]
      exact ih k

theorem sortedDependents_congr {l₁ l₂ : List String} (h : l₁.Perm l₂) :
    sortedDependents l₁ = sortedDependents l₂ := by
  unfold sortedDependents
  have hlen := h.length_eq
  by_cases h1 : l₁.length ≤ 1
  · rw [if_pos h1, if_pos (by omega)]
    rcases l₁ with _ | ⟨a, rest⟩
    · rw [h.symm.eq_nil]
    · rcases rest with _ | ⟨c, r2⟩
      · exact List.singleton_perm.mp h
      · simp at h1
  · rw [if_neg h1, if_neg (by omega)]
    exact sortStrings_eq_of_perm h

theorem transStep_congr {d₁ d₂ : String → List String}
    (h : ∀ c, sortedDependents (d₁ c) = sortedDependents (d₂ c)) (s : TransSt) :
    transStep d₁ s = transStep d₂ s := by
  unfold transStep
  rcases hq : s.queue with _ | ⟨c, rest⟩
  · rfl
  · dsimp only
    rw [h c]

theorem distStep_congr {d₁ d₂ : String → List String}
    (h : ∀ c, sortedDependents (d₁ c) = sortedDependents (d₂ c)) (s : DistSt) :
    distStep d₁ s = distStep d₂ s := by
  unfold distStep
  rcases hq : s.queue with _ | ⟨⟨current, dist⟩, rest⟩
  · rfl
  · dsimp only
    rw [h current]

theorem findTransitiveComponents_congr {m₁ m₂ : ProjectModel}
    (h : ∀ c, sortedDependents (depsOf m₁ c) = sortedDependents (depsOf m₂ c))
    (fuel : Nat) (direct : List String) :
    findTransitiveComponents fuel m₁ direct = findTransitiveComponents fuel m₂ direct := by
  unfold findTransitiveComponents
  congr 1
  exact iterStep_congr (fun s => transStep_congr h s) (fun s => rfl) fuel _

theorem calculateDistances_congr {m₁ m₂ : ProjectModel}
    (h : ∀ c, sortedDependents (depsOf m₁ c) = sortedDependents (depsOf m₂ c))
    (fuel : Nat) (direct : List String) :
    calculateDistances fuel m₁ direct = calculateDistances fuel m₂ direct := by
  unfold calculateDistances
  congr 1
  exact iterStep_congr (fun s => distStep_congr h s) (fun s => rfl) fuel _

theorem forall₂_deps_sum :
    ∀ {d₁ d₂ : List (String × List String)},
      List.Forall₂ (fun p q : String × List String => p.1 = q.1 ∧ p.2.Perm q.2) d₁ d₂ →
      (d₁.map (fun p => p.2.length)).sum = (d₂.map (fun p => p.2.length)).sum := by
  intro d₁ d₂ h
  induction h with
  | nil => rfl
  | @cons a b l₁ l₂ hab hrest ih =>
    simp only [List.map_cons, List.sum_cons]
    rw [hab.2.length_eq, ih]

theorem depsTotal_eq {m₁ m₂ : ProjectModel}
    (h : List.Forall₂ (fun p q : String × List String => p.1 = q.1 ∧ p.2.Perm q.2)
      m₁.dependentsByComponent m₂.dependentsByComponent) :
    depsTotal m₁ = depsTotal m₂ := forall₂_deps_sum h

/-- C1 (amended): `analyze()` is a pure function — repeated calls on the
same inputs return the same report — and its output is invariant under
re-ordering of the `discoveredEdges` list and of the per-component
`dependentsByComponent` lists, PROVIDED no two distinct discovered edges
share a merge key `(normalized source, normalized target, type)` with
equal confidence; with such a tie the merge keeps whichever discovered
edge was inserted first, and the output can depend on insertion order. -/
theorem analyze_insertion_order_invariant (matcher : String → String → Bool)
    (m₁ m₂ : ProjectModel) (changes : List ChangedFile)
    (hre : ModelReordered m₁ m₂) (hties : NoDiscoveredTies m₁) :
    analyze matcher m₁ changes = analyze matcher m₂ changes := by
  have hmer : getMergedEdges m₁ = getMergedEdges m₂ := getMergedEdges_reordered hre hties
  obtain ⟨hcomp, hdecl, hdisc, hdeps⟩ := hre
  have hsd : ∀ c, sortedDependents (depsOf m₁ c) = sortedDependents (depsOf m₂ c) :=
    fun c => sortedDependents_congr (mapGetD_forall₂_perm hdeps c)
  have hfuel : defaultFuel m₁ changes = defaultFuel m₂ changes := by
    unfold defaultFuel
    rw [hcomp, hdecl, hdisc.length_eq, depsTotal_eq hdeps]
  have htr := findTransitiveComponents_congr hsd
  have hdi := calculateDistances_congr hsd
  unfold analyze
  rw [hfuel]
  simp only [analyzeFuel, buildImpactEdges, impactEdgesRaw]
  rw [hcomp, hmer, htr, hdi]
def c1matcher : String → String → Bool := fun _ _ => false

/-- Two discovered edges with the same merge key and the same confidence,
differing only in `detection_method`. -/
def c1edge1 : Edge := ⟨"a", "b", .imp, 1, .ast, none⟩

def c1edge2 : Edge := ⟨"a", "b", .imp, 1, .regex, none⟩

def c1model1 : ProjectModel := ⟨[], [], [c1edge1, c1edge2], []⟩

def c1model2 : ProjectModel := ⟨[], [], [c1edge2, c1edge1], []⟩

/-- Counterexample to C1 as stated: with two discovered edges tying on
key and confidence, swapping their insertion order changes the
`detection_method` carried by `fileImpactEdges` — the strict-improvement
merge keeps whichever edge came first. -/
theorem analyze_depends_on_insertion_order :
    ModelReordered c1model1 c1model2 ∧
    (analyze c1matcher c1model1 [⟨"a"⟩]).fileImpactEdges.map
      (fun e => e.detection_method) = [.ast] ∧
    (analyze c1matcher c1model2 [⟨"a"⟩]).fileImpactEdges.map
      (fun e => e.detection_method) = [.regex] := by
  refine ⟨⟨rfl, rfl, List.Perm.swap c1edge2 c1edge1 [], List.Forall₂.nil⟩, ?_, ?_⟩
  · decide
  · decide

def c1wedge1 : Edge := ⟨"a", "b", .imp, 1, .ast, none⟩

def c1wedge2 : Edge := ⟨"a", "c", .imp, 1, .regex, none⟩

def c1wmodel1 : ProjectModel :=
  ⟨[], [], [c1wedge1, c1wedge2], [("x", ["p", "q"])]⟩

def c1wmodel2 : ProjectModel :=
  ⟨[], [], [c1wedge2, c1wedge1], [("x", ["q", "p"])]⟩

/-- Witness: a tie-free reordered model pair yields identical reports. -/
theorem analyze_insertion_order_invariant_witness :
    analyze c1matcher c1wmodel1 [⟨"a"⟩] = analyze c1matcher c1wmodel2 [⟨"a"⟩] :=
  analyze_insertion_order_invariant c1matcher c1wmodel1 c1wmodel2 [⟨"a"⟩]
    ⟨rfl, rfl, List.Perm.swap c1wedge2 c1wedge1 [],
      List.Forall₂.cons ⟨rfl, List.Perm.swap "q" "p" []⟩ List.Forall₂.nil⟩
    (by unfold NoDiscoveredTies; decide)
end Aidev
